import Mathlib

/-!
# gdwg::graph

A shallow embedding of `include/gdwg/graph.hpp` (a directed weighted graph container
built from `std::set<std::shared_ptr<N>, NodeCompare>` and
`std::map<N*, std::set<std::pair<N*, E>, EdgeCompare>, MapCompare>`), and the
properties proved of its public operations.

## Modelling conventions

* An ordered container (`std::set`, `std::map`) is the list of its elements in iteration
  order.  Every lookup goes through the container's comparator exactly as in the source:
  a probe is a pair of tests `below e` (`comp(e, key)`) and `above e` (`comp(key, e)`).
* A node pointer `N*` / `std::shared_ptr<N>` is represented by the value it points to.
  The pointee of a node is never assigned to after `std::make_shared<N>(value)`, and
  all three comparators dereference before comparing, so the value determines
  every comparison the code makes.
* A container iterator is represented by the element it designates (`none` is `end()`);
  elements are unique inside one container, so this identifies the tree node.  As in
  every node based implementation of the standard library, an iterator is a pointer to
  its tree node: after `extract` followed by a successful `insert` of the same node
  handle the iterator designates that node at its new position.
* A mutator returns the exit state of the object next to its result; a `throw` leaves
  the state that had been reached when the exception was raised.
* Behaviour that has no meaning at all (dereferencing `end()`, touching a destroyed
  tree node, reading past the end of a range) is the value `none`.
* The position `end()` of a container belongs to the container object, not to its tree:
  move construction and `std::swap` hand the tree nodes to another object, and iterators
  to elements stay what they were, but a stored `end()` of the first object is not the
  `end()` of the second (`iterator.incr_transferred`).
* An output stream is the text written to it so far; the texts that `operator<<` writes
  for a value of `N` and of `E` are parameters of the extractor.
* `graph.Reachable` collects the graphs that sequences of public operations produce.  The
  model keeps computing on a graph with a dangling edge, where the source would compare
  through a pointer to a destroyed node, so it produces at least the graphs the source
  does.
-/

namespace gdwg

/-! ## Ordered containers -/

section containers

variable {α : Type}

/-- Search of an ordered container by a probe: `lower_bound` followed by the
equivalence test, the way `std::set::find` and `std::map::find` work. -/
def find_by (below above : α → Bool) : List α → Option α
  | [] => none
  | e :: es => if below e then find_by below above es else if above e then none else some e

/-- Insertion with unique keys (`std::set::insert`, `emplace`, node handle `insert`):
the new container and whether the insertion took place. -/
def insert_by (below above : α → Bool) (x : α) : List α → List α × Bool
  | [] => ([x], true)
  | e :: es =>
    if below e then ((e :: (insert_by below above x es).1), (insert_by below above x es).2)
    else if above e then (x :: e :: es, true)
    else (e :: es, false)

/-- Removal by key (`erase(key)`, `extract(key)`): the new container and the number of
elements removed (0 or 1). -/
def erase_by (below above : α → Bool) : List α → List α × Nat
  | [] => ([], 0)
  | e :: es =>
    if below e then ((e :: (erase_by below above es).1), (erase_by below above es).2)
    else if above e then (e :: es, 0)
    else (es, 1)

/-- In-place update of the element found by a probe (writing through `it->second`). -/
def modify_by (below above : α → Bool) (f : α → α) : List α → List α
  | [] => []
  | e :: es =>
    if below e then e :: modify_by below above f es
    else if above e then e :: es
    else f e :: es

/-- The first element not below the probe (`lower_bound`, first half of `equal_range`);
`none` is `end()`. -/
def lower_bound_by (below : α → Bool) : List α → Option α
  | [] => none
  | e :: es => if below e then lower_bound_by below es else some e

/-- The first element above the probe (`upper_bound`, second half of `equal_range`);
`none` is `end()`. -/
def upper_bound_by (above : α → Bool) : List α → Option α
  | [] => none
  | e :: es => if above e then some e else upper_bound_by above es

/-- Increment of an iterator that designates element `x`: the element after `x`, or
`none` for `end()`. -/
def successor [DecidableEq α] (x : α) : List α → Option α
  | [] => none
  | e :: es => if e = x then es.head? else successor x es

/-- Conditions on a comparator under which it is a strict total order, as the ordered
containers require of `NodeCompare`, `MapCompare` and `EdgeCompare`. -/
structure StrictTotal (lt : α → α → Bool) : Prop where
  irrefl : ∀ a, lt a a = false
  trans : ∀ a b c, lt a b = true → lt b c = true → lt a c = true
  total : ∀ a b, lt a b = false → lt b a = false → a = b

end containers

/-! ## Data model -/

/-- The outcome of an operation: the returned value, or the `std::runtime_error` thrown. -/
inductive Res (β : Type) where
  | ret (value : β)
  | throws (what : String)
deriving DecidableEq

/-- Data members of `gdwg::graph<N, E>`: `nodes_` (the registry) and `repr_` (the
adjacency map, one set of `(destination, weight)` pairs per key). -/
structure graph (N E : Type) where
  nodes_ : List N
  repr_ : List (N × List (N × E))
deriving DecidableEq

/-- Instances of `graph::value_type` (`from`, `to`, `weight`). -/
structure value_type (N E : Type) where
  from_ : N
  to_ : N
  weight : E
deriving DecidableEq

section comparators

variable {N E : Type} [LinearOrder N] [LinearOrder E]

/-- Comparator `NodeCompare::operator()`, all three overloads: `*lhs < *rhs`. -/
def NodeCompare (lhs rhs : N) : Bool := decide (lhs < rhs)

/-- Comparator `MapCompare::operator()`, all three overloads: `*lhs < *rhs`. -/
def MapCompare (lhs rhs : N) : Bool := decide (lhs < rhs)

/-- Comparator `EdgeCompare::operator()` on two pairs (the three pair overloads). -/
def EdgeCompare (lhs rhs : N × E) : Bool :=
  if lhs.1 = rhs.1 then decide (lhs.2 < rhs.2) else decide (lhs.1 < rhs.1)

/-- Comparator `EdgeCompare::operator()(N* const&, std::pair<N*, E> const&)`. -/
def EdgeCompare_key_pair (lhs : N) (rhs : N × E) : Bool := decide (lhs < rhs.1)

/-- Comparator `EdgeCompare::operator()(std::pair<N*, E> const&, N* const&)`. -/
def EdgeCompare_pair_key (lhs : N × E) (rhs : N) : Bool := decide (lhs.1 < rhs)

end comparators

/-! ## Operations of `graph<N, E>` -/

section operations

variable {N E : Type} [LinearOrder N] [LinearOrder E]

namespace graph

/-- Default constructor `graph()`: both containers empty. -/
def default : graph N E := ⟨[], []⟩

/-- Lookup `nodes_.find(value)`. -/
def nodes_find (g : graph N E) (value : N) : Option N :=
  find_by (fun e => NodeCompare e value) (fun e => NodeCompare value e) g.nodes_

/-- Lookup `repr_.find(value)`: the entry `(key, edges)` the returned iterator designates. -/
def repr_find (g : graph N E) (value : N) : Option (N × List (N × E)) :=
  find_by (fun kv => MapCompare kv.1 value) (fun kv => MapCompare value kv.1) g.repr_

/-- Member `insert_node`: the node is put in `nodes_`; only if that insertion took place an
empty edge set is emplaced in `repr_` under the new node. -/
def insert_node (g : graph N E) (value : N) : Bool × graph N E :=
  let ret := insert_by (fun e => NodeCompare e value) (fun e => NodeCompare value e) value g.nodes_
  if ret.2 then
    (true, ⟨ret.1,
      (insert_by (fun kv => MapCompare kv.1 value) (fun kv => MapCompare value kv.1)
        (value, ([] : List (N × E))) g.repr_).1⟩)
  else (false, ⟨ret.1, g.repr_⟩)

/-- Constructor `graph(InputIt first, InputIt last)` (and, through it, the
`initializer_list` constructor): `insert_node` on every value of the range, in order. -/
def of_range (values : List N) : graph N E :=
  values.foldl (fun g value => (g.insert_node value).2) default

/-- Message of the exception thrown by `insert_edge`. -/
def insert_edge_error : String :=
  "Cannot call gdwg::graph<N, E>::insert_edge when either src or dst node does not exist"

/-- Member `insert_edge`: both endpoints are looked up in `repr_`; the pair
`(dst_node->first, weight)` is emplaced in the edge set of the source entry. -/
def insert_edge (g : graph N E) (src dst : N) (weight : E) : Res Bool × graph N E :=
  match g.repr_find src, g.repr_find dst with
  | some src_node, some dst_node =>
    let ret := insert_by (fun e => EdgeCompare e (dst_node.1, weight))
      (fun e => EdgeCompare (dst_node.1, weight) e) (dst_node.1, weight) src_node.2
    (Res.ret ret.2,
      ⟨g.nodes_,
       modify_by (fun kv => MapCompare kv.1 src) (fun kv => MapCompare src kv.1)
         (fun kv => (kv.1, ret.1)) g.repr_⟩)
  | _, _ => (Res.throws insert_edge_error, g)

/-- Message of the exception thrown by `erase_edge(src, dst, weight)`. -/
def erase_edge_error : String :=
  "Cannot call gdwg::graph<N, E>::erase_edge on src or dst if they don't exist in the graph"

/-- Member `erase_edge(N const&, N const&, E const&)`: erases the pair
`(dst_node->first, weight)` from the edge set of the source entry and reports whether
one element was removed. -/
def erase_edge (g : graph N E) (src dst : N) (weight : E) : Res Bool × graph N E :=
  match g.repr_find src, g.repr_find dst with
  | some src_node, some dst_node =>
    let ret := erase_by (fun e => EdgeCompare e (dst_node.1, weight))
      (fun e => EdgeCompare (dst_node.1, weight) e) src_node.2
    (Res.ret (decide (ret.2 = 1)),
      ⟨g.nodes_,
       modify_by (fun kv => MapCompare kv.1 src) (fun kv => MapCompare src kv.1)
         (fun kv => (kv.1, ret.1)) g.repr_⟩)
  | _, _ => (Res.throws erase_edge_error, g)

/-- Inner loop of `erase_node` from the position of `it` (the head of the list):
`it = edges.erase(it)` already steps to the next element and the `for` header then
executes `++it` once more. -/
def erase_incoming_from (value : N) : List (N × E) → List (N × E)
  | [] => []
  | [e] => if e.1 = value then [] else [e]
  | e :: e2 :: rest =>
    if e.1 = value then e2 :: erase_incoming_from value rest else e :: e2 :: rest

/-- Inner loop of `erase_node` on one edge set, started at `it = edges.find(node.get())`. -/
def erase_incoming (value : N) : List (N × E) → List (N × E)
  | [] => []
  | e :: es =>
    if EdgeCompare_pair_key e value then e :: erase_incoming value es
    else if EdgeCompare_key_pair value e then e :: es
    else erase_incoming_from value (e :: es)

/-- Member `erase_node`. -/
def erase_node (g : graph N E) (value : N) : Bool × graph N E :=
  match g.nodes_find value with
  | some node =>
    let repr1 := g.repr_.map (fun kv => (kv.1, erase_incoming node kv.2))
    let repr2 := (erase_by (fun kv => MapCompare kv.1 node) (fun kv => MapCompare node kv.1) repr1).1
    let nodes1 := (erase_by (fun e => NodeCompare e node) (fun e => NodeCompare node e) g.nodes_).1
    (true, ⟨nodes1, repr2⟩)
  | none => (false, g)

/-- Algorithm `std::for_each(first, last, f)` as called in `replace_node` and
`merge_replace_node`, where `f` extracts the edge `*first`, points its destination to
`new_ptr` and inserts the node handle back.  `first` keeps designating the tree node it
was created on, so `++first` continues from the position at which the node was
reinserted.  Three situations have no meaning: `first` reaches `end()` while `last` is
another position (`none`: `*first` on `end()`), `extract` finds nothing (`tmp.value()` of
an empty handle), and the insertion is refused because the retargeted pair is already
present (the node is destroyed with the returned handle and `++first` reads it).
The first argument bounds the number of iterations. -/
def retarget_range (new_ptr : N) :
    Nat → List (N × E) → Option (N × E) → Option (N × E) → Option (List (N × E))
  | 0, _, _, _ => none
  | fuel + 1, edges, first, last =>
    if first = last then some edges
    else
      match first with
      | none => none
      | some edge =>
        let tmp := erase_by (fun e => EdgeCompare e edge) (fun e => EdgeCompare edge e) edges
        if tmp.2 = 0 then none
        else
          let value := (new_ptr, edge.2)
          let ret := insert_by (fun e => EdgeCompare e value) (fun e => EdgeCompare value e)
            value tmp.1
          if ret.2 then retarget_range new_ptr fuel ret.1 (successor value ret.1) last
          else none

/-- Body of the outer lambda of `replace_node` / `merge_replace_node` on one edge set:
`auto [begin, end] = edges.equal_range(old_ptr)` followed by the inner `std::for_each`.
Every iteration either turns one more destination into `new_ptr` or steps forward
over a pair that already has it, which bounds the iterations by
`(size + 1) * (size + 1)`. -/
def retarget_edges (old_ptr new_ptr : N) (edges : List (N × E)) : Option (List (N × E)) :=
  retarget_range new_ptr ((edges.length + 1) * (edges.length + 1)) edges
    (lower_bound_by (fun e => EdgeCompare_pair_key e old_ptr) edges)
    (upper_bound_by (fun e => EdgeCompare_key_pair old_ptr e) edges)

/-- Outer `std::for_each(repr_.begin(), repr_.end(), ...)` of `replace_node` and
`merge_replace_node`. -/
def retarget_all (old_ptr new_ptr : N) :
    List (N × List (N × E)) → Option (List (N × List (N × E)))
  | [] => some []
  | kv :: rest =>
    match retarget_edges old_ptr new_ptr kv.2 with
    | none => none
    | some edges =>
      match retarget_all old_ptr new_ptr rest with
      | none => none
      | some rest1 => some ((kv.1, edges) :: rest1)

/-- Message of the exception thrown by `replace_node`. -/
def replace_node_error : String :=
  "Cannot call gdwg::graph<N, E>::replace_node on a node that doesn't exist"

/-- Member `replace_node`. -/
def replace_node (g : graph N E) (old_data new_data : N) : Option (Res Bool × graph N E) :=
  match g.nodes_find old_data with
  | some old_node =>
    let ret := insert_by (fun e => NodeCompare e new_data) (fun e => NodeCompare new_data e)
      new_data g.nodes_
    if !ret.2 then some (Res.ret false, ⟨ret.1, g.repr_⟩)
    else
      match retarget_all old_node new_data g.repr_ with
      | none => none
      | some repr1 =>
        match find_by (fun kv => MapCompare kv.1 old_node) (fun kv => MapCompare old_node kv.1)
            repr1 with
        | none => none
        | some tmp =>
          let repr2 := (erase_by (fun kv => MapCompare kv.1 old_node)
            (fun kv => MapCompare old_node kv.1) repr1).1
          let repr3 := (insert_by (fun kv => MapCompare kv.1 new_data)
            (fun kv => MapCompare new_data kv.1) (new_data, tmp.2) repr2).1
          let nodes1 := (erase_by (fun e => NodeCompare e old_node)
            (fun e => NodeCompare old_node e) ret.1).1
          some (Res.ret true, ⟨nodes1, repr3⟩)
  | none => some (Res.throws replace_node_error, g)

/-- Member function `std::set::merge`: every element of `source` that `target` accepts moves
to `target`; the others stay in `source`.  The result is (target, source). -/
def set_merge : List (N × E) → List (N × E) → List (N × E) × List (N × E)
  | target, [] => (target, [])
  | target, e :: es =>
    let ret := insert_by (fun x => EdgeCompare x e) (fun x => EdgeCompare e x) e target
    if ret.2 then set_merge ret.1 es
    else ((set_merge ret.1 es).1, e :: (set_merge ret.1 es).2)

/-- Message of the exception thrown by `merge_replace_node`. -/
def merge_replace_node_error : String :=
  "Cannot call gdwg::graph<N, E>::merge_replace_node on old or new data if they don't exist in the graph"

/-- Member `merge_replace_node`. -/
def merge_replace_node (g : graph N E) (old_data new_data : N) :
    Option (Res Unit × graph N E) :=
  match g.repr_find old_data, g.repr_find new_data with
  | some old_node, some new_node =>
    if old_node.1 = new_node.1 then some (Res.ret (), g)
    else
      match retarget_all old_node.1 new_node.1 g.repr_ with
      | none => none
      | some repr1 =>
        match find_by (fun kv => MapCompare kv.1 old_node.1) (fun kv => MapCompare old_node.1 kv.1)
            repr1,
          find_by (fun kv => MapCompare kv.1 new_node.1) (fun kv => MapCompare new_node.1 kv.1)
            repr1 with
        | some old_entry, some new_entry =>
          let merged := set_merge new_entry.2 old_entry.2
          let repr2 := modify_by (fun kv => MapCompare kv.1 new_node.1)
            (fun kv => MapCompare new_node.1 kv.1) (fun kv => (kv.1, merged.1)) repr1
          let repr3 := modify_by (fun kv => MapCompare kv.1 old_node.1)
            (fun kv => MapCompare old_node.1 kv.1) (fun kv => (kv.1, merged.2)) repr2
          let repr4 := (erase_by (fun kv => MapCompare kv.1 old_node.1)
            (fun kv => MapCompare old_node.1 kv.1) repr3).1
          match g.nodes_find old_data with
          | none => none
          | some node =>
            some (Res.ret (),
              ⟨(erase_by (fun e => NodeCompare e node) (fun e => NodeCompare node e) g.nodes_).1,
               repr4⟩)
        | _, _ => none
  | _, _ => some (Res.throws merge_replace_node_error, g)

/-- Member `clear`. -/
def clear (_g : graph N E) : graph N E := ⟨[], []⟩

/-- Member `is_node`. -/
def is_node (g : graph N E) (value : N) : Bool := (g.nodes_find value).isSome

/-- Member `empty`. -/
def empty (g : graph N E) : Bool := g.nodes_.isEmpty && g.repr_.isEmpty

/-- Member `nodes`: the values of `nodes_` in iteration order. -/
def nodes (g : graph N E) : List N := g.nodes_

/-- Move constructor: each member is `std::exchange`d with an empty container.
The result is the pair (constructed object, moved-from object). -/
def move_construct (other : graph N E) : graph N E × graph N E :=
  (⟨other.nodes_, other.repr_⟩, ⟨[], []⟩)

/-- Move assignment `this = std::move(other)`: the members are `std::swap`ped.
The result is the pair (assigned object, moved-from object). -/
def move_assign (this other : graph N E) : graph N E × graph N E :=
  (⟨other.nodes_, other.repr_⟩, ⟨this.nodes_, this.repr_⟩)

/-- Copy constructor and copy assignment: both members are copied. -/
def copy (other : graph N E) : graph N E := ⟨other.nodes_, other.repr_⟩

/-- The logical edges of the graph as `(source, destination, weight)` triples, entry by
entry of `repr_` and in the order of each edge set. -/
def edges (g : graph N E) : List (N × N × E) :=
  g.repr_.flatMap (fun kv => kv.2.map (fun e => (kv.1, e.1, e.2)))

end graph

/-! ## The edge iterator -/

/-- Data members of `graph::iterator`.  A position of `repr_` is the key of the entry it
designates and a position of an edge set is the pair it designates; `none` is
`repr_.end()` for the outer positions and the value-initialised `inner_it{}` for the
inner one. -/
structure iterator (N E : Type) where
  end_ : Option N
  outer_ : Option N
  inner_ : Option (N × E)
deriving DecidableEq

namespace iterator

/-- Constructor `iterator(outer_it begin, outer_it end)` on the entries of `[begin, end)`:
the first entry with a non-empty edge set gives the position, otherwise the result is
`(end, inner_it{})`. -/
def of_range : List (N × List (N × E)) → iterator N E
  | [] => ⟨none, none, none⟩
  | kv :: rest =>
    match kv.2 with
    | [] => of_range rest
    | e :: _ => ⟨none, some kv.1, some e⟩

/-- Dereference `operator*`; it has no meaning on a position that designates no edge. -/
def deref (it : iterator N E) : Option (value_type N E) :=
  match it.outer_, it.inner_ with
  | some src, some e => some ⟨src, e.1, e.2⟩
  | _, _ => none

/-- The entries of `repr_` from the one with key `k` on (the entry `outer_` designates and
what `++outer_` will visit); empty if no entry has that key. -/
def entries_from (k : N) : List (N × List (N × E)) → List (N × List (N × E))
  | [] => []
  | kv :: rest => if kv.1 = k then kv :: rest else entries_from k rest

/-- The `while` loop of `operator++` once `inner_` has reached the end of its edge set:
`rest` are the entries after `outer_`. -/
def skip_exhausted (end_ : Option N) : List (N × List (N × E)) → iterator N E
  | [] => ⟨end_, none, none⟩
  | kv :: rest =>
    match kv.2 with
    | [] => skip_exhausted end_ rest
    | e :: _ => ⟨end_, some kv.1, some e⟩

/-- Increment `operator++` of an iterator into the storage `repr_`; it has no
meaning on a position that designates no edge of that storage. -/
def incr (repr_ : List (N × List (N × E))) (it : iterator N E) : Option (iterator N E) :=
  match it.outer_, it.inner_ with
  | some src, some e =>
    match entries_from src repr_ with
    | [] => none
    | kv :: rest =>
      if e ∈ kv.2 then
        match successor e kv.2 with
        | some e1 => some ⟨it.end_, some src, some e1⟩
        | none => some (skip_exhausted it.end_ rest)
      else none
  | _, _ => none

/-- Comparison `iterator::operator==`: both positions match. -/
def operator_eq (lhs rhs : iterator N E) : Bool :=
  decide (lhs.outer_ = rhs.outer_) && decide (lhs.inner_ = rhs.inner_)

end iterator

namespace graph

/-- Member `begin`. -/
def begin (g : graph N E) : iterator N E := iterator.of_range g.repr_

/-- Member `end`. -/
def end_ (_g : graph N E) : iterator N E := ⟨none, none, none⟩

/-- Algorithm `std::equal(first1, last1, first2, pred)` on container iterators: the second
range is read as far as the first one goes, whatever its own length; reading it past
its end has no meaning. -/
def std_equal {α β : Type} (pred : α → β → Bool) : List α → List β → Option Bool
  | [], _ => some true
  | _ :: _, [] => none
  | a :: as, b :: bs => if pred a b then std_equal pred as bs else some false

/-- Algorithm `std::equal(first1, last1, first2, pred)` on edge iterators, `first1` and
`last1` into the storage `repr1` and `first2` into `repr2`.  The first argument bounds
the number of iterations. -/
def std_equal_edges (pred : value_type N E → value_type N E → Bool)
    (repr1 repr2 : List (N × List (N × E))) :
    Nat → iterator N E → iterator N E → iterator N E → Option Bool
  | 0, _, _, _ => none
  | fuel + 1, first1, last1, first2 =>
    if first1.operator_eq last1 then some true
    else
      match first1.deref, first2.deref with
      | some lhs, some rhs =>
        if pred lhs rhs then
          match first1.incr repr1, first2.incr repr2 with
          | some next1, some next2 => std_equal_edges pred repr1 repr2 fuel next1 last1 next2
          | _, _ => none
        else some false
      | _, _ => none

/-- Comparison `graph::operator==`: both `std::equal` calls are evaluated, then combined
with `and`.  The edge loop runs once per edge of `this`. -/
def operator_eq (this other : graph N E) : Option Bool :=
  match std_equal (fun lhs rhs => decide (lhs = rhs)) this.nodes_ other.nodes_ with
  | none => none
  | some nodes_are_equal =>
    match std_equal_edges
        (fun lhs rhs => decide (lhs.from_ = rhs.from_) && decide (lhs.to_ = rhs.to_)
          && decide (lhs.weight = rhs.weight))
        this.repr_ other.repr_ (this.edges.length + 1) this.begin this.end_ other.begin with
    | none => none
    | some edges_are_equal => some (nodes_are_equal && edges_are_equal)

/-- The sequence of triples a full forward traversal dereferences, from `it` until
`end()`; `none` if the traversal meets a position without meaning or does not finish
within the given number of steps. -/
def traverse_from (g : graph N E) : Nat → iterator N E → Option (List (value_type N E))
  | 0, _ => none
  | fuel + 1, it =>
    if it.operator_eq g.end_ then some []
    else
      match it.deref, it.incr g.repr_ with
      | some v, some next =>
        match traverse_from g fuel next with
        | some vs => some (v :: vs)
        | none => none
      | _, _ => none

/-- Full forward traversal `for (auto it = g.begin(); it != g.end(); ++it)`. -/
def traversal (g : graph N E) : Option (List (value_type N E)) :=
  g.traverse_from (g.edges.length + 1) g.begin

/-- Message of the exception thrown by `is_connected`. -/
def is_connected_error : String :=
  "Cannot call gdwg::graph<N, E>::is_connected if src or dst node don't exist in the graph"

/-- Member `is_connected`: `edges.find(dst_node->first) != edges.end()` on the edge set of
the source entry. -/
def is_connected (g : graph N E) (src dst : N) : Res Bool :=
  match g.repr_find src, g.repr_find dst with
  | some src_node, some dst_node =>
    Res.ret (find_by (fun e => EdgeCompare_pair_key e dst_node.1)
      (fun e => EdgeCompare_key_pair dst_node.1 e) src_node.2).isSome
  | _, _ => Res.throws is_connected_error

/-- The elements of an ordered container from the position that `find` returns up to
the end of the container; empty when `find` returns `end()`. -/
def from_find {α : Type} (below above : α → Bool) : List α → List α
  | [] => []
  | e :: es => if below e then from_find below above es else if above e then [] else e :: es

/-- Loop of `weights` from the position of `it`: the weight is pushed while
`*(it->first) == dst`, the first other destination breaks the loop. -/
def weights_loop (dst : N) : List (N × E) → List E
  | [] => []
  | e :: es => if e.1 = dst then e.2 :: weights_loop dst es else []

/-- Message of the exception thrown by `weights`. -/
def weights_error : String :=
  "Cannot call gdwg::graph<N, E>::weights if src or dst node don't exist in the graph"

/-- Member `weights`: the loop starts at `edges.find(dst_node->first)`. -/
def weights (g : graph N E) (src dst : N) : Res (List E) :=
  match g.repr_find src, g.repr_find dst with
  | some src_node, some dst_node =>
    Res.ret (weights_loop dst
      (from_find (fun e => EdgeCompare_pair_key e dst_node.1)
        (fun e => EdgeCompare_key_pair dst_node.1 e) src_node.2))
  | _, _ => Res.throws weights_error

/-- Member `find`: the source entry is looked up in `repr_`, then the pair
`(dst, weight)` in its edge set; both failures give `end()`. -/
def find (g : graph N E) (src dst : N) (weight : E) : iterator N E :=
  match g.repr_find src with
  | some src_node =>
    match find_by (fun e => EdgeCompare e (dst, weight)) (fun e => EdgeCompare (dst, weight) e)
        src_node.2 with
    | some edge => ⟨none, some src_node.1, some edge⟩
    | none => g.end_
  | none => g.end_

/-- Algorithm `std::unique` followed by `erase` of the tail: of every run of equal
consecutive values one is kept. -/
def std_unique {α : Type} [DecidableEq α] : List α → List α
  | [] => []
  | [a] => [a]
  | a :: b :: rest => if a = b then std_unique (b :: rest) else a :: std_unique (b :: rest)

/-- Message of the exception thrown by `connections`. -/
def connections_error : String :=
  "Cannot call gdwg::graph<N, E>::connections if src doesn't exist in the graph"

/-- Member `connections`: the destinations of the edge set of the source entry, in
order, with consecutive duplicates removed. -/
def connections (g : graph N E) (src : N) : Res (List N) :=
  match g.repr_find src with
  | some src_node => Res.ret (std_unique (src_node.2.map Prod.fst))
  | none => Res.throws connections_error

end graph

namespace iterator

/-- Decrement of a set iterator that designates element `x`: the element before `x`;
`none` if `x` is the first element or is not in the container. -/
def predecessor {α : Type} [DecidableEq α] (x : α) : List α → Option α
  | [] => none
  | [_] => none
  | a :: b :: rest => if b = x then some a else predecessor x (b :: rest)

/-- The entries of `repr_` before the one with key `k` (what `--outer_` will visit) and
that entry; `none` if no entry has that key. -/
def split_at_key (k : N) :
    List (N × List (N × E)) → Option (List (N × List (N × E)) × (N × List (N × E)))
  | [] => none
  | kv :: rest =>
    if kv.1 = k then some ([], kv)
    else
      match split_at_key k rest with
      | some r => some (kv :: r.1, r.2)
      | none => none

/-- The `while` loop of `operator--` followed by `--inner_`, on the entries before
`outer_`, the nearest first: `--outer_; inner_ = outer_->second.end()` is repeated while the
edge set reached is empty, then `--inner_` gives its last pair.  Stepping back from the
first entry (`--outer_` on `repr_.begin()`) has no meaning. -/
def retreat (end_ : Option N) : List (N × List (N × E)) → Option (iterator N E)
  | [] => none
  | kv :: before =>
    match kv.2.getLast? with
    | none => retreat end_ before
    | some e => some ⟨end_, some kv.1, some e⟩

/-- Decrement `operator--` of an iterator into the storage `repr_`.  When `outer_` is
`end_` (which is `repr_.end()` in every iterator a graph hands out) or `inner_` is the
first pair of its edge set, the loop steps back over the entries; otherwise only
`--inner_` is executed. -/
def decr (repr_ : List (N × List (N × E))) (it : iterator N E) : Option (iterator N E) :=
  match it.outer_, it.inner_ with
  | none, _ => retreat it.end_ repr_.reverse
  | some src, some e =>
    match split_at_key src repr_ with
    | none => none
    | some (before, kv) =>
      if e ∈ kv.2 then
        if kv.2.head? = some e then retreat it.end_ before.reverse
        else
          match predecessor e kv.2 with
          | some e1 => some ⟨it.end_, some src, some e1⟩
          | none => none
      else none
  | some _, none => none

/-- The iterator that designates the edge `t`. -/
def at_edge (t : N × N × E) : iterator N E := ⟨none, some t.1, some t.2⟩

/-- The iterator that designates the edge `t`, or `end()` for `none`. -/
def at_pos : Option (N × N × E) → iterator N E
  | none => ⟨none, none, none⟩
  | some t => at_edge t

end iterator

namespace graph

/-- Write access through `non_const_outer->second` in `erase_edge(iterator)`: the edge set
of the entry that `outer_` designates is replaced by `f` of it. -/
def update_entry (k : N) (f : List (N × E) → List (N × E)) :
    List (N × List (N × E)) → List (N × List (N × E))
  | [] => []
  | kv :: rest => if kv.1 = k then (kv.1, f kv.2) :: rest else kv :: update_entry k f rest

/-- Member `erase_edge(iterator i)`: `end()` is returned as it is; otherwise a copy of
`i` is incremented, the pair `i.inner_` designates is erased from the edge set of the
entry `i.outer_` designates, and the copy is returned. -/
def erase_edge_it (g : graph N E) (i : iterator N E) : Option (iterator N E × graph N E) :=
  if i.operator_eq g.end_ then some (i, g)
  else
    match i.incr g.repr_ with
    | none => none
    | some copy =>
      match i.outer_, i.inner_ with
      | some k, some e => some (copy, ⟨g.nodes_, update_entry k (fun es => es.erase e) g.repr_⟩)
      | _, _ => none

/-- Loop of `erase_edge(iterator i, iterator s)`:
`while (i != s and i != end()) i = erase_edge(i);`.  The first argument bounds the number
of iterations. -/
def erase_edge_loop : Nat → graph N E → iterator N E → iterator N E →
    Option (iterator N E × graph N E)
  | 0, _, _, _ => none
  | fuel + 1, g, i, s =>
    if !(i.operator_eq s) && !(i.operator_eq g.end_) then
      match g.erase_edge_it i with
      | none => none
      | some r => erase_edge_loop fuel r.2 r.1 s
    else some (i, g)

/-- Member `erase_edge(iterator i, iterator s)`; every iteration erases one edge. -/
def erase_edge_range (g : graph N E) (i s : iterator N E) : Option (iterator N E × graph N E) :=
  erase_edge_loop (g.edges.length + 1) g i s

/-- The iterator reached from `it` by `n` increments. -/
def advance (g : graph N E) : Nat → iterator N E → Option (iterator N E)
  | 0, it => some it
  | n + 1, it =>
    match it.incr g.repr_ with
    | none => none
    | some next => advance g n next

/-- The sequence of triples dereferenced by `do { --it; ... *it ... } while (it != begin())`
started at `it`; `none` if a decrement or a dereference has no meaning or if `begin()`
is not reached within the given number of steps. -/
def traverse_back_from (g : graph N E) : Nat → iterator N E → Option (List (value_type N E))
  | 0, _ => none
  | fuel + 1, it =>
    match it.decr g.repr_ with
    | none => none
    | some prev =>
      match prev.deref with
      | none => none
      | some v =>
        if prev.operator_eq g.begin then some [v]
        else
          match traverse_back_from g fuel prev with
          | some vs => some (v :: vs)
          | none => none

/-- Full backward traversal from `end()` to `begin()`. -/
def reverse_traversal (g : graph N E) : Option (List (value_type N E)) :=
  g.traverse_back_from g.edges.length g.end_

/-- The triple handed out by `operator*` for a logical edge. -/
def to_value (t : N × N × E) : value_type N E := ⟨t.1, t.2.1, t.2.2⟩

end graph

namespace graph

/-- Extractor `operator<<(os, g)`: the loops over `g.repr_` and over each edge set, writing
to the stream `os`, modelled by the text written so far.  `text_N` and `text_E` are the
texts that `os << *from` and `os << weight` write for a node and for a weight. -/
def operator_lshift (text_N : N → String) (text_E : E → String) (os : String)
    (g : graph N E) : String :=
  g.repr_.foldl (fun os kv =>
    (kv.2.foldl (fun os e => os ++ "  " ++ text_N e.1 ++ " | " ++ text_E e.2 ++ "\n")
      (os ++ text_N kv.1 ++ " (\n")) ++ ")\n") os

/-- The edge set stored under the key `src`, empty if there is no such key. -/
def outgoing (g : graph N E) (src : N) : List (N × E) :=
  match g.repr_find src with
  | some kv => kv.2
  | none => []

/-- Calls of `insert_edge(src, dst, weight)` for the triples of `es`, in that order; a call
that throws leaves the graph as it is. -/
def insert_edges (g : graph N E) (es : List (N × N × E)) : graph N E :=
  es.foldl (fun g t => (g.insert_edge t.1 t.2.1 t.2.2).2) g

end graph

namespace iterator

/-- The `while` loop of `operator++` of an iterator created on a container whose tree has
since been handed to another container object (move construction, `std::swap`).  The tree
nodes are the same objects, but `end_` is still the header of the first container, and no
position of the receiving container equals it: past the last entry `outer_` is the
`end()` of the receiving container, `outer_ != end_` holds and `outer_->second` is read
on it, which has no meaning. -/
def skip_exhausted_stale (end_ : Option N) : List (N × List (N × E)) → Option (iterator N E)
  | [] => none
  | kv :: rest =>
    match kv.2 with
    | [] => skip_exhausted_stale end_ rest
    | e :: _ => some ⟨end_, some kv.1, some e⟩

/-- Increment `operator++` of an iterator created on another container object than the
one that now owns the storage `repr_`. -/
def incr_transferred (repr_ : List (N × List (N × E))) (it : iterator N E) :
    Option (iterator N E) :=
  match it.outer_, it.inner_ with
  | some src, some e =>
    match entries_from src repr_ with
    | [] => none
    | kv :: rest =>
      if e ∈ kv.2 then
        match successor e kv.2 with
        | some e1 => some ⟨it.end_, some src, some e1⟩
        | none => skip_exhausted_stale it.end_ rest
      else none
  | _, _ => none

end iterator

end operations

/-! ## Well-formed graphs and example graphs -/

section wf

variable {N E : Type} [LinearOrder N] [LinearOrder E]

/-- Class invariant of `graph`: `nodes_` is strictly ascending, the keys of `repr_` are the
nodes, in the same order, and every edge set is strictly ascending for `EdgeCompare`.
Destinations are not constrained. -/
def graph.WF (g : graph N E) : Prop :=
  g.nodes_.Pairwise (fun a b => a < b) ∧
  g.repr_.map Prod.fst = g.nodes_ ∧
  ∀ kv ∈ g.repr_, kv.2.Pairwise (fun a b => EdgeCompare a b = true)

instance graph.decidableWF (g : graph N E) : Decidable g.WF := by
  unfold graph.WF
  infer_instance

/-- No dangling edge: the destination of every edge is a node of the graph.  An edge
whose destination is not a node holds a pointer to a destroyed node, and every
comparison that reads it has no meaning in the source. -/
def graph.closed (g : graph N E) : Prop :=
  ∀ t ∈ g.edges, g.is_node t.2.1 = true

instance graph.decidableClosed (g : graph N E) : Decidable g.closed := by
  unfold graph.closed
  infer_instance

/-- The graphs that the public operations produce, starting from the default constructor:
constructors, assignments and every modifier, whatever the call returns or throws.  A call
whose behaviour has no meaning produces no graph. -/
inductive graph.Reachable : graph N E → Prop
  | default : Reachable graph.default
  | of_range (values : List N) : Reachable (graph.of_range values)
  | copy (g : graph N E) : Reachable g → Reachable g.copy
  | move_construct_target (g : graph N E) : Reachable g → Reachable g.move_construct.1
  | move_construct_source (g : graph N E) : Reachable g → Reachable g.move_construct.2
  | move_assign_target (g other : graph N E) :
      Reachable g → Reachable other → Reachable (g.move_assign other).1
  | move_assign_source (g other : graph N E) :
      Reachable g → Reachable other → Reachable (g.move_assign other).2
  | insert_node (g : graph N E) (value : N) : Reachable g → Reachable (g.insert_node value).2
  | insert_edge (g : graph N E) (src dst : N) (weight : E) :
      Reachable g → Reachable (g.insert_edge src dst weight).2
  | replace_node (g : graph N E) (old_data new_data : N) (r : Res Bool × graph N E) :
      Reachable g → g.replace_node old_data new_data = some r → Reachable r.2
  | merge_replace_node (g : graph N E) (old_data new_data : N) (r : Res Unit × graph N E) :
      Reachable g → g.merge_replace_node old_data new_data = some r → Reachable r.2
  | erase_node (g : graph N E) (value : N) : Reachable g → Reachable (g.erase_node value).2
  | erase_edge (g : graph N E) (src dst : N) (weight : E) :
      Reachable g → Reachable (g.erase_edge src dst weight).2
  | erase_edge_it (g : graph N E) (i : iterator N E) (r : iterator N E × graph N E) :
      Reachable g → g.erase_edge_it i = some r → Reachable r.2
  | erase_edge_range (g : graph N E) (i s : iterator N E) (r : iterator N E × graph N E) :
      Reachable g → g.erase_edge_range i s = some r → Reachable r.2
  | clear (g : graph N E) : Reachable g → Reachable g.clear

/-- The logical edges stored in a list of entries of `repr_`, in storage order. -/
def entry_edges (r : List (N × List (N × E))) : List (N × N × E) :=
  r.flatMap (fun kv => kv.2.map (fun e => (kv.1, e.1, e.2)))

/-- Lexicographic order of edges by (source, destination, weight). -/
def edge_lt (a b : N × N × E) : Prop :=
  a.1 < b.1 ∨ (a.1 = b.1 ∧ (a.2.1 < b.2.1 ∨ (a.2.1 = b.2.1 ∧ a.2.2 < b.2.2)))

instance edge_lt.decidable (a b : N × N × E) : Decidable (edge_lt a b) := by
  unfold edge_lt
  infer_instance

end wf

/-- Nodes 1, 2 with the parallel edges 1 → 2 of weights 0 and 1. -/
def example_parallel : graph Nat Nat :=
  (((graph.of_range [1, 2]).insert_edge 1 2 0).2.insert_edge 1 2 1).2

/-- Nodes 1, 2, 3 with the edges 1 → 2 (weight 7) and 1 → 3 (weight 8). -/
def example_fan : graph Nat Nat :=
  (((graph.of_range [1, 2, 3]).insert_edge 1 2 7).2.insert_edge 1 3 8).2

/-- Nodes 0, 1, 2, 3 with the edges 1 → 2 (weight 7) and 1 → 3 (weight 8). -/
def example_fan0 : graph Nat Nat :=
  (((graph.of_range [0, 1, 2, 3]).insert_edge 1 2 7).2.insert_edge 1 3 8).2

/-- Graph of `TEST_CASE("Test node replacement")` in `graph_test2.cpp`, with the weights
`"Hello!"`, `"How"`, `"are"`, `"you?"` replaced by 1, 2, 3, 4. -/
def scenario_replacement : graph Nat Nat :=
  (((((graph.of_range [1, 2, 3, 4]).insert_edge 1 2 1).2.insert_edge 1 3 2).2.insert_edge
    2 3 3).2.insert_edge 3 3 4).2

/-- Graph of the increment and decrement test cases of `graph_test4.cpp`, with the nodes
`'A'`..`'D'` replaced by 0..3: edges C → D (8), A → B (6), A → B (1). -/
def scenario_iterator : graph Nat Nat :=
  ((((graph.of_range [3, 0, 2, 1]).insert_edge 2 3 8).2.insert_edge 0 1 6).2.insert_edge 0 1 1).2

/-- Graph of `TEST_CASE("Test weights() returns all weights between two nodes")` and of
`TEST_CASE("Test find() finds edges")` in `graph_test3.cpp`, with the nodes `"Hello"`,
`"How"`, `"are"`, `"you?"` replaced by 0..3: four edges 0 → 2 of weights 3, 1, 4, 2. -/
def scenario_weights : graph Nat Nat :=
  (((((graph.of_range [0, 1, 2, 3]).insert_edge 0 2 3).2.insert_edge 0 2 1).2.insert_edge
    0 2 4).2.insert_edge 0 2 2).2

/-- Graph of the two iterator erasure test cases of `graph_test2.cpp`, with the nodes
`'A'`..`'D'` replaced by 0..3: edges A → D (1), B → A (3), C → C (2), B → D (4). -/
def scenario_erasure : graph Nat Nat :=
  (((((graph.of_range [0, 1, 2, 3]).insert_edge 0 3 1).2.insert_edge 1 0 3).2.insert_edge
    2 2 2).2.insert_edge 1 3 4).2

/-- Node 1 with the loop 1 → 1 of weight 0. -/
def example_loop : graph Nat Nat :=
  ((graph.of_range [1]).insert_edge 1 1 0).2

/-- Graph of `TEST_CASE("Test extractor prints correct output")` in `graph_test5.cpp`:
`graph<int, int>` with the nodes 1..6, ten edges inserted in the order of the test, and
node 64 inserted last. -/
def scenario_extractor : graph Int Int :=
  (((graph.of_range [1, 2, 3, 4, 5, 6]).insert_edges
    [(4, 1, -4), (3, 2, 2), (2, 4, 2), (2, 1, 1), (6, 2, 5), (6, 3, 10), (1, 5, -1), (3, 6, -8),
      (4, 5, 3), (5, 2, 7)]).insert_node 64).2

end gdwg


/-! ## Lemmas on the ordered containers -/

namespace gdwg

section lemmas
variable {α : Type}

theorem insert_by_below (below above : α → Bool) (x e : α) (es : List α) (h : below e = true) :
    insert_by below above x (e :: es)
      = (e :: (insert_by below above x es).1, (insert_by below above x es).2) := by
  simp [insert_by, h]

theorem insert_by_above (below above : α → Bool) (x e : α) (es : List α)
    (h : below e = false) (h1 : above e = true) :
    insert_by below above x (e :: es) = (x :: e :: es, true) := by
  simp [insert_by, h, h1]

theorem insert_by_equiv (below above : α → Bool) (x e : α) (es : List α)
    (h : below e = false) (h1 : above e = false) :
    insert_by below above x (e :: es) = (e :: es, false) := by
  simp [insert_by, h, h1]

theorem insert_by_of_find_by (below above : α → Bool) (x : α) (l : List α)
    (h : (find_by below above l).isSome = true) : insert_by below above x l = (l, false) := by
  induction l with
  | nil => simp [find_by] at h
  | cons e es ih =>
    simp only [find_by] at h
    simp only [insert_by]
    by_cases hb : below e = true
    · simp only [hb, if_true] at h ⊢
      rw [ih h]
    · by_cases ha : above e = true
      · simp [hb, ha] at h
      · simp [hb, ha]

theorem find_by_map_fst {κ β : Type} (below above : κ → Bool) (l : List (κ × β)) :
    (find_by (fun kv => below kv.1) (fun kv => above kv.1) l).isSome
      = (find_by below above (l.map Prod.fst)).isSome := by
  induction l with
  | nil => rfl
  | cons e es ih =>
    simp only [find_by, List.map]
    by_cases hb : below e.1 = true
    · simp only [hb, if_true]; exact ih
    · by_cases ha : above e.1 = true
      · simp [hb, ha]
      · simp [hb, ha]

theorem mem_insert_by (lt : α → α → Bool) (hlt : StrictTotal lt) (x a : α) (l : List α) :
    a ∈ (insert_by (fun e => lt e x) (fun e => lt x e) x l).1 ↔ a = x ∨ a ∈ l := by
  induction l with
  | nil => simp [insert_by]
  | cons e es ih =>
    rcases Bool.eq_false_or_eq_true (lt e x) with hb | hb
    · rw [insert_by_below (fun e => lt e x) (fun e => lt x e) x e es hb]
      simp only [List.mem_cons, ih]
      tauto
    · rcases Bool.eq_false_or_eq_true (lt x e) with ha | ha
      · rw [insert_by_above (fun e => lt e x) (fun e => lt x e) x e es hb ha]
        simp
      · rw [insert_by_equiv (fun e => lt e x) (fun e => lt x e) x e es hb ha]
        have hxe : e = x := hlt.total e x hb ha
        simp [hxe]

theorem insert_by_flag (lt : α → α → Bool) (hlt : StrictTotal lt) (x : α) (l : List α)
    (hs : l.Pairwise (fun a b => lt a b = true)) :
    (insert_by (fun e => lt e x) (fun e => lt x e) x l).2 = true ↔ x ∉ l := by
  induction l with
  | nil => simp [insert_by]
  | cons e es ih =>
    rw [List.pairwise_cons] at hs
    rcases Bool.eq_false_or_eq_true (lt e x) with hb | hb
    · rw [insert_by_below (fun e => lt e x) (fun e => lt x e) x e es hb]
      simp only [List.mem_cons, ih hs.2, not_or]
      constructor
      · intro h
        refine ⟨?_, h⟩
        intro hxe
        rw [hxe, hlt.irrefl] at hb
        exact Bool.false_ne_true hb
      · exact fun h => h.2
    · rcases Bool.eq_false_or_eq_true (lt x e) with ha | ha
      · rw [insert_by_above (fun e => lt e x) (fun e => lt x e) x e es hb ha]
        simp only [List.mem_cons, not_or, true_iff]
        refine ⟨?_, ?_⟩
        · intro hxe
          rw [hxe, hlt.irrefl] at ha
          exact Bool.false_ne_true ha
        · intro hx
          have := hlt.trans x e x ha (hs.1 x hx)
          rw [hlt.irrefl] at this
          exact Bool.false_ne_true this
      · rw [insert_by_equiv (fun e => lt e x) (fun e => lt x e) x e es hb ha]
        have hxe : e = x := hlt.total e x hb ha
        simp [hxe]

theorem insert_by_twice (lt : α → α → Bool) (hlt : StrictTotal lt) (x : α) (l : List α) :
    insert_by (fun e => lt e x) (fun e => lt x e) x
        (insert_by (fun e => lt e x) (fun e => lt x e) x l).1
      = ((insert_by (fun e => lt e x) (fun e => lt x e) x l).1, false) := by
  induction l with
  | nil => simp [insert_by, hlt.irrefl]
  | cons e es ih =>
    rcases Bool.eq_false_or_eq_true (lt e x) with hb | hb
    · rw [insert_by_below (fun e => lt e x) (fun e => lt x e) x e es hb]
      simp only
      rw [insert_by_below (fun e => lt e x) (fun e => lt x e) x e _ hb, ih]
    · rcases Bool.eq_false_or_eq_true (lt x e) with ha | ha
      · rw [insert_by_above (fun e => lt e x) (fun e => lt x e) x e es hb ha]
        simp only
        rw [insert_by_equiv (fun e => lt e x) (fun e => lt x e) x x (e :: es) (hlt.irrefl x) (hlt.irrefl x)]
      · rw [insert_by_equiv (fun e => lt e x) (fun e => lt x e) x e es hb ha]
        simp only
        rw [insert_by_equiv (fun e => lt e x) (fun e => lt x e) x e es hb ha]

variable {N E : Type} [LinearOrder N] [LinearOrder E]

theorem EdgeCompare_iff (a b : N × E) :
    EdgeCompare a b = true ↔ a.1 < b.1 ∨ (a.1 = b.1 ∧ a.2 < b.2) := by
  unfold EdgeCompare
  by_cases h : a.1 = b.1
  · simp [h]
  · simp [h]

theorem EdgeCompare_strictTotal : StrictTotal (EdgeCompare : N × E → N × E → Bool) where
  irrefl a := by
    rw [← Bool.not_eq_true, EdgeCompare_iff]
    simp
  trans a b c hab hbc := by
    rw [EdgeCompare_iff] at *
    rcases hab with h | ⟨h1, h2⟩ <;> rcases hbc with h' | ⟨h1', h2'⟩
    · exact Or.inl (lt_trans h h')
    · exact Or.inl (h1' ▸ h)
    · exact Or.inl (h1 ▸ h')
    · exact Or.inr ⟨h1.trans h1', lt_trans h2 h2'⟩
  total a b hab hba := by
    rw [← Bool.not_eq_true, EdgeCompare_iff] at hab hba
    push_neg at hab hba
    have h1 : a.1 = b.1 := le_antisymm hba.1 hab.1
    have h2 : a.2 = b.2 := le_antisymm (hba.2 h1.symm) (hab.2 h1)
    exact Prod.ext h1 h2

end lemmas

section maps

variable {α : Type}

theorem find_by_below (below above : α → Bool) (e : α) (es : List α) (h : below e = true) :
    find_by below above (e :: es) = find_by below above es := by
  simp [find_by, h]

theorem find_by_above (below above : α → Bool) (e : α) (es : List α)
    (h : below e = false) (h1 : above e = true) :
    find_by below above (e :: es) = none := by
  simp [find_by, h, h1]

theorem find_by_equiv (below above : α → Bool) (e : α) (es : List α)
    (h : below e = false) (h1 : above e = false) :
    find_by below above (e :: es) = some e := by
  simp [find_by, h, h1]

theorem modify_by_below (below above : α → Bool) (f : α → α) (e : α) (es : List α)
    (h : below e = true) :
    modify_by below above f (e :: es) = e :: modify_by below above f es := by
  simp [modify_by, h]

theorem modify_by_above (below above : α → Bool) (f : α → α) (e : α) (es : List α)
    (h : below e = false) (h1 : above e = true) :
    modify_by below above f (e :: es) = e :: es := by
  simp [modify_by, h, h1]

theorem modify_by_equiv (below above : α → Bool) (f : α → α) (e : α) (es : List α)
    (h : below e = false) (h1 : above e = false) :
    modify_by below above f (e :: es) = f e :: es := by
  simp [modify_by, h, h1]

variable {N V : Type} [LinearOrder N]

theorem MapCompare_iff (a b : N) : MapCompare a b = true ↔ a < b := by
  simp [MapCompare]

theorem MapCompare_false (a b : N) : MapCompare a b = false ↔ b ≤ a := by
  simp [MapCompare]

theorem find_by_key_some (k : N) (l : List (N × V)) (kv : N × V)
    (h : find_by (fun kv => MapCompare kv.1 k) (fun kv => MapCompare k kv.1) l = some kv) :
    kv.1 = k ∧ kv ∈ l := by
  induction l with
  | nil => simp [find_by] at h
  | cons e es ih =>
    rcases Bool.eq_false_or_eq_true (MapCompare e.1 k) with hb | hb
    · rw [find_by_below (fun kv => MapCompare kv.1 k) (fun kv => MapCompare k kv.1) e es hb] at h
      exact ⟨(ih h).1, List.mem_cons_of_mem _ (ih h).2⟩
    · rcases Bool.eq_false_or_eq_true (MapCompare k e.1) with ha | ha
      · rw [find_by_above (fun kv => MapCompare kv.1 k) (fun kv => MapCompare k kv.1) e es hb ha] at h
        exact absurd h (by simp)
      · rw [find_by_equiv (fun kv => MapCompare kv.1 k) (fun kv => MapCompare k kv.1) e es hb ha] at h
        rw [MapCompare_false] at hb ha
        cases h
        exact ⟨le_antisymm ha hb, List.mem_cons_self _ _⟩

theorem find_by_modify_by (s k : N) (f : N × V → N × V)
    (hf : ∀ kv, (f kv).1 = kv.1) (l : List (N × V)) :
    find_by (fun kv => MapCompare kv.1 s) (fun kv => MapCompare s kv.1)
        (modify_by (fun kv => MapCompare kv.1 k) (fun kv => MapCompare k kv.1) f l)
      = if s = k then
          (find_by (fun kv => MapCompare kv.1 k) (fun kv => MapCompare k kv.1) l).map f
        else find_by (fun kv => MapCompare kv.1 s) (fun kv => MapCompare s kv.1) l := by
  induction l with
  | nil => simp [find_by, modify_by]
  | cons e es ih =>
    by_cases hs : s = k
    · subst hs
      simp only [if_true] at ih ⊢
      rcases Bool.eq_false_or_eq_true (MapCompare e.1 s) with hb | hb
      · rw [modify_by_below (fun kv => MapCompare kv.1 s) (fun kv => MapCompare s kv.1) f e es hb,
          find_by_below (fun kv => MapCompare kv.1 s) (fun kv => MapCompare s kv.1) e _ hb,
          find_by_below (fun kv => MapCompare kv.1 s) (fun kv => MapCompare s kv.1) e _ hb, ih]
      · rcases Bool.eq_false_or_eq_true (MapCompare s e.1) with ha | ha
        · rw [modify_by_above (fun kv => MapCompare kv.1 s) (fun kv => MapCompare s kv.1) f e es hb ha,
            find_by_above (fun kv => MapCompare kv.1 s) (fun kv => MapCompare s kv.1) e _ hb ha]
          rfl
        · rw [modify_by_equiv (fun kv => MapCompare kv.1 s) (fun kv => MapCompare s kv.1) f e es hb ha,
            find_by_equiv (fun kv => MapCompare kv.1 s) (fun kv => MapCompare s kv.1) e _ hb ha,
            find_by_equiv (fun kv => MapCompare kv.1 s) (fun kv => MapCompare s kv.1) (f e) _
              (by simp only [hf]; exact hb) (by simp only [hf]; exact ha)]
          rfl
    · simp only [hs, if_false] at ih ⊢
      rcases Bool.eq_false_or_eq_true (MapCompare e.1 k) with hb | hb
      · rw [modify_by_below (fun kv => MapCompare kv.1 k) (fun kv => MapCompare k kv.1) f e es hb]
        rcases Bool.eq_false_or_eq_true (MapCompare e.1 s) with hb1 | hb1
        · rw [find_by_below (fun kv => MapCompare kv.1 s) (fun kv => MapCompare s kv.1) e _ hb1,
            find_by_below (fun kv => MapCompare kv.1 s) (fun kv => MapCompare s kv.1) e _ hb1, ih]
        · rcases Bool.eq_false_or_eq_true (MapCompare s e.1) with ha1 | ha1
          · rw [find_by_above (fun kv => MapCompare kv.1 s) (fun kv => MapCompare s kv.1) e _ hb1 ha1,
              find_by_above (fun kv => MapCompare kv.1 s) (fun kv => MapCompare s kv.1) e _ hb1 ha1]
          · rw [find_by_equiv (fun kv => MapCompare kv.1 s) (fun kv => MapCompare s kv.1) e _ hb1 ha1,
              find_by_equiv (fun kv => MapCompare kv.1 s) (fun kv => MapCompare s kv.1) e _ hb1 ha1]
      · rcases Bool.eq_false_or_eq_true (MapCompare k e.1) with ha | ha
        · rw [modify_by_above (fun kv => MapCompare kv.1 k) (fun kv => MapCompare k kv.1) f e es hb ha]
        · rw [modify_by_equiv (fun kv => MapCompare kv.1 k) (fun kv => MapCompare k kv.1) f e es hb ha]
          rw [MapCompare_false] at hb ha
          have hek : e.1 = k := le_antisymm ha hb
          rcases Bool.eq_false_or_eq_true (MapCompare e.1 s) with hb1 | hb1
          · rw [find_by_below (fun kv => MapCompare kv.1 s) (fun kv => MapCompare s kv.1) e _ hb1,
              find_by_below (fun kv => MapCompare kv.1 s) (fun kv => MapCompare s kv.1) (f e) _
                (by simp only [hf]; exact hb1)]
          · rcases Bool.eq_false_or_eq_true (MapCompare s e.1) with ha1 | ha1
            · rw [find_by_above (fun kv => MapCompare kv.1 s) (fun kv => MapCompare s kv.1) e _ hb1 ha1,
                find_by_above (fun kv => MapCompare kv.1 s) (fun kv => MapCompare s kv.1) (f e) _
                  (by simp only [hf]; exact hb1) (by simp only [hf]; exact ha1)]
            · rw [MapCompare_false] at hb1 ha1
              exact absurd ((le_antisymm hb1 ha1).trans hek) hs

theorem map_fst_modify_by (k : N) (f : N × V → N × V)
    (hf : ∀ kv, (f kv).1 = kv.1) (l : List (N × V)) :
    (modify_by (fun kv => MapCompare kv.1 k) (fun kv => MapCompare k kv.1) f l).map Prod.fst
      = l.map Prod.fst := by
  induction l with
  | nil => rfl
  | cons e es ih =>
    simp only [modify_by]
    split
    · simp [ih]
    · split
      · rfl
      · simp [hf]

theorem modify_by_const_twice (k : N) (v : V) (l : List (N × V)) :
    modify_by (fun kv => MapCompare kv.1 k) (fun kv => MapCompare k kv.1) (fun kv => (kv.1, v))
        (modify_by (fun kv => MapCompare kv.1 k) (fun kv => MapCompare k kv.1)
          (fun kv => (kv.1, v)) l)
      = modify_by (fun kv => MapCompare kv.1 k) (fun kv => MapCompare k kv.1)
          (fun kv => (kv.1, v)) l := by
  induction l with
  | nil => rfl
  | cons e es ih =>
    rcases Bool.eq_false_or_eq_true (MapCompare e.1 k) with hb | hb
    · rw [modify_by_below (fun kv => MapCompare kv.1 k) (fun kv => MapCompare k kv.1) _ e es hb,
        modify_by_below (fun kv => MapCompare kv.1 k) (fun kv => MapCompare k kv.1) _ e _ hb, ih]
    · rcases Bool.eq_false_or_eq_true (MapCompare k e.1) with ha | ha
      · rw [modify_by_above (fun kv => MapCompare kv.1 k) (fun kv => MapCompare k kv.1) _ e es hb ha,
          modify_by_above (fun kv => MapCompare kv.1 k) (fun kv => MapCompare k kv.1) _ e es hb ha]
      · rw [modify_by_equiv (fun kv => MapCompare kv.1 k) (fun kv => MapCompare k kv.1) _ e es hb ha,
          modify_by_equiv (fun kv => MapCompare kv.1 k) (fun kv => MapCompare k kv.1) _ (e.1, v) es
            hb ha]

theorem map_fst_modify_const (k : N) (v : V) (l : List (N × V)) :
    (modify_by (fun kv => MapCompare kv.1 k) (fun kv => MapCompare k kv.1)
      (fun kv => (kv.1, v)) l).map Prod.fst = l.map Prod.fst :=
  map_fst_modify_by k (fun kv => (kv.1, v)) (fun _ => rfl) l

theorem find_by_modify_const (s k : N) (v : V) (l : List (N × V)) :
    find_by (fun kv => MapCompare kv.1 s) (fun kv => MapCompare s kv.1)
        (modify_by (fun kv => MapCompare kv.1 k) (fun kv => MapCompare k kv.1)
          (fun kv => (kv.1, v)) l)
      = if s = k then
          (find_by (fun kv => MapCompare kv.1 k) (fun kv => MapCompare k kv.1) l).map
            (fun kv => (kv.1, v))
        else find_by (fun kv => MapCompare kv.1 s) (fun kv => MapCompare s kv.1) l :=
  find_by_modify_by s k (fun kv => (kv.1, v)) (fun _ => rfl) l

theorem mem_edges_iff {E : Type} (l : List (N × List (N × E)))
    (hs : (l.map Prod.fst).Pairwise (fun a b => a < b)) (s d : N) (w : E) :
    (s, d, w) ∈ l.flatMap (fun kv => kv.2.map (fun e => (kv.1, e.1, e.2))) ↔
      ∃ kv, find_by (fun kv => MapCompare kv.1 s) (fun kv => MapCompare s kv.1) l = some kv ∧
        (d, w) ∈ kv.2 := by
  induction l generalizing d w with
  | nil => simp [find_by]
  | cons e es ih =>
    rw [List.map_cons, List.pairwise_cons] at hs
    have hrest : ∀ d w, (s, d, w) ∈ es.flatMap (fun kv => kv.2.map (fun e => (kv.1, e.1, e.2)))
        → e.1 < s := by
      intro d w h
      rw [ih hs.2] at h
      obtain ⟨kv, hkv, -⟩ := h
      have := find_by_key_some s es kv hkv
      exact this.1 ▸ hs.1 kv.1 (List.mem_map_of_mem _ this.2)
    have hhead : (s, d, w) ∈ e.2.map (fun x => (e.1, x.1, x.2)) ↔ e.1 = s ∧ (d, w) ∈ e.2 := by
      simp only [List.mem_map, Prod.mk.injEq]
      constructor
      · rintro ⟨x, hx, h1, h2, h3⟩
        have : x = (d, w) := Prod.ext h2 h3
        exact ⟨h1, this ▸ hx⟩
      · rintro ⟨h1, h2⟩
        exact ⟨(d, w), h2, h1, rfl, rfl⟩
    rw [List.flatMap_cons, List.mem_append, hhead]
    rcases Bool.eq_false_or_eq_true (MapCompare e.1 s) with hb | hb
    · rw [find_by_below (fun kv => MapCompare kv.1 s) (fun kv => MapCompare s kv.1) e es hb,
        ← ih hs.2]
      rw [MapCompare_iff] at hb
      constructor
      · rintro (⟨h1, -⟩ | h)
        · exact absurd h1 (ne_of_lt hb)
        · exact h
      · exact fun h => Or.inr h
    · rcases Bool.eq_false_or_eq_true (MapCompare s e.1) with ha | ha
      · rw [find_by_above (fun kv => MapCompare kv.1 s) (fun kv => MapCompare s kv.1) e es hb ha]
        rw [MapCompare_false] at hb
        rw [MapCompare_iff] at ha
        simp only [false_and, exists_false, iff_false, not_or, reduceCtorEq]
        exact ⟨fun h => (ne_of_lt ha) h.1.symm, fun h => not_lt.2 hb (hrest d w h)⟩
      · rw [find_by_equiv (fun kv => MapCompare kv.1 s) (fun kv => MapCompare s kv.1) e es hb ha]
        rw [MapCompare_false] at hb ha
        have hek : e.1 = s := le_antisymm ha hb
        simp only [Option.some.injEq, exists_eq_left']
        constructor
        · rintro (⟨-, h⟩ | h)
          · exact h
          · exact absurd (hrest d w h) (not_lt.2 hb)
        · exact fun h => Or.inl ⟨hek, h⟩

end maps

section graph_lemmas

variable {N E : Type} [LinearOrder N] [LinearOrder E]

theorem graph.is_node_eq_repr_find (g : graph N E) (h : g.WF) (x : N) :
    g.is_node x = (g.repr_find x).isSome := by
  unfold graph.is_node graph.nodes_find graph.repr_find
  rw [← h.2.1]
  exact (find_by_map_fst (fun k => MapCompare k x) (fun k => MapCompare x k) g.repr_).symm

theorem graph.WF.keys_sorted {g : graph N E} (h : g.WF) :
    (g.repr_.map Prod.fst).Pairwise (fun a b => a < b) := by
  rw [h.2.1]
  exact h.1

omit [LinearOrder E] in
theorem graph.mem_edges (g : graph N E)
    (h : (g.repr_.map Prod.fst).Pairwise (fun a b => a < b)) (s d : N) (w : E) :
    (s, d, w) ∈ g.edges ↔ ∃ kv, g.repr_find s = some kv ∧ (d, w) ∈ kv.2 :=
  mem_edges_iff g.repr_ h s d w

theorem graph.insert_edge_found (g : graph N E) (src dst : N) (weight : E)
    (o n : N × List (N × E)) (hf : g.repr_find src = some o) (hn : g.repr_find dst = some n) :
    g.insert_edge src dst weight =
      (Res.ret (insert_by (fun e => EdgeCompare e (dst, weight))
          (fun e => EdgeCompare (dst, weight) e) (dst, weight) o.2).2,
        ⟨g.nodes_,
          modify_by (fun kv => MapCompare kv.1 src) (fun kv => MapCompare src kv.1)
            (fun kv => (kv.1, (insert_by (fun e => EdgeCompare e (dst, weight))
              (fun e => EdgeCompare (dst, weight) e) (dst, weight) o.2).1)) g.repr_⟩) := by
  have hd : n.1 = dst := (find_by_key_some dst g.repr_ n hn).1
  unfold graph.insert_edge
  rw [hf, hn]
  simp only [hd]

end graph_lemmas

end gdwg

/-! ## Scenarios of the repository's test suite

The scenarios of `test/graph/graph_test2.cpp` and `graph_test5.cpp`, run on the embedding.
Weights and node values are replaced by natural numbers in the same order
(`"Hello!" < "How" < "are" < "you?"` become 1, 2, 3, 4; `'A'`..`'D'` become 0..3;
`1.53 < 99.99 < 325 < 643.6` become 1, 99, 325, 643). -/

namespace gdwg

section scenarios

/-- `TEST_CASE("Test node replacement")`: `replace_node(3, 6)` then `replace_node(4, 5)`
give the expected output, `replace_node(3, 3)` and `replace_node(3, 4)` return `false`,
`replace_node(7, 8)` throws. -/
theorem scenario_node_replacement :
    scenario_replacement.replace_node 3 6 =
      some (Res.ret true,
        ⟨[1, 2, 4, 6], [(1, [(2, 1), (6, 2)]), (2, [(6, 3)]), (4, []), (6, [(6, 4)])]⟩) ∧
    (⟨[1, 2, 4, 6], [(1, [(2, 1), (6, 2)]), (2, [(6, 3)]), (4, []), (6, [(6, 4)])]⟩ :
        graph Nat Nat).replace_node 4 5 =
      some (Res.ret true,
        ⟨[1, 2, 5, 6], [(1, [(2, 1), (6, 2)]), (2, [(6, 3)]), (5, []), (6, [(6, 4)])]⟩) ∧
    scenario_replacement.replace_node 3 3 = some (Res.ret false, scenario_replacement) ∧
    scenario_replacement.replace_node 3 4 = some (Res.ret false, scenario_replacement) ∧
    scenario_replacement.replace_node 7 8 =
      some (Res.throws graph.replace_node_error, scenario_replacement) := by
  decide

/-- `TEST_CASE("Test node merger and replacement")`, incoming and outgoing edges:
`merge_replace_node('B', 'A')` gives the expected outputs. -/
theorem scenario_node_merger :
    (((((graph.of_range [0, 1, 2, 3] : graph Nat Nat).insert_edge 0 1 3).2.insert_edge
        2 1 2).2.insert_edge 3 1 4).2.insert_edge 1 1 5).2.merge_replace_node 1 0 =
      some (Res.ret (), ⟨[0, 2, 3], [(0, [(0, 3), (0, 5)]), (2, [(0, 2)]), (3, [(0, 4)])]⟩) ∧
    (((((graph.of_range [0, 1, 2, 3] : graph Nat Nat).insert_edge 1 0 3).2.insert_edge
        1 2 2).2.insert_edge 1 3 4).2.insert_edge 1 1 5).2.merge_replace_node 1 0 =
      some (Res.ret (), ⟨[0, 2, 3], [(0, [(0, 3), (0, 5), (2, 2), (3, 4)]), (2, []), (3, [])]⟩) ∧
    (graph.of_range [0, 1, 2, 3] : graph Nat Nat).merge_replace_node 1 0 =
      some (Res.ret (), ⟨[0, 2, 3], [(0, []), (2, []), (3, [])]⟩) := by
  decide

/-- `TEST_CASE("Test node erasure")`: `erase_node(325)` then `erase_node(99.99)` give the
expected output, `erase_node(404)` returns `false`. -/
theorem scenario_node_erasure :
    ((((graph.of_range [1, 325, 643, 99] : graph Nat Nat).insert_edge 1 325 1).2.insert_edge
        643 325 2).2.insert_edge 325 325 3).2.erase_node 325 =
      (true, ⟨[1, 99, 643], [(1, []), (99, []), (643, [])]⟩) ∧
    (⟨[1, 99, 643], [(1, []), (99, []), (643, [])]⟩ : graph Nat Nat).erase_node 99 =
      (true, ⟨[1, 643], [(1, []), (643, [])]⟩) ∧
    ((graph.of_range [1, 325, 643, 99] : graph Nat Nat).erase_node 404).1 = false := by
  decide

/-- `TEST_CASE("Test operator== and operator!= comparisons work for graphs")`: graphs built
in different orders compare equal, a different weight or a different node compares
unequal. -/
theorem scenario_comparison :
    graph.operator_eq
      (((((graph.of_range [1, 2, 3, 4] : graph Nat Nat).insert_edge 1 2 1).2.insert_edge
        1 3 2).2.insert_edge 2 3 3).2.insert_edge 4 3 4).2
      (((((graph.of_range [1, 2, 3, 4] : graph Nat Nat).insert_edge 1 3 2).2.insert_edge
        2 3 3).2.insert_edge 1 2 1).2.insert_edge 4 3 4).2 = some true ∧
    graph.operator_eq
      (((((graph.of_range [1, 2, 3, 4] : graph Nat Nat).insert_edge 1 2 1).2.insert_edge
        1 3 2).2.insert_edge 2 3 3).2.insert_edge 4 3 4).2
      (((((graph.of_range [1, 2, 3, 4] : graph Nat Nat).insert_edge 1 3 2).2.insert_edge
        2 3 3).2.insert_edge 1 2 0).2.insert_edge 4 3 4).2 = some false ∧
    graph.operator_eq (graph.of_range [1, 2, 3, 4] : graph Nat Nat)
      (graph.of_range [1, 2, 3, 8]) = some false ∧
    graph.operator_eq (graph.default : graph Nat Nat) graph.default = some true := by
  decide

end scenarios

end gdwg

/-! ## Theorems -/

namespace gdwg

section claims

/-- C1: `erase_node` on a node with two parallel incoming edges.  On the graph with
nodes 1, 2 and edges 1 → 2 of weights 0 and 1, `erase_node(2)` returns `true` and node 2
is gone, but the edge 1 → 2 of weight 1 is still stored: the loop steps over every
second parallel edge. -/
theorem erase_node_keeps_parallel_edge :
    example_parallel = ⟨[1, 2], [(1, [(2, 0), (2, 1)]), (2, [])]⟩ ∧
    example_parallel.WF ∧
    example_parallel.erase_node 2 = (true, ⟨[1], [(1, [(2, 1)])]⟩) ∧
    (example_parallel.erase_node 2).2.is_node 2 = false ∧
    (1, 2, 1) ∈ (example_parallel.erase_node 2).2.edges := by
  decide

/-- C2: `operator==` between graphs of different sizes.  The empty graph compares equal
to the graph with the single node 1, and the graph with node 1 and no edge compares
equal to the graph with node 1 and the loop 1 → 1: the ranges of the right operand
are only read as far as those of the left operand go. -/
theorem operator_eq_ignores_surplus :
    (graph.default : graph Nat Nat).operator_eq (graph.of_range [1]) = some true ∧
    (graph.default : graph Nat Nat).nodes ≠ (graph.of_range [1] : graph Nat Nat).nodes ∧
    (graph.of_range [1] : graph Nat Nat).operator_eq example_loop = some true ∧
    (graph.of_range [1] : graph Nat Nat).nodes = example_loop.nodes ∧
    (graph.of_range [1] : graph Nat Nat).traversal = some [] ∧
    example_loop.traversal = some [⟨1, 1, 0⟩] := by
  decide

/-- C4: `replace_node` towards a smaller value.  On the graph with nodes 1, 2, 3 and
edges 1 → 2 (weight 7), 1 → 3 (weight 8), `replace_node(3, 0)` returns `true` and leaves
the edges 1 → 0 (weight 7) and 1 → 0 (weight 8): the edge into node 2, which is not the
replaced node, has been retargeted as well.  Towards a larger value, on the graph
with nodes 1, 2 and the two parallel edges 1 → 2 of weights 0 and 1, `replace_node(2, 5)`
retargets only the first of them and leaves 1 → 2 (weight 1) behind. -/
theorem replace_node_retargets_other_edge :
    example_fan = ⟨[1, 2, 3], [(1, [(2, 7), (3, 8)]), (2, []), (3, [])]⟩ ∧
    example_fan.WF ∧
    example_fan.replace_node 3 0 =
      some (Res.ret true, ⟨[0, 1, 2], [(0, []), (1, [(0, 7), (0, 8)]), (2, [])]⟩) ∧
    (1, 2, 7) ∈ example_fan.edges ∧
    (1, 2, 7) ∉ (⟨[0, 1, 2], [(0, []), (1, [(0, 7), (0, 8)]), (2, [])]⟩ : graph Nat Nat).edges ∧
    (1, 0, 7) ∈ (⟨[0, 1, 2], [(0, []), (1, [(0, 7), (0, 8)]), (2, [])]⟩ : graph Nat Nat).edges ∧
    example_parallel.replace_node 2 5 =
      some (Res.ret true, ⟨[1, 5], [(1, [(2, 1), (5, 0)]), (5, [])]⟩) := by
  decide

/-- C5: `merge_replace_node` towards a smaller value.  On the graph with nodes
0, 1, 2, 3 and edges 1 → 2 (weight 7), 1 → 3 (weight 8), `merge_replace_node(3, 0)`
leaves the edges 1 → 0 (weight 7) and 1 → 0 (weight 8): the edge into node 2, which
is neither of the two merged nodes, has been retargeted as well. -/
theorem merge_replace_node_retargets_other_edge :
    example_fan0 = ⟨[0, 1, 2, 3], [(0, []), (1, [(2, 7), (3, 8)]), (2, []), (3, [])]⟩ ∧
    example_fan0.WF ∧
    example_fan0.merge_replace_node 3 0 =
      some (Res.ret (), ⟨[0, 1, 2], [(0, []), (1, [(0, 7), (0, 8)]), (2, [])]⟩) ∧
    (1, 2, 7) ∈ example_fan0.edges ∧
    (1, 2, 7) ∉ (⟨[0, 1, 2], [(0, []), (1, [(0, 7), (0, 8)]), (2, [])]⟩ : graph Nat Nat).edges ∧
    (1, 0, 7) ∈ (⟨[0, 1, 2], [(0, []), (1, [(0, 7), (0, 8)]), (2, [])]⟩ : graph Nat Nat).edges := by
  decide

/-- C6: `replace_node(old, new)` throws its `std::runtime_error` when `old` is not a
node and never throws when `old` is a node; when `old` and `new` are both nodes
(`new == old` included) it returns `false`; in both cases the graph is left as it was. -/
theorem replace_node_failure {N E : Type} [LinearOrder N] [LinearOrder E]
    (g : graph N E) (old_data new_data : N) :
    (g.is_node old_data = false →
      g.replace_node old_data new_data = some (Res.throws graph.replace_node_error, g)) ∧
    (g.is_node old_data = true →
      ∀ what g1, g.replace_node old_data new_data ≠ some (Res.throws what, g1)) ∧
    (g.is_node old_data = true → g.is_node new_data = true →
      g.replace_node old_data new_data = some (Res.ret false, g)) := by
  refine ⟨?_, ?_, ?_⟩
  · intro h
    unfold graph.is_node at h
    unfold graph.replace_node
    cases hf : g.nodes_find old_data with
    | none => rfl
    | some n => simp [hf] at h
  · intro h what g1
    unfold graph.is_node at h
    unfold graph.replace_node
    cases hf : g.nodes_find old_data with
    | none => simp [hf] at h
    | some n =>
      simp only
      split
      · simp
      · split
        · simp
        · split <;> simp
  · intro h hn
    unfold graph.is_node at h hn
    unfold graph.replace_node
    cases hf : g.nodes_find old_data with
    | none => simp [hf] at h
    | some n =>
      have := insert_by_of_find_by (fun e => NodeCompare e new_data)
        (fun e => NodeCompare new_data e) new_data g.nodes_ hn
      simp [this]

/-- Instance of `replace_node_failure` on the graph with nodes 1, 2, 3: replacing the
absent node 9 throws, replacing 3 by the present node 2 or by itself returns `false`. -/
theorem replace_node_failure_witness :
    example_fan.replace_node 9 4 = some (Res.throws graph.replace_node_error, example_fan) ∧
    (∀ what g1, example_fan.replace_node 3 0 ≠ some (Res.throws what, g1)) ∧
    example_fan.replace_node 3 2 = some (Res.ret false, example_fan) ∧
    example_fan.replace_node 3 3 = some (Res.ret false, example_fan) :=
  ⟨(replace_node_failure example_fan 9 4).1 (by decide),
   (replace_node_failure example_fan 3 0).2.1 (by decide),
   (replace_node_failure example_fan 3 2).2.2 (by decide) (by decide),
   (replace_node_failure example_fan 3 3).2.2 (by decide) (by decide)⟩

/-- C7: `replace_node(3, 0)` followed by `replace_node(0, 3)` on the graph with nodes
1, 2, 3 and edges 1 → 2 (weight 7), 1 → 3 (weight 8).  Both calls return `true`, and the
final graph has the edge 1 → 3 of weight 7, which the initial graph has not, and lacks
the edge 1 → 2 of weight 7. -/
theorem replace_node_round_trip_differs :
    example_fan.is_node 3 = true ∧ example_fan.is_node 0 = false ∧
    example_fan.replace_node 3 0 =
      some (Res.ret true, ⟨[0, 1, 2], [(0, []), (1, [(0, 7), (0, 8)]), (2, [])]⟩) ∧
    (⟨[0, 1, 2], [(0, []), (1, [(0, 7), (0, 8)]), (2, [])]⟩ : graph Nat Nat).replace_node 0 3 =
      some (Res.ret true, ⟨[1, 2, 3], [(1, [(0, 8), (3, 7)]), (2, []), (3, [])]⟩) ∧
    (1, 2, 7) ∈ example_fan.edges ∧
    (1, 2, 7) ∉ (⟨[1, 2, 3], [(1, [(0, 8), (3, 7)]), (2, []), (3, [])]⟩ : graph Nat Nat).edges ∧
    (1, 3, 7) ∉ example_fan.edges ∧
    (1, 3, 7) ∈ (⟨[1, 2, 3], [(1, [(0, 8), (3, 7)]), (2, []), (3, [])]⟩ : graph Nat Nat).edges := by
  decide

/-- C8: on a well-formed graph `merge_replace_node(x, x)` returns normally when `x` is a
node and throws when it is not, and the graph is left as it was in both cases. -/
theorem merge_replace_node_self {N E : Type} [LinearOrder N] [LinearOrder E]
    (g : graph N E) (h : g.WF) (x : N) :
    (g.is_node x = true → g.merge_replace_node x x = some (Res.ret (), g)) ∧
    (g.is_node x = false →
      g.merge_replace_node x x = some (Res.throws graph.merge_replace_node_error, g)) := by
  rw [graph.is_node_eq_repr_find g h]
  unfold graph.merge_replace_node
  cases hf : g.repr_find x with
  | none => simp
  | some n => simp

/-- Instance of `merge_replace_node_self` on the graph with nodes 1, 2, 3, for the node 3
and for the absent value 9. -/
theorem merge_replace_node_self_witness :
    example_fan.WF ∧
    example_fan.merge_replace_node 3 3 = some (Res.ret (), example_fan) ∧
    example_fan.merge_replace_node 9 9
      = some (Res.throws graph.merge_replace_node_error, example_fan) :=
  ⟨by decide, (merge_replace_node_self example_fan (by decide) 3).1 (by decide),
   (merge_replace_node_self example_fan (by decide) 9).2 (by decide)⟩

/-- C9: on a well-formed graph `insert_edge(src, dst, w)` throws exactly when `src` or
`dst` is not a node, and then the graph is left as it was; otherwise it returns `true`
exactly when `(src, dst, w)` was not an edge, afterwards the edges are the old ones
together with `(src, dst, w)`, and a second call with the same arguments returns `false`
and changes nothing. -/
theorem insert_edge_spec {N E : Type} [LinearOrder N] [LinearOrder E]
    (g : graph N E) (h : g.WF) (src dst : N) (weight : E) :
    ((∃ what, (g.insert_edge src dst weight).1 = Res.throws what) ↔
      (g.is_node src = false ∨ g.is_node dst = false)) ∧
    (∀ what, (g.insert_edge src dst weight).1 = Res.throws what →
      (g.insert_edge src dst weight).2 = g) ∧
    (g.is_node src = true → g.is_node dst = true →
      (g.insert_edge src dst weight).1 = Res.ret (decide ((src, dst, weight) ∉ g.edges)) ∧
      (∀ t, t ∈ (g.insert_edge src dst weight).2.edges ↔
        t ∈ g.edges ∨ t = (src, dst, weight)) ∧
      (g.insert_edge src dst weight).2.insert_edge src dst weight
        = (Res.ret false, (g.insert_edge src dst weight).2)) := by
  rw [graph.is_node_eq_repr_find g h, graph.is_node_eq_repr_find g h]
  cases hf : g.repr_find src with
  | none => simp [graph.insert_edge, hf]
  | some o =>
    cases hn : g.repr_find dst with
    | none => simp [graph.insert_edge, hf, hn]
    | some n =>
      have ho := find_by_key_some src g.repr_ o hf
      have hsorted := h.2.2 o ho.2
      have hres := graph.insert_edge_found g src dst weight o n hf hn
      have hkeys : ((g.insert_edge src dst weight).2.repr_.map Prod.fst).Pairwise
          (fun a b => a < b) := by
        rw [hres]
        simp only
        rw [map_fst_modify_const]
        exact h.keys_sorted
      have hfind : ∀ s, (g.insert_edge src dst weight).2.repr_find s
          = if s = src then some (o.1, (insert_by (fun e => EdgeCompare e (dst, weight))
              (fun e => EdgeCompare (dst, weight) e) (dst, weight) o.2).1)
            else g.repr_find s := by
        intro s
        rw [hres]
        unfold graph.repr_find
        simp only
        rw [find_by_modify_const]
        by_cases hs : s = src
        · simp only [hs, if_true]
          have : find_by (fun kv => MapCompare kv.1 src) (fun kv => MapCompare src kv.1) g.repr_
              = some o := hf
          rw [this]
          rfl
        · simp only [hs, if_false]
      refine ⟨by simp [hres], by simp [hres], fun _ _ => ⟨?_, ?_, ?_⟩⟩
      · rw [hres]
        simp only [Res.ret.injEq]
        rw [Bool.eq_iff_iff, insert_by_flag EdgeCompare EdgeCompare_strictTotal _ _ hsorted,
          decide_eq_true_iff, graph.mem_edges g h.keys_sorted, hf]
        simp
      · rintro ⟨s, d, w⟩
        rw [graph.mem_edges _ hkeys, hfind, graph.mem_edges g h.keys_sorted]
        by_cases hs : s = src
        · subst hs
          simp only [if_true, Option.some.injEq, exists_eq_left', hf, Prod.mk.injEq, true_and]
          rw [mem_insert_by EdgeCompare EdgeCompare_strictTotal]
          simp only [Prod.mk.injEq]
          tauto
        · simp only [hs, if_false, Prod.mk.injEq, false_and, or_false]
      · have hsrc : (g.insert_edge src dst weight).2.repr_find src
            = some (o.1, (insert_by (fun e => EdgeCompare e (dst, weight))
              (fun e => EdgeCompare (dst, weight) e) (dst, weight) o.2).1) := by
          have := hfind src
          simpa using this
        have hdst : ∃ n1, (g.insert_edge src dst weight).2.repr_find dst = some n1 := by
          have := hfind dst
          by_cases hs : dst = src
          · exact ⟨_, by simpa [hs] using hfind src⟩
          · rw [if_neg hs, hn] at this
            exact ⟨n, this⟩
        obtain ⟨n1, hn1⟩ := hdst
        rw [graph.insert_edge_found _ src dst weight _ n1 hsrc hn1]
        simp only
        rw [insert_by_twice EdgeCompare EdgeCompare_strictTotal]
        conv_rhs => rw [hres]
        rw [hres]
        simp only [modify_by_const_twice]

/-- Instance of `insert_edge_spec` on the graph with nodes 1, 2, 3 and edges 1 → 2
(weight 7), 1 → 3 (weight 8), for the new edge 1 → 2 of weight 9. -/
theorem insert_edge_spec_witness :
    example_fan.WF ∧
    (example_fan.insert_edge 1 2 9).1 = Res.ret (decide ((1, 2, 9) ∉ example_fan.edges)) ∧
    (∀ t, t ∈ (example_fan.insert_edge 1 2 9).2.edges ↔ t ∈ example_fan.edges ∨ t = (1, 2, 9)) ∧
    (example_fan.insert_edge 1 2 9).2.insert_edge 1 2 9
      = (Res.ret false, (example_fan.insert_edge 1 2 9).2) :=
  ⟨by decide, (insert_edge_spec example_fan (by decide) 1 2 9).2.2 (by decide) (by decide)⟩

/-- C10: on a well-formed graph `merge_replace_node(old, new)` throws exactly when `old`
or `new` is not a node, `erase_edge(src, dst, w)` throws exactly when `src` or `dst` is
not a node, and whenever either of them throws the graph is left as it was. -/
theorem merge_and_erase_edge_throw {N E : Type} [LinearOrder N] [LinearOrder E]
    (g : graph N E) (h : g.WF) (old_data new_data src dst : N)
    (weight : E) :
    ((∃ what g1, g.merge_replace_node old_data new_data = some (Res.throws what, g1)) ↔
      (g.is_node old_data = false ∨ g.is_node new_data = false)) ∧
    (∀ what g1, g.merge_replace_node old_data new_data = some (Res.throws what, g1) → g1 = g) ∧
    ((∃ what, (g.erase_edge src dst weight).1 = Res.throws what) ↔
      (g.is_node src = false ∨ g.is_node dst = false)) ∧
    (∀ what, (g.erase_edge src dst weight).1 = Res.throws what →
      (g.erase_edge src dst weight).2 = g) := by
  rw [graph.is_node_eq_repr_find g h, graph.is_node_eq_repr_find g h,
    graph.is_node_eq_repr_find g h, graph.is_node_eq_repr_find g h]
  refine ⟨?_, ?_, ?_, ?_⟩
  · unfold graph.merge_replace_node
    cases hf : g.repr_find old_data with
    | none => simp
    | some o =>
      cases hn : g.repr_find new_data with
      | none => simp
      | some n =>
        simp only [Option.isSome_some, Bool.true_eq_false, or_self, iff_false, not_exists]
        intro what g1
        split
        · simp
        · split
          · simp
          · split
            · split <;> simp
            · simp
  · unfold graph.merge_replace_node
    cases hf : g.repr_find old_data with
    | none => simp
    | some o =>
      cases hn : g.repr_find new_data with
      | none => simp
      | some n =>
        intro what g1
        simp only
        split
        · simp
        · split
          · simp
          · split
            · split <;> simp
            · simp
  · unfold graph.erase_edge
    cases hf : g.repr_find src with
    | none => simp
    | some o =>
      cases hn : g.repr_find dst with
      | none => simp
      | some n => simp
  · unfold graph.erase_edge
    cases hf : g.repr_find src with
    | none => simp
    | some o =>
      cases hn : g.repr_find dst with
      | none => simp
      | some n => simp

/-- Instance of `merge_and_erase_edge_throw` on the graph with nodes 1, 2, 3:
`merge_replace_node(3, 9)` and `erase_edge(9, 1, 7)` throw and leave the graph as it was. -/
theorem merge_and_erase_edge_throw_witness :
    example_fan.WF ∧
    (∃ what g1, example_fan.merge_replace_node 3 9 = some (Res.throws what, g1)) ∧
    (∀ what g1, example_fan.merge_replace_node 3 9 = some (Res.throws what, g1) →
      g1 = example_fan) ∧
    (∃ what, (example_fan.erase_edge 9 1 7).1 = Res.throws what) ∧
    (∀ what, (example_fan.erase_edge 9 1 7).1 = Res.throws what →
      (example_fan.erase_edge 9 1 7).2 = example_fan) :=
  ⟨by decide,
   (merge_and_erase_edge_throw example_fan (by decide) 3 9 9 1 7).1.2 (Or.inr (by decide)),
   (merge_and_erase_edge_throw example_fan (by decide) 3 9 9 1 7).2.1,
   (merge_and_erase_edge_throw example_fan (by decide) 3 9 9 1 7).2.2.1.2 (Or.inl (by decide)),
   (merge_and_erase_edge_throw example_fan (by decide) 3 9 9 1 7).2.2.2⟩

end claims

end gdwg

/-! ## Lemmas on the node registry -/

namespace gdwg

section registry

variable {α : Type}

theorem insert_by_flag_eq_find (below above : α → Bool) (x : α) (l : List α) :
    (insert_by below above x l).2 = !(find_by below above l).isSome := by
  induction l with
  | nil => rfl
  | cons e es ih =>
    rcases Bool.eq_false_or_eq_true (below e) with hb | hb
    · rw [insert_by_below below above x e es hb, find_by_below below above e es hb]
      exact ih
    · rcases Bool.eq_false_or_eq_true (above e) with ha | ha
      · rw [insert_by_above below above x e es hb ha, find_by_above below above e es hb ha]
        rfl
      · rw [insert_by_equiv below above x e es hb ha, find_by_equiv below above e es hb ha]
        rfl

theorem insert_by_unchanged (below above : α → Bool) (x : α) (l : List α)
    (h : (insert_by below above x l).2 = false) : (insert_by below above x l).1 = l := by
  rw [insert_by_flag_eq_find] at h
  rw [insert_by_of_find_by below above x l (by simpa using h)]

theorem find_by_insert_by (below above : α → Bool) (x : α) (l : List α)
    (hb : below x = false) (ha : above x = false) :
    find_by below above (insert_by below above x l).1
      = match find_by below above l with
        | some e => some e
        | none => some x := by
  induction l with
  | nil => simp [insert_by, find_by, hb, ha]
  | cons e es ih =>
    rcases Bool.eq_false_or_eq_true (below e) with hb1 | hb1
    · rw [insert_by_below below above x e es hb1, find_by_below below above e es hb1]
      simp only
      rw [find_by_below below above e _ hb1]
      exact ih
    · rcases Bool.eq_false_or_eq_true (above e) with ha1 | ha1
      · rw [insert_by_above below above x e es hb1 ha1, find_by_above below above e es hb1 ha1]
        simp only
        rw [find_by_equiv below above x _ hb ha]
      · rw [insert_by_equiv below above x e es hb1 ha1, find_by_equiv below above e es hb1 ha1]

theorem insert_by_sorted (lt : α → α → Bool) (hlt : StrictTotal lt) (x : α) (l : List α)
    (hs : l.Pairwise (fun a b => lt a b = true)) :
    (insert_by (fun e => lt e x) (fun e => lt x e) x l).1.Pairwise (fun a b => lt a b = true) := by
  induction l with
  | nil => simp [insert_by]
  | cons e es ih =>
    rw [List.pairwise_cons] at hs
    rcases Bool.eq_false_or_eq_true (lt e x) with hb | hb
    · rw [insert_by_below (fun e => lt e x) (fun e => lt x e) x e es hb]
      simp only
      rw [List.pairwise_cons]
      refine ⟨?_, ih hs.2⟩
      intro a ha
      rcases (mem_insert_by lt hlt x a es).1 ha with h | h
      · exact h ▸ hb
      · exact hs.1 a h
    · rcases Bool.eq_false_or_eq_true (lt x e) with ha | ha
      · rw [insert_by_above (fun e => lt e x) (fun e => lt x e) x e es hb ha]
        simp only
        rw [List.pairwise_cons, List.pairwise_cons]
        refine ⟨?_, hs⟩
        intro a h
        rcases List.mem_cons.1 h with h | h
        · exact h ▸ ha
        · exact hlt.trans x e a ha (hs.1 a h)
      · rw [insert_by_equiv (fun e => lt e x) (fun e => lt x e) x e es hb ha]
        exact List.pairwise_cons.2 hs

theorem find_by_isSome_iff_mem (lt : α → α → Bool) (hlt : StrictTotal lt) (x : α) (l : List α)
    (hs : l.Pairwise (fun a b => lt a b = true)) :
    (find_by (fun e => lt e x) (fun e => lt x e) l).isSome = true ↔ x ∈ l := by
  have h1 := insert_by_flag_eq_find (fun e => lt e x) (fun e => lt x e) x l
  have h2 := insert_by_flag lt hlt x l hs
  rw [h1] at h2
  generalize (find_by (fun e => lt e x) (fun e => lt x e) l).isSome = b at h2
  cases b
  · simpa using h2
  · simpa using h2

end registry

section nodes

variable {N E : Type} [LinearOrder N]

theorem NodeCompare_strictTotal : StrictTotal (NodeCompare : N → N → Bool) where
  irrefl a := by simp [NodeCompare]
  trans a b c hab hbc := by
    simp only [NodeCompare, decide_eq_true_eq] at *
    exact lt_trans hab hbc
  total a b hab hba := by
    simp only [NodeCompare, decide_eq_false_iff_not, not_lt] at *
    exact le_antisymm hba hab

theorem NodeCompare_sorted_iff (l : List N) :
    l.Pairwise (fun a b => NodeCompare a b = true) ↔ l.Pairwise (fun a b => a < b) := by
  simp [NodeCompare]

theorem graph.is_node_iff_mem (g : graph N E) (h : g.nodes_.Pairwise (fun a b => a < b)) (x : N) :
    g.is_node x = true ↔ x ∈ g.nodes_ :=
  find_by_isSome_iff_mem NodeCompare NodeCompare_strictTotal x g.nodes_
    ((NodeCompare_sorted_iff g.nodes_).2 h)

theorem graph.insert_node_nodes (g : graph N E) (v : N) :
    (g.insert_node v).2.nodes_
      = (insert_by (fun e => NodeCompare e v) (fun e => NodeCompare v e) v g.nodes_).1 := by
  unfold graph.insert_node
  simp only
  split <;> rfl

theorem graph.insert_node_sorted (g : graph N E) (v : N)
    (h : g.nodes_.Pairwise (fun a b => a < b)) :
    (g.insert_node v).2.nodes_.Pairwise (fun a b => a < b) := by
  rw [graph.insert_node_nodes, ← NodeCompare_sorted_iff]
  exact insert_by_sorted NodeCompare NodeCompare_strictTotal v g.nodes_
    ((NodeCompare_sorted_iff g.nodes_).2 h)

theorem graph.mem_insert_node (g : graph N E) (v x : N) :
    x ∈ (g.insert_node v).2.nodes_ ↔ x = v ∨ x ∈ g.nodes_ := by
  rw [graph.insert_node_nodes]
  exact mem_insert_by NodeCompare NodeCompare_strictTotal v x g.nodes_

theorem graph.foldl_insert_node (ws : List N) (g : graph N E)
    (h : g.nodes_.Pairwise (fun a b => a < b)) :
    (ws.foldl (fun g v => (g.insert_node v).2) g).nodes_.Pairwise (fun a b => a < b) ∧
    ∀ x, x ∈ (ws.foldl (fun g v => (g.insert_node v).2) g).nodes_ ↔ x ∈ g.nodes_ ∨ x ∈ ws := by
  induction ws generalizing g with
  | nil => simp [h]
  | cons w ws ih =>
    rw [List.foldl_cons]
    refine ⟨(ih _ (graph.insert_node_sorted g w h)).1, fun x => ?_⟩
    rw [(ih _ (graph.insert_node_sorted g w h)).2, graph.mem_insert_node, List.mem_cons]
    tauto

end nodes

end gdwg

/-! ## Lemmas on `insert_node` and `erase_edge` -/

namespace gdwg

section insert_node

variable {N E : Type} [LinearOrder N]

theorem flatMap_insert_by_nil {κ β γ : Type} (below above : κ × List β → Bool) (k : κ)
    (f : κ × List β → List γ) (hf : f (k, []) = []) (l : List (κ × List β)) :
    (insert_by below above (k, []) l).1.flatMap f = l.flatMap f := by
  induction l with
  | nil => simp [insert_by, hf]
  | cons e es ih =>
    rcases Bool.eq_false_or_eq_true (below e) with hb | hb
    · rw [insert_by_below below above (k, []) e es hb]
      simp only [List.flatMap_cons, ih]
    · rcases Bool.eq_false_or_eq_true (above e) with ha | ha
      · rw [insert_by_above below above (k, []) e es hb ha]
        simp only [List.flatMap_cons, hf, List.nil_append]
      · rw [insert_by_equiv below above (k, []) e es hb ha]

theorem MapCompare_irrefl (a : N) : MapCompare a a = false := by
  simp [MapCompare]

end insert_node

section erase

variable {α : Type}

theorem erase_by_below (below above : α → Bool) (e : α) (es : List α) (h : below e = true) :
    erase_by below above (e :: es)
      = (e :: (erase_by below above es).1, (erase_by below above es).2) := by
  simp [erase_by, h]

theorem erase_by_above (below above : α → Bool) (e : α) (es : List α)
    (h : below e = false) (h1 : above e = true) :
    erase_by below above (e :: es) = (e :: es, 0) := by
  simp [erase_by, h, h1]

theorem erase_by_equiv (below above : α → Bool) (e : α) (es : List α)
    (h : below e = false) (h1 : above e = false) :
    erase_by below above (e :: es) = (es, 1) := by
  simp [erase_by, h, h1]

theorem erase_by_flag_eq_find (below above : α → Bool) (l : List α) :
    (erase_by below above l).2 = if (find_by below above l).isSome then 1 else 0 := by
  induction l with
  | nil => rfl
  | cons e es ih =>
    rcases Bool.eq_false_or_eq_true (below e) with hb | hb
    · rw [erase_by_below below above e es hb, find_by_below below above e es hb]
      exact ih
    · rcases Bool.eq_false_or_eq_true (above e) with ha | ha
      · rw [erase_by_above below above e es hb ha, find_by_above below above e es hb ha]
        rfl
      · rw [erase_by_equiv below above e es hb ha, find_by_equiv below above e es hb ha]
        rfl

theorem erase_by_unchanged (below above : α → Bool) (l : List α)
    (h : find_by below above l = none) : (erase_by below above l).1 = l := by
  induction l with
  | nil => rfl
  | cons e es ih =>
    rcases Bool.eq_false_or_eq_true (below e) with hb | hb
    · rw [find_by_below below above e es hb] at h
      rw [erase_by_below below above e es hb, ih h]
    · rcases Bool.eq_false_or_eq_true (above e) with ha | ha
      · rw [erase_by_above below above e es hb ha]
      · rw [find_by_equiv below above e es hb ha] at h
        exact absurd h (by simp)

theorem erase_by_sublist (below above : α → Bool) (l : List α) :
    (erase_by below above l).1.Sublist l := by
  induction l with
  | nil => exact List.Sublist.refl _
  | cons e es ih =>
    rcases Bool.eq_false_or_eq_true (below e) with hb | hb
    · rw [erase_by_below below above e es hb]
      exact ih.cons₂ e
    · rcases Bool.eq_false_or_eq_true (above e) with ha | ha
      · rw [erase_by_above below above e es hb ha]
      · rw [erase_by_equiv below above e es hb ha]
        exact List.sublist_cons_self e es

theorem mem_erase_by (lt : α → α → Bool) (hlt : StrictTotal lt) (x a : α) (l : List α)
    (hs : l.Pairwise (fun a b => lt a b = true)) :
    a ∈ (erase_by (fun e => lt e x) (fun e => lt x e) l).1 ↔ a ∈ l ∧ a ≠ x := by
  induction l with
  | nil => simp [erase_by]
  | cons e es ih =>
    rw [List.pairwise_cons] at hs
    rcases Bool.eq_false_or_eq_true (lt e x) with hb | hb
    · rw [erase_by_below (fun e => lt e x) (fun e => lt x e) e es hb]
      simp only [List.mem_cons, ih hs.2]
      have hne : e ≠ x := by
        intro h
        rw [h, hlt.irrefl] at hb
        exact Bool.false_ne_true hb
      constructor
      · rintro (h | h)
        · exact ⟨Or.inl h, h ▸ hne⟩
        · exact ⟨Or.inr h.1, h.2⟩
      · rintro ⟨h | h, h2⟩
        · exact Or.inl h
        · exact Or.inr ⟨h, h2⟩
    · rcases Bool.eq_false_or_eq_true (lt x e) with ha | ha
      · rw [erase_by_above (fun e => lt e x) (fun e => lt x e) e es hb ha]
        simp only [List.mem_cons]
        constructor
        · rintro (h | h)
          · refine ⟨Or.inl h, ?_⟩
            intro hax
            rw [← hax, h, hlt.irrefl] at ha
            exact Bool.false_ne_true ha
          · refine ⟨Or.inr h, ?_⟩
            intro hax
            have := hlt.trans x e x ha (hax ▸ hs.1 a h)
            rw [hlt.irrefl] at this
            exact Bool.false_ne_true this
        · exact fun h => h.1
      · rw [erase_by_equiv (fun e => lt e x) (fun e => lt x e) e es hb ha]
        have hxe : e = x := hlt.total e x hb ha
        subst hxe
        simp only [List.mem_cons]
        constructor
        · intro h
          refine ⟨Or.inr h, ?_⟩
          intro hae
          have := hs.1 a h
          rw [hae, hlt.irrefl] at this
          exact Bool.false_ne_true this
        · rintro ⟨h | h, h2⟩
          · exact absurd h h2
          · exact h

end erase

section erase_edge

variable {N E : Type} [LinearOrder N]

theorem modify_by_self {V : Type} (k : N) (o : N × V) (l : List (N × V))
    (h : find_by (fun kv => MapCompare kv.1 k) (fun kv => MapCompare k kv.1) l = some o) :
    modify_by (fun kv => MapCompare kv.1 k) (fun kv => MapCompare k kv.1)
      (fun kv => (kv.1, o.2)) l = l := by
  induction l with
  | nil => rfl
  | cons e es ih =>
    rcases Bool.eq_false_or_eq_true (MapCompare e.1 k) with hb | hb
    · rw [find_by_below (fun kv => MapCompare kv.1 k) (fun kv => MapCompare k kv.1) e es hb] at h
      rw [modify_by_below (fun kv => MapCompare kv.1 k) (fun kv => MapCompare k kv.1) _ e es hb,
        ih h]
    · rcases Bool.eq_false_or_eq_true (MapCompare k e.1) with ha | ha
      · rw [modify_by_above (fun kv => MapCompare kv.1 k) (fun kv => MapCompare k kv.1) _ e es hb ha]
      · rw [find_by_equiv (fun kv => MapCompare kv.1 k) (fun kv => MapCompare k kv.1) e es hb ha]
          at h
        rw [modify_by_equiv (fun kv => MapCompare kv.1 k) (fun kv => MapCompare k kv.1) _ e es hb ha]
        cases h
        rfl

theorem graph.erase_edge_found [LinearOrder E] (g : graph N E) (src dst : N) (weight : E)
    (o n : N × List (N × E)) (hf : g.repr_find src = some o) (hn : g.repr_find dst = some n) :
    g.erase_edge src dst weight =
      (Res.ret (decide ((erase_by (fun e => EdgeCompare e (dst, weight))
          (fun e => EdgeCompare (dst, weight) e) o.2).2 = 1)),
        ⟨g.nodes_,
          modify_by (fun kv => MapCompare kv.1 src) (fun kv => MapCompare src kv.1)
            (fun kv => (kv.1, (erase_by (fun e => EdgeCompare e (dst, weight))
              (fun e => EdgeCompare (dst, weight) e) o.2).1)) g.repr_⟩) := by
  have hd : n.1 = dst := (find_by_key_some dst g.repr_ n hn).1
  unfold graph.erase_edge
  rw [hf, hn]
  simp only [hd]

theorem graph.repr_find_of_is_node [LinearOrder E] (g : graph N E) (h : g.WF) (x : N)
    (hx : g.is_node x = true) : ∃ o, g.repr_find x = some o := by
  rw [graph.is_node_eq_repr_find g h] at hx
  cases hf : g.repr_find x with
  | none => rw [hf] at hx; exact absurd hx (by simp)
  | some o => exact ⟨o, rfl⟩

end erase_edge

end gdwg

/-! ## Lemmas on `insert_edge` and `weights` -/

namespace gdwg

section weights

variable {N E : Type} [LinearOrder N] [LinearOrder E]

theorem mem_modify_const {V : Type} (k : N) (v : V) (l : List (N × V)) (kv : N × V)
    (h : kv ∈ modify_by (fun kv => MapCompare kv.1 k) (fun kv => MapCompare k kv.1)
      (fun kv => (kv.1, v)) l) : kv ∈ l ∨ kv.2 = v := by
  induction l with
  | nil => simp [modify_by] at h
  | cons e es ih =>
    rcases Bool.eq_false_or_eq_true (MapCompare e.1 k) with hb | hb
    · rw [modify_by_below (fun kv => MapCompare kv.1 k) (fun kv => MapCompare k kv.1) _ e es hb]
        at h
      rcases List.mem_cons.1 h with h | h
      · exact Or.inl (h ▸ List.mem_cons_self _ _)
      · rcases ih h with h | h
        · exact Or.inl (List.mem_cons_of_mem _ h)
        · exact Or.inr h
    · rcases Bool.eq_false_or_eq_true (MapCompare k e.1) with ha | ha
      · rw [modify_by_above (fun kv => MapCompare kv.1 k) (fun kv => MapCompare k kv.1) _ e es
          hb ha] at h
        exact Or.inl h
      · rw [modify_by_equiv (fun kv => MapCompare kv.1 k) (fun kv => MapCompare k kv.1) _ e es
          hb ha] at h
        rcases List.mem_cons.1 h with h | h
        · exact Or.inr (h ▸ rfl)
        · exact Or.inl (List.mem_cons_of_mem _ h)

theorem graph.insert_edge_nodes (g : graph N E) (src dst : N) (weight : E) :
    (g.insert_edge src dst weight).2.nodes_ = g.nodes_ := by
  unfold graph.insert_edge
  split <;> rfl

theorem graph.insert_edge_WF (g : graph N E) (h : g.WF) (src dst : N) (weight : E) :
    (g.insert_edge src dst weight).2.WF := by
  cases hf : g.repr_find src with
  | none => simpa [graph.insert_edge, hf] using h
  | some o =>
    cases hn : g.repr_find dst with
    | none => simpa [graph.insert_edge, hf, hn] using h
    | some n =>
      rw [graph.insert_edge_found g src dst weight o n hf hn]
      refine ⟨h.1, ?_, ?_⟩
      · simp only
        rw [map_fst_modify_const]
        exact h.2.1
      · intro kv hkv
        rcases mem_modify_const src _ g.repr_ kv hkv with hk | hk
        · exact h.2.2 kv hk
        · rw [hk]
          exact insert_by_sorted EdgeCompare EdgeCompare_strictTotal _ _
            (h.2.2 o (find_by_key_some src g.repr_ o hf).2)

theorem graph.insert_edge_edges (g : graph N E) (h : g.WF) (src dst : N) (weight : E)
    (hsrc : g.is_node src = true) (hdst : g.is_node dst = true) (t : N × N × E) :
    t ∈ (g.insert_edge src dst weight).2.edges ↔ t ∈ g.edges ∨ t = (src, dst, weight) := by
  obtain ⟨o, hf⟩ := graph.repr_find_of_is_node g h src hsrc
  obtain ⟨n, hn⟩ := graph.repr_find_of_is_node g h dst hdst
  have hres := graph.insert_edge_found g src dst weight o n hf hn
  have hkeys := (graph.insert_edge_WF g h src dst weight).keys_sorted
  obtain ⟨s, d, w⟩ := t
  rw [graph.mem_edges _ hkeys, graph.mem_edges g h.keys_sorted]
  have hfind : (g.insert_edge src dst weight).2.repr_find s
      = if s = src then some (o.1, (insert_by (fun e => EdgeCompare e (dst, weight))
          (fun e => EdgeCompare (dst, weight) e) (dst, weight) o.2).1)
        else g.repr_find s := by
    rw [hres]
    unfold graph.repr_find
    simp only
    rw [find_by_modify_const]
    by_cases hs : s = src
    · simp only [hs, if_true]
      have : find_by (fun kv => MapCompare kv.1 src) (fun kv => MapCompare src kv.1) g.repr_
          = some o := hf
      rw [this]
      rfl
    · simp only [hs, if_false]
  rw [hfind]
  by_cases hs : s = src
  · subst hs
    simp only [if_true, Option.some.injEq, exists_eq_left', hf, Prod.mk.injEq, true_and]
    rw [mem_insert_by EdgeCompare EdgeCompare_strictTotal]
    simp only [Prod.mk.injEq]
    tauto
  · simp only [hs, if_false, Prod.mk.injEq, false_and, or_false]

theorem EdgeCompare_le_fst (a b : N × E) (h : EdgeCompare a b = true) : a.1 ≤ b.1 := by
  rw [EdgeCompare_iff] at h
  rcases h with h | h
  · exact le_of_lt h
  · exact le_of_eq h.1

theorem weights_loop_eq_filter (dst : N) (l : List (N × E))
    (hs : l.Pairwise (fun a b => EdgeCompare a b = true)) (hge : ∀ a ∈ l, dst ≤ a.1) :
    graph.weights_loop dst l = (l.filter (fun e => decide (e.1 = dst))).map Prod.snd := by
  induction l with
  | nil => rfl
  | cons e es ih =>
    rw [List.pairwise_cons] at hs
    by_cases he : e.1 = dst
    · simp only [graph.weights_loop, he, if_true, List.filter_cons, decide_True, List.map_cons]
      rw [ih hs.2 (fun a ha => hge a (List.mem_cons_of_mem _ ha))]
    · have hlt : dst < e.1 := lt_of_le_of_ne (hge e (List.mem_cons_self _ _)) (Ne.symm he)
      have hnone : es.filter (fun e => decide (e.1 = dst)) = [] := by
        rw [List.filter_eq_nil_iff]
        intro a ha
        have := EdgeCompare_le_fst e a (hs.1 a ha)
        simp only [decide_eq_true_eq]
        exact ne_of_gt (lt_of_lt_of_le hlt this)
      simp [graph.weights_loop, he, List.filter_cons, hnone]

theorem weights_loop_from_find (dst : N) (l : List (N × E))
    (hs : l.Pairwise (fun a b => EdgeCompare a b = true)) :
    graph.weights_loop dst
        (graph.from_find (fun e => EdgeCompare_pair_key e dst)
          (fun e => EdgeCompare_key_pair dst e) l)
      = (l.filter (fun e => decide (e.1 = dst))).map Prod.snd := by
  induction l with
  | nil => rfl
  | cons e es ih =>
    have hs' := List.pairwise_cons.1 hs
    by_cases hb : e.1 < dst
    · have : e.1 ≠ dst := ne_of_lt hb
      simp only [graph.from_find, EdgeCompare_pair_key, hb, decide_True, if_true,
        List.filter_cons, this, decide_False]
      exact ih hs'.2
    · by_cases ha : dst < e.1
      · have hnone : (e :: es).filter (fun e => decide (e.1 = dst)) = [] := by
          rw [List.filter_eq_nil_iff]
          intro a hmem
          simp only [decide_eq_true_eq]
          rcases List.mem_cons.1 hmem with h | h
          · exact h ▸ ne_of_gt ha
          · exact ne_of_gt (lt_of_lt_of_le ha (EdgeCompare_le_fst e a (hs'.1 a h)))
        rw [hnone]
        simp [graph.from_find, EdgeCompare_pair_key, EdgeCompare_key_pair, hb, ha,
          graph.weights_loop]
      · have he : e.1 = dst := le_antisymm (not_lt.1 ha) (not_lt.1 hb)
        have : graph.from_find (fun e => EdgeCompare_pair_key e dst)
            (fun e => EdgeCompare_key_pair dst e) (e :: es) = e :: es := by
          simp [graph.from_find, EdgeCompare_pair_key, EdgeCompare_key_pair, hb, ha]
        rw [this]
        apply weights_loop_eq_filter dst (e :: es) hs
        intro a hmem
        rcases List.mem_cons.1 hmem with h | h
        · exact h ▸ le_of_eq he.symm
        · exact he ▸ EdgeCompare_le_fst e a (hs'.1 a h)

theorem pair_sublist_of_sorted {α : Type} [LinearOrder α] (l : List α)
    (hs : l.Pairwise (fun a b => a < b)) (a b : α) (ha : a ∈ l) (hb : b ∈ l) (hab : a < b) :
    [a, b].Sublist l := by
  induction l with
  | nil => simp at ha
  | cons x xs ih =>
    rw [List.pairwise_cons] at hs
    have hbx : b ∈ xs := by
      rcases List.mem_cons.1 hb with h | h
      · rcases List.mem_cons.1 ha with h1 | h1
        · exact absurd (h1.trans h.symm) (ne_of_lt hab)
        · exact absurd (hs.1 a h1) (by rw [← h]; exact not_lt.2 (le_of_lt hab))
      · exact h
    rcases List.mem_cons.1 ha with h | h
    · rw [h]
      exact (List.singleton_sublist.2 hbx).cons₂ x
    · exact (ih hs.2 h hbx).cons x

theorem graph.weights_found (g : graph N E) (h : g.WF) (src dst : N)
    (hsrc : g.is_node src = true) (hdst : g.is_node dst = true) :
    ∃ ws, g.weights src dst = Res.ret ws ∧ ws.Pairwise (fun a b => a < b) ∧
      ∀ w, w ∈ ws ↔ (src, dst, w) ∈ g.edges := by
  obtain ⟨o, hf⟩ := graph.repr_find_of_is_node g h src hsrc
  obtain ⟨n, hn⟩ := graph.repr_find_of_is_node g h dst hdst
  have ho := find_by_key_some src g.repr_ o hf
  have hd : n.1 = dst := (find_by_key_some dst g.repr_ n hn).1
  have hsorted := h.2.2 o ho.2
  refine ⟨(o.2.filter (fun e => decide (e.1 = dst))).map Prod.snd, ?_, ?_, ?_⟩
  · unfold graph.weights
    rw [hf, hn]
    simp only [hd]
    rw [weights_loop_from_find dst o.2 hsorted]
  · rw [List.pairwise_map]
    refine (hsorted.sublist (List.filter_sublist _)).imp_of_mem ?_
    intro a b ha hb hab
    have ha1 := (List.mem_filter.1 ha).2
    have hb1 := (List.mem_filter.1 hb).2
    simp only [decide_eq_true_eq] at ha1 hb1
    rw [EdgeCompare_iff] at hab
    rcases hab with hab | hab
    · rw [ha1, hb1] at hab
      exact absurd hab (lt_irrefl _)
    · exact hab.2
  · intro w
    rw [graph.mem_edges g h.keys_sorted, hf]
    simp only [List.mem_map, List.mem_filter, decide_eq_true_eq, Option.some.injEq,
      exists_eq_left']
    constructor
    · rintro ⟨a, ⟨ha, ha1⟩, ha2⟩
      have : a = (dst, w) := Prod.ext ha1 ha2
      exact this ▸ ha
    · intro hmem
      exact ⟨(dst, w), ⟨hmem, rfl⟩, rfl⟩

end weights

end gdwg

/-! ## Lemmas on the queries -/

namespace gdwg

section queries

variable {N E : Type} [LinearOrder N] [LinearOrder E]

theorem find_by_some {α : Type} (lt : α → α → Bool) (hlt : StrictTotal lt) (x e : α) (l : List α)
    (h : find_by (fun e => lt e x) (fun e => lt x e) l = some e) : e = x ∧ e ∈ l := by
  induction l with
  | nil => simp [find_by] at h
  | cons a as ih =>
    rcases Bool.eq_false_or_eq_true (lt a x) with hb | hb
    · rw [find_by_below (fun e => lt e x) (fun e => lt x e) a as hb] at h
      exact ⟨(ih h).1, List.mem_cons_of_mem _ (ih h).2⟩
    · rcases Bool.eq_false_or_eq_true (lt x a) with ha | ha
      · rw [find_by_above (fun e => lt e x) (fun e => lt x e) a as hb ha] at h
        exact absurd h (by simp)
      · rw [find_by_equiv (fun e => lt e x) (fun e => lt x e) a as hb ha] at h
        cases h
        exact ⟨hlt.total _ x hb ha, List.mem_cons_self _ _⟩

omit [LinearOrder N] [LinearOrder E] in
theorem graph.mem_edges_of_mem (g : graph N E) (kv : N × List (N × E)) (e : N × E)
    (hkv : kv ∈ g.repr_) (he : e ∈ kv.2) : (kv.1, e.1, e.2) ∈ g.edges := by
  unfold graph.edges
  rw [List.mem_flatMap]
  exact ⟨kv, hkv, List.mem_map.2 ⟨e, he, rfl⟩⟩

end queries

end gdwg

/-! ## Lemmas on the iterator -/

namespace gdwg

section positions

variable {α : Type} [DecidableEq α]

theorem successor_of_split (x : α) (X Y : List α) (h : x ∉ X) :
    successor x (X ++ x :: Y) = Y.head? := by
  induction X with
  | nil => simp [successor]
  | cons a as ih =>
    have ha : a ≠ x := fun hax => h (hax ▸ List.mem_cons_self _ _)
    have hx : x ∉ as := fun hx => h (List.mem_cons_of_mem _ hx)
    simp only [List.cons_append, successor, ha, if_false]
    exact ih hx

theorem predecessor_not_mem (x : α) (l : List α) (h : x ∉ l) :
    iterator.predecessor x l = none := by
  induction l with
  | nil => rfl
  | cons a as ih =>
    cases as with
    | nil => rfl
    | cons b bs =>
      have hb : b ≠ x := fun hbx => h (hbx ▸ List.mem_cons_of_mem _ (List.mem_cons_self _ _))
      simp only [iterator.predecessor, hb, if_false]
      exact ih (fun hx => h (List.mem_cons_of_mem _ hx))

theorem predecessor_head (x : α) (Y : List α) (h : x ∉ Y) :
    iterator.predecessor x (x :: Y) = none := by
  cases Y with
  | nil => rfl
  | cons b bs =>
    have hb : b ≠ x := fun hbx => h (hbx ▸ List.mem_cons_self _ _)
    simp only [iterator.predecessor, hb, if_false]
    exact predecessor_not_mem x (b :: bs) h

theorem predecessor_of_split (x : α) (X Y : List α) (h : x ∉ X) (h1 : x ∉ Y) :
    iterator.predecessor x (X ++ x :: Y) = X.getLast? := by
  induction X with
  | nil => simpa using predecessor_head x Y h1
  | cons a as ih =>
    have hx : x ∉ as := fun hx => h (List.mem_cons_of_mem _ hx)
    cases as with
    | nil => simp [iterator.predecessor]
    | cons b bs =>
      have hb : b ≠ x := fun hbx => h (hbx ▸ List.mem_cons_of_mem _ (List.mem_cons_self _ _))
      simp only [List.cons_append, iterator.predecessor, hb, if_false, List.getLast?_cons_cons]
      exact ih hx

end positions

end gdwg

namespace gdwg

section structure_lemmas

variable {N E : Type}

theorem graph.edges_eq (g : graph N E) : g.edges = entry_edges g.repr_ := rfl

theorem entry_edges_nil : entry_edges ([] : List (N × List (N × E))) = [] := rfl

theorem entry_edges_cons (kv : N × List (N × E)) (r : List (N × List (N × E))) :
    entry_edges (kv :: r) = kv.2.map (fun e => (kv.1, e.1, e.2)) ++ entry_edges r := rfl

theorem entry_edges_append (r1 r2 : List (N × List (N × E))) :
    entry_edges (r1 ++ r2) = entry_edges r1 ++ entry_edges r2 := by
  simp [entry_edges]

theorem entry_edges_split (before after : List (N × List (N × E))) (k : N) (p q : List (N × E))
    (e : N × E) :
    entry_edges (before ++ (k, p ++ e :: q) :: after)
      = (entry_edges before ++ p.map (fun e => (k, e.1, e.2))) ++
        (k, e.1, e.2) :: (q.map (fun e => (k, e.1, e.2)) ++ entry_edges after) := by
  simp [entry_edges_append, entry_edges_cons]

theorem mem_entry_edges (r : List (N × List (N × E))) (t : N × N × E) :
    t ∈ entry_edges r ↔ ∃ kv ∈ r, kv.1 = t.1 ∧ t.2 ∈ kv.2 := by
  unfold entry_edges
  rw [List.mem_flatMap]
  constructor
  · rintro ⟨kv, hkv, ht⟩
    obtain ⟨e, he, rfl⟩ := List.mem_map.1 ht
    exact ⟨kv, hkv, rfl, he⟩
  · rintro ⟨kv, hkv, hk, ht⟩
    exact ⟨kv, hkv, List.mem_map.2 ⟨t.2, ht, by rw [hk]⟩⟩

theorem entry_edges_key_mem (r : List (N × List (N × E))) (t : N × N × E)
    (h : t ∈ entry_edges r) : t.1 ∈ r.map Prod.fst := by
  obtain ⟨kv, hkv, hk, -⟩ := (mem_entry_edges r t).1 h
  exact hk ▸ List.mem_map_of_mem _ hkv

/-- Every stored edge sits at one place of `repr_`. -/
theorem entry_edges_decompose (r : List (N × List (N × E))) (t : N × N × E)
    (h : t ∈ entry_edges r) :
    ∃ before after p q, r = before ++ (t.1, p ++ t.2 :: q) :: after := by
  obtain ⟨kv, hkv, hk, ht⟩ := (mem_entry_edges r t).1 h
  obtain ⟨before, after, hr⟩ := List.append_of_mem hkv
  obtain ⟨p, q, hp⟩ := List.append_of_mem ht
  refine ⟨before, after, p, q, ?_⟩
  rw [hr, ← hk, ← hp]

theorem of_range_eq (r : List (N × List (N × E))) :
    iterator.of_range r = iterator.at_pos (entry_edges r).head? := by
  induction r with
  | nil => rfl
  | cons kv rest ih =>
    obtain ⟨k, es⟩ := kv
    cases es with
    | nil => simpa [iterator.of_range, entry_edges_cons] using ih
    | cons e es => simp [iterator.of_range, entry_edges_cons, iterator.at_pos, iterator.at_edge]

theorem skip_exhausted_eq (r : List (N × List (N × E))) :
    iterator.skip_exhausted none r = iterator.at_pos (entry_edges r).head? := by
  induction r with
  | nil => rfl
  | cons kv rest ih =>
    obtain ⟨k, es⟩ := kv
    cases es with
    | nil => simpa [iterator.skip_exhausted, entry_edges_cons] using ih
    | cons e es =>
      simp [iterator.skip_exhausted, entry_edges_cons, iterator.at_pos, iterator.at_edge]

theorem retreat_eq (l : List (N × List (N × E))) :
    iterator.retreat none l = (entry_edges l.reverse).getLast?.map iterator.at_edge := by
  induction l with
  | nil => rfl
  | cons kv before ih =>
    obtain ⟨k, es⟩ := kv
    rw [List.reverse_cons, entry_edges_append, List.getLast?_append]
    simp only [entry_edges_cons, entry_edges_nil, List.append_nil, List.getLast?_map]
    cases hl : es.getLast? with
    | none => simp [iterator.retreat, hl, ih]
    | some e => simp [iterator.retreat, hl, iterator.at_edge]

end structure_lemmas

section key_lemmas

variable {N E : Type} [LinearOrder N]

theorem entries_from_split (before after : List (N × List (N × E))) (kv : N × List (N × E))
    (h : kv.1 ∉ before.map Prod.fst) :
    iterator.entries_from kv.1 (before ++ kv :: after) = kv :: after := by
  induction before with
  | nil => simp [iterator.entries_from]
  | cons a as ih =>
    have ha : a.1 ≠ kv.1 := fun hak => h (by simp [hak])
    have hx : kv.1 ∉ as.map Prod.fst := fun hx => h (by simp at hx ⊢; exact Or.inr hx)
    simp only [List.cons_append, iterator.entries_from, ha, if_false]
    exact ih hx

theorem split_at_key_split (before after : List (N × List (N × E))) (kv : N × List (N × E))
    (h : kv.1 ∉ before.map Prod.fst) :
    iterator.split_at_key kv.1 (before ++ kv :: after) = some (before, kv) := by
  induction before with
  | nil => simp [iterator.split_at_key]
  | cons a as ih =>
    have ha : a.1 ≠ kv.1 := fun hak => h (by simp [hak])
    have hx : kv.1 ∉ as.map Prod.fst := fun hx => h (by simp at hx ⊢; exact Or.inr hx)
    simp only [List.cons_append, iterator.split_at_key, ha, if_false, List.append_eq, ih hx]

theorem update_entry_split (f : List (N × E) → List (N × E))
    (before after : List (N × List (N × E))) (kv : N × List (N × E))
    (h : kv.1 ∉ before.map Prod.fst) :
    graph.update_entry kv.1 f (before ++ kv :: after) = before ++ (kv.1, f kv.2) :: after := by
  induction before with
  | nil => simp [graph.update_entry]
  | cons a as ih =>
    have ha : a.1 ≠ kv.1 := fun hak => h (by simp [hak])
    have hx : kv.1 ∉ as.map Prod.fst := fun hx => h (by simp at hx ⊢; exact Or.inr hx)
    simp only [List.cons_append, graph.update_entry, ha, if_false, List.append_eq, ih hx]

end key_lemmas

end gdwg

namespace gdwg

section steps

variable {N E : Type} [LinearOrder N] [LinearOrder E]

omit [LinearOrder N] [LinearOrder E] in
/-- Facts about the place of a stored edge that follow from distinct keys and distinct
edges. -/
theorem place_facts (before after : List (N × List (N × E))) (p q : List (N × E))
    (t : N × N × E)
    (hk : ((before ++ (t.1, p ++ t.2 :: q) :: after).map Prod.fst).Nodup)
    (hf : (entry_edges (before ++ (t.1, p ++ t.2 :: q) :: after)).Nodup) :
    t.1 ∉ before.map Prod.fst ∧ t.2 ∉ p ∧ t.2 ∉ q ∧
    t ∉ entry_edges before ++ p.map (fun e => (t.1, e.1, e.2)) ∧
    t ∉ q.map (fun e => (t.1, e.1, e.2)) ++ entry_edges after := by
  rw [entry_edges_split] at hf
  have ht : (t.1, t.2.1, t.2.2) = t := rfl
  rw [ht, List.nodup_middle, List.nodup_cons, List.mem_append] at hf
  rw [List.map_append, List.map_cons, List.nodup_middle, List.nodup_cons, List.mem_append] at hk
  have h1 : t ∉ entry_edges before ++ p.map (fun e => (t.1, e.1, e.2)) := fun h => hf.1 (Or.inl h)
  have h2 : t ∉ q.map (fun e => (t.1, e.1, e.2)) ++ entry_edges after := fun h => hf.1 (Or.inr h)
  refine ⟨fun h => hk.1 (Or.inl h), ?_, ?_, h1, h2⟩
  · intro hp
    exact h1 (List.mem_append_right _ (List.mem_map.2 ⟨t.2, hp, rfl⟩))
  · intro hq
    exact h2 (List.mem_append_left _ (List.mem_map.2 ⟨t.2, hq, rfl⟩))

theorem incr_at_edge (r : List (N × List (N × E))) (hk : (r.map Prod.fst).Nodup)
    (hf : (entry_edges r).Nodup) (t : N × N × E) (ht : t ∈ entry_edges r) :
    iterator.incr r (iterator.at_edge t) = some (iterator.at_pos (successor t (entry_edges r))) := by
  obtain ⟨before, after, p, q, hr⟩ := entry_edges_decompose r t ht
  subst hr
  obtain ⟨h1, h2, -, h4, -⟩ := place_facts before after p q t hk hf
  have hflat := entry_edges_split before after t.1 p q t.2
  have htt : (t.1, t.2.1, t.2.2) = t := rfl
  rw [htt] at hflat
  rw [hflat, successor_of_split t _ _ h4]
  unfold iterator.incr iterator.at_edge
  simp only
  rw [entries_from_split before after (t.1, p ++ t.2 :: q) h1]
  simp only [List.mem_append, List.mem_cons, true_or, or_true, if_true]
  rw [successor_of_split t.2 p q h2]
  cases q with
  | nil =>
    simp only [List.head?_nil, List.map_nil, List.nil_append]
    rw [skip_exhausted_eq]
  | cons e1 q1 =>
    simp [iterator.at_pos, iterator.at_edge]

theorem decr_at_edge (r : List (N × List (N × E))) (hk : (r.map Prod.fst).Nodup)
    (hf : (entry_edges r).Nodup) (t : N × N × E) (ht : t ∈ entry_edges r) :
    iterator.decr r (iterator.at_edge t)
      = (iterator.predecessor t (entry_edges r)).map iterator.at_edge := by
  obtain ⟨before, after, p, q, hr⟩ := entry_edges_decompose r t ht
  subst hr
  obtain ⟨h1, h2, h3, h4, h5⟩ := place_facts before after p q t hk hf
  have hflat := entry_edges_split before after t.1 p q t.2
  have htt : (t.1, t.2.1, t.2.2) = t := rfl
  rw [htt] at hflat
  rw [hflat, predecessor_of_split t _ _ h4 h5]
  unfold iterator.decr iterator.at_edge
  simp only
  rw [split_at_key_split before after (t.1, p ++ t.2 :: q) h1]
  simp only [List.mem_append, List.mem_cons, true_or, or_true, if_true]
  cases p with
  | nil =>
    simp only [List.nil_append, List.head?_cons, if_true, List.map_nil, List.append_nil]
    rw [retreat_eq, List.reverse_reverse]
    rfl
  | cons a p1 =>
    have ha : a ≠ t.2 := fun hat => h2 (hat ▸ List.mem_cons_self _ _)
    have hne : (a :: p1).getLast? ≠ none := by simp
    rw [predecessor_of_split t.2 (a :: p1) q h2 h3]
    simp only [List.cons_append, List.head?_cons, Option.some.injEq, ha, if_false,
      List.getLast?_append, List.getLast?_map]
    cases hl : (a :: p1).getLast? with
    | none => exact absurd hl hne
    | some e => simp [iterator.at_edge]

theorem decr_end (r : List (N × List (N × E))) :
    iterator.decr r (iterator.at_pos none)
      = (entry_edges r).getLast?.map iterator.at_edge := by
  unfold iterator.decr iterator.at_pos
  simp only
  rw [retreat_eq, List.reverse_reverse]

end steps

end gdwg

namespace gdwg

section traversal

variable {N E : Type} [LinearOrder N] [LinearOrder E]

theorem edge_lt_irrefl (a : N × N × E) : ¬ edge_lt a a := by
  unfold edge_lt
  simp

theorem graph.WF.edges_sorted {g : graph N E} (h : g.WF) : g.edges.Pairwise edge_lt := by
  unfold graph.edges
  rw [List.pairwise_flatMap]
  constructor
  · intro kv hkv
    rw [List.pairwise_map]
    refine (h.2.2 kv hkv).imp ?_
    intro a b hab
    rw [EdgeCompare_iff] at hab
    exact Or.inr ⟨rfl, hab⟩
  · have hk := h.keys_sorted
    rw [List.pairwise_map] at hk
    refine hk.imp ?_
    intro a b hab x hx y hy
    obtain ⟨e, -, rfl⟩ := List.mem_map.1 hx
    obtain ⟨e', -, rfl⟩ := List.mem_map.1 hy
    exact Or.inl hab

theorem graph.WF.edges_nodup {g : graph N E} (h : g.WF) : g.edges.Nodup :=
  List.Pairwise.imp (fun {a b} (hab : edge_lt a b) (heq : a = b) =>
    edge_lt_irrefl b (heq ▸ hab)) h.edges_sorted

theorem graph.WF.keys_nodup {g : graph N E} (h : g.WF) : (g.repr_.map Prod.fst).Nodup :=
  h.keys_sorted.imp ne_of_lt

omit [LinearOrder N] [LinearOrder E] in
theorem not_mem_of_nodup_append (X Y : List (N × N × E)) (t : N × N × E)
    (h : (X ++ t :: Y).Nodup) : t ∉ X ∧ t ∉ Y := by
  rw [List.nodup_middle, List.nodup_cons, List.mem_append] at h
  exact ⟨fun hx => h.1 (Or.inl hx), fun hy => h.1 (Or.inr hy)⟩

omit [LinearOrder N] [LinearOrder E] in
theorem at_pos_some (t : N × N × E) : iterator.at_pos (some t) = iterator.at_edge t := rfl

omit [LinearOrder N] [LinearOrder E] in
theorem deref_at_edge (t : N × N × E) :
    (iterator.at_edge t).deref = some (graph.to_value t) := rfl

omit [LinearOrder N] [LinearOrder E] in
theorem graph.begin_eq (g : graph N E) : g.begin = iterator.at_pos g.edges.head? :=
  of_range_eq g.repr_

theorem at_edge_eq_end (g : graph N E) (t : N × N × E) :
    (iterator.at_edge t).operator_eq g.end_ = false := by
  simp [iterator.operator_eq, iterator.at_edge, graph.end_]

theorem at_edge_eq_iff (a b : N × N × E) :
    (iterator.at_edge a).operator_eq (iterator.at_edge b) = true ↔ a = b := by
  simp only [iterator.operator_eq, iterator.at_edge, Option.some.injEq, Bool.and_eq_true,
    decide_eq_true_eq]
  constructor
  · rintro ⟨h1, h2⟩
    exact Prod.ext h1 h2
  · rintro rfl
    exact ⟨rfl, rfl⟩

theorem graph.incr_at_pos (g : graph N E) (h : g.WF) (X Y : List (N × N × E)) (t : N × N × E)
    (he : g.edges = X ++ t :: Y) :
    (iterator.at_edge t).incr g.repr_ = some (iterator.at_pos Y.head?) := by
  have hn := h.edges_nodup
  rw [he] at hn
  have ht : t ∈ entry_edges g.repr_ := by
    rw [← graph.edges_eq, he]
    simp
  rw [incr_at_edge g.repr_ h.keys_nodup (by rw [← graph.edges_eq]; exact h.edges_nodup) t ht,
    ← graph.edges_eq, he, successor_of_split t X Y (not_mem_of_nodup_append X Y t hn).1]

theorem graph.decr_at_pos (g : graph N E) (h : g.WF) (X Y : List (N × N × E))
    (he : g.edges = X ++ Y) :
    (iterator.at_pos Y.head?).decr g.repr_ = X.getLast?.map iterator.at_edge := by
  cases Y with
  | nil =>
    rw [List.head?_nil, decr_end, ← graph.edges_eq, he, List.append_nil]
  | cons t Y1 =>
    have hn := h.edges_nodup
    rw [he] at hn
    have ht : t ∈ entry_edges g.repr_ := by
      rw [← graph.edges_eq, he]
      simp
    have hsplit := not_mem_of_nodup_append X Y1 t hn
    rw [List.head?_cons, at_pos_some]
    rw [decr_at_edge g.repr_ h.keys_nodup (by rw [← graph.edges_eq]; exact h.edges_nodup) t ht,
      ← graph.edges_eq, he, predecessor_of_split t X Y1 hsplit.1 hsplit.2]

theorem graph.traverse_from_suffix (g : graph N E) (h : g.WF) (Y X : List (N × N × E))
    (fuel : Nat) (he : g.edges = X ++ Y) (hfuel : Y.length < fuel) :
    g.traverse_from fuel (iterator.at_pos Y.head?) = some (Y.map graph.to_value) := by
  induction Y generalizing X fuel with
  | nil =>
    cases fuel with
    | zero => exact absurd hfuel (Nat.lt_irrefl _)
    | succ f => rfl
  | cons t Y1 ih =>
    cases fuel with
    | zero => exact absurd hfuel (Nat.not_lt_zero _)
    | succ f =>
      have hstep := graph.incr_at_pos g h X Y1 t he
      have hrec := ih (X ++ [t]) f (by rw [he]; simp) (Nat.lt_of_succ_lt_succ hfuel)
      rw [List.head?_cons, at_pos_some]
      unfold graph.traverse_from
      rw [at_edge_eq_end g t, hstep, deref_at_edge]
      simp only [Bool.false_eq_true, if_false]
      rw [hrec]
      rfl

theorem graph.advance_suffix (g : graph N E) (h : g.WF) (X W Y : List (N × N × E))
    (he : g.edges = W ++ X ++ Y) :
    g.advance X.length (iterator.at_pos (X ++ Y).head?) = some (iterator.at_pos Y.head?) := by
  induction X generalizing W with
  | nil => rfl
  | cons t X1 ih =>
    have hstep := graph.incr_at_pos g h W (X1 ++ Y) t (by rw [he]; simp)
    have hrec := ih (W ++ [t]) (by rw [he]; simp)
    rw [List.cons_append, List.head?_cons, List.length_cons, at_pos_some]
    unfold graph.advance
    rw [hstep]
    exact hrec

theorem graph.traverse_back_prefix (g : graph N E) (h : g.WF) (X Y : List (N × N × E))
    (fuel : Nat) (he : g.edges = X ++ Y) (hX : X ≠ []) (hfuel : X.length ≤ fuel) :
    g.traverse_back_from fuel (iterator.at_pos Y.head?)
      = some (X.reverse.map graph.to_value) := by
  induction X using List.reverseRecOn generalizing Y fuel with
  | nil => exact absurd rfl hX
  | append_singleton X1 t ih =>
    cases fuel with
    | zero => simp at hfuel
    | succ f =>
      have hstep := graph.decr_at_pos g h (X1 ++ [t]) Y he
      rw [List.getLast?_concat] at hstep
      unfold graph.traverse_back_from
      rw [hstep]
      simp only [Option.map_some', deref_at_edge]
      rw [graph.begin_eq, he]
      cases X1 with
      | nil =>
        simp only [List.nil_append, List.singleton_append, List.head?_cons, at_pos_some,
          (at_edge_eq_iff t t).2 rfl, if_true, List.reverse_cons, List.reverse_nil,
          List.map_cons, List.map_nil]
      | cons x X2 =>
        have hn := h.edges_nodup
        rw [he] at hn
        have hxt : t ≠ x := by
          intro htx
          have : ((x :: X2) ++ t :: Y).Nodup := by simpa using hn
          exact (not_mem_of_nodup_append (x :: X2) Y t this).1 (htx ▸ List.mem_cons_self _ _)
        have hne : (iterator.at_edge t).operator_eq (iterator.at_edge x) = false := by
          rw [← Bool.not_eq_true, at_edge_eq_iff]
          exact hxt
        have hrec := ih (t :: Y) f (by rw [he]; simp) (by simp)
          (by simp at hfuel ⊢; omega)
        rw [List.head?_cons, at_pos_some] at hrec
        simp only [List.cons_append, List.head?_cons, at_pos_some, hne, Bool.false_eq_true,
          if_false, hrec]
        simp

end traversal

end gdwg

namespace gdwg

section iterator_claims

variable {N E : Type} [LinearOrder N] [LinearOrder E]

theorem graph.find_eq (g : graph N E) (h : g.WF) (src dst : N) (weight : E) :
    g.find src dst weight
      = if (src, dst, weight) ∈ g.edges then iterator.at_edge (src, dst, weight) else g.end_ := by
  have hmem := graph.mem_edges g h.keys_sorted src dst weight
  unfold graph.find
  cases hf : g.repr_find src with
  | none =>
    rw [hf] at hmem
    rw [if_neg (fun hm => by simpa using hmem.1 hm)]
  | some o =>
    rw [hf] at hmem
    have ho := find_by_key_some src g.repr_ o hf
    have hsorted := h.2.2 o ho.2
    have hiff := find_by_isSome_iff_mem EdgeCompare EdgeCompare_strictTotal (dst, weight) o.2
      hsorted
    simp only
    cases he : find_by (fun e => EdgeCompare e (dst, weight))
        (fun e => EdgeCompare (dst, weight) e) o.2 with
    | none =>
      rw [he] at hiff
      have hno : (dst, weight) ∉ o.2 := fun hm => by simpa using hiff.2 hm
      rw [if_neg]
      intro hm
      obtain ⟨kv, hkv, hin⟩ := hmem.1 hm
      cases hkv
      exact hno hin
    | some edge =>
      have h1 := find_by_some EdgeCompare EdgeCompare_strictTotal (dst, weight) edge o.2 he
      rw [if_pos (hmem.2 ⟨o, rfl, h1.1 ▸ h1.2⟩), h1.1, ho.1]
      rfl

end iterator_claims

end gdwg

namespace gdwg

section erase_by_iterator

variable {N E : Type} [LinearOrder N] [LinearOrder E]

omit [LinearOrder N] [LinearOrder E] in
theorem erase_of_split {α : Type} [BEq α] [LawfulBEq α] (x : α) (X Y : List α) (h : x ∉ X) :
    (X ++ x :: Y).erase x = X ++ Y := by
  rw [List.erase_append_right _ h, List.erase_cons_head]

theorem graph.erase_edge_it_at (g : graph N E) (h : g.WF) (X Y : List (N × N × E))
    (t : N × N × E) (he : g.edges = X ++ t :: Y) :
    ∃ g1, g.erase_edge_it (iterator.at_edge t) = some (iterator.at_pos Y.head?, g1) ∧
      g1.nodes_ = g.nodes_ ∧ g1.edges = X ++ Y ∧ g1.WF := by
  have hstep := graph.incr_at_pos g h X Y t he
  have hn := h.edges_nodup
  have ht : t ∈ entry_edges g.repr_ := by
    rw [← graph.edges_eq, he]
    simp
  obtain ⟨before, after, p, q, hr⟩ := entry_edges_decompose g.repr_ t ht
  have hk := h.keys_nodup
  have hf : (entry_edges g.repr_).Nodup := by rw [← graph.edges_eq]; exact hn
  rw [hr] at hk hf
  obtain ⟨h1, h2, -, h4, -⟩ := place_facts before after p q t hk hf
  have hupd : graph.update_entry t.1 (fun es => es.erase t.2) g.repr_
      = before ++ (t.1, p ++ q) :: after := by
    rw [hr, update_entry_split _ before after (t.1, p ++ t.2 :: q) h1]
    simp only
    rw [erase_of_split t.2 p q h2]
  refine ⟨⟨g.nodes_, before ++ (t.1, p ++ q) :: after⟩, ?_, rfl, ?_, ?_⟩
  · unfold graph.erase_edge_it
    rw [at_edge_eq_end g t, hstep]
    simp only [Bool.false_eq_true, if_false, iterator.at_edge, hupd]
  · have hflat := entry_edges_split before after t.1 p q t.2
    have htt : (t.1, t.2.1, t.2.2) = t := rfl
    rw [htt, ← hr, ← graph.edges_eq] at hflat
    have hx : t ∉ X := (not_mem_of_nodup_append X Y t (he ▸ hn)).1
    have e1 : g.edges.erase t = X ++ Y := by rw [he, erase_of_split t X Y hx]
    have e2 : g.edges.erase t = (entry_edges before ++ p.map (fun e => (t.1, e.1, e.2))) ++
        (q.map (fun e => (t.1, e.1, e.2)) ++ entry_edges after) := by
      rw [hflat, erase_of_split t _ _ h4]
    rw [← e1, e2, graph.edges_eq]
    simp [entry_edges_append, entry_edges_cons]
  · refine ⟨h.1, ?_, ?_⟩
    · have := h.2.1
      rw [hr] at this
      simpa using this
    · intro kv hkv
      have hall := h.2.2
      rw [hr] at hall
      rcases List.mem_append.1 hkv with hb | hb
      · exact hall kv (List.mem_append_left _ hb)
      · rcases List.mem_cons.1 hb with hb | hb
        · rw [hb]
          have := hall (t.1, p ++ t.2 :: q) (by simp)
          exact this.sublist
            (List.Sublist.append (List.Sublist.refl p) (List.sublist_cons_self t.2 q))
        · exact hall kv (List.mem_append_right _ (List.mem_cons_of_mem _ hb))

theorem at_pos_eq_self (x : Option (N × N × E)) :
    (iterator.at_pos x).operator_eq (iterator.at_pos x) = true := by
  simp [iterator.operator_eq]

theorem graph.erase_edge_loop_range (M X Y : List (N × N × E)) (g : graph N E) (h : g.WF)
    (fuel : Nat) (he : g.edges = X ++ M ++ Y) (hfuel : M.length < fuel) :
    ∃ g1, graph.erase_edge_loop fuel g (iterator.at_pos (M ++ Y).head?) (iterator.at_pos Y.head?)
        = some (iterator.at_pos Y.head?, g1) ∧
      g1.nodes_ = g.nodes_ ∧ g1.edges = X ++ Y ∧ (M = [] → g1 = g) := by
  induction M generalizing g fuel with
  | nil =>
    cases fuel with
    | zero => exact absurd hfuel (Nat.lt_irrefl _)
    | succ f =>
      refine ⟨g, ?_, rfl, by simpa using he, fun _ => rfl⟩
      unfold graph.erase_edge_loop
      simp [at_pos_eq_self]
  | cons t M1 ih =>
    cases fuel with
    | zero => exact absurd hfuel (Nat.not_lt_zero _)
    | succ f =>
      have he1 : g.edges = X ++ t :: (M1 ++ Y) := by rw [he]; simp
      obtain ⟨g1, hg1, hnodes, hedges, hwf⟩ := graph.erase_edge_it_at g h X (M1 ++ Y) t he1
      obtain ⟨g2, hg2, hnodes2, hedges2, -⟩ := ih g1 hwf f (by rw [hedges]; simp)
        (Nat.lt_of_succ_lt_succ hfuel)
      refine ⟨g2, ?_, hnodes2.trans hnodes, hedges2, fun hc => absurd hc (by simp)⟩
      have hne : (iterator.at_edge t).operator_eq (iterator.at_pos Y.head?) = false := by
        cases Y with
        | nil => exact at_edge_eq_end g t
        | cons y Y1 =>
          rw [List.head?_cons, at_pos_some, ← Bool.not_eq_true, at_edge_eq_iff]
          intro hty
          have hn := h.edges_nodup
          rw [he1] at hn
          exact (not_mem_of_nodup_append X (M1 ++ y :: Y1) t hn).2 (by rw [hty]; simp)
      rw [List.cons_append, List.head?_cons, at_pos_some]
      unfold graph.erase_edge_loop
      rw [hne, at_edge_eq_end g t, hg1]
      simpa using hg2

end erase_by_iterator

end gdwg

/-! ## Further scenarios of the repository's test suite -/

namespace gdwg

section scenarios2

/-- Increment and decrement test cases of `graph_test4.cpp`: `begin()` is the edge
A → B (1), three increments visit A → B (6), C → D (8) and `end()`; three decrements from
`end()` visit C → D (8), A → B (6) and `begin()`. -/
theorem scenario_increments :
    scenario_iterator.begin = iterator.at_edge (0, 1, 1) ∧
    scenario_iterator.advance 1 scenario_iterator.begin = some (iterator.at_edge (0, 1, 6)) ∧
    scenario_iterator.advance 2 scenario_iterator.begin = some (iterator.at_edge (2, 3, 8)) ∧
    scenario_iterator.advance 3 scenario_iterator.begin = some scenario_iterator.end_ ∧
    scenario_iterator.end_.decr scenario_iterator.repr_ = some (iterator.at_edge (2, 3, 8)) ∧
    (iterator.at_edge (2, 3, 8)).decr scenario_iterator.repr_
      = some (iterator.at_edge (0, 1, 6)) ∧
    (iterator.at_edge (0, 1, 6)).decr scenario_iterator.repr_ = some scenario_iterator.begin := by
  decide

/-- Test cases of `weights`, `find`, `is_connected` in `graph_test3.cpp`. -/
theorem scenario_queries :
    scenario_weights.weights 3 2 = Res.ret [] ∧
    scenario_weights.weights 0 2 = Res.ret [1, 2, 3, 4] ∧
    scenario_weights.weights 0 9 = Res.throws graph.weights_error ∧
    scenario_weights.weights 9 2 = Res.throws graph.weights_error ∧
    (scenario_weights.find 0 2 4).deref = some ⟨0, 2, 4⟩ ∧
    scenario_weights.find 0 2 5 = scenario_weights.end_ ∧
    scenario_weights.find 3 2 4 = scenario_weights.end_ ∧
    scenario_weights.find 0 1 4 = scenario_weights.end_ ∧
    scenario_weights.is_connected 0 2 = Res.ret true ∧
    scenario_weights.is_connected 2 0 = Res.ret false ∧
    scenario_weights.is_connected 0 9 = Res.throws graph.is_connected_error := by
  decide

/-- Test cases `"Test edge erasure by iterator"` and `"Test edge erasure of range of
iterators"` of `graph_test2.cpp`. -/
theorem scenario_iterator_erasure :
    scenario_erasure.erase_edge_it scenario_erasure.begin =
      some (iterator.at_edge (1, 0, 3),
        ⟨[0, 1, 2, 3], [(0, []), (1, [(0, 3), (3, 4)]), (2, [(2, 2)]), (3, [])]⟩) ∧
    scenario_erasure.erase_edge_range (iterator.at_edge (1, 0, 3)) (iterator.at_edge (2, 2, 2)) =
      some (iterator.at_edge (2, 2, 2),
        ⟨[0, 1, 2, 3], [(0, [(3, 1)]), (1, []), (2, [(2, 2)]), (3, [])]⟩) ∧
    scenario_erasure.erase_edge_range scenario_erasure.begin scenario_erasure.end_ =
      some (scenario_erasure.end_, ⟨[0, 1, 2, 3], [(0, []), (1, []), (2, []), (3, [])]⟩) ∧
    scenario_erasure.erase_edge_range scenario_erasure.begin scenario_erasure.begin =
      some (scenario_erasure.begin, scenario_erasure) := by
  decide

end scenarios2

end gdwg

/-! ## Theorems on the queries, the iterator and the erasure of edges -/

namespace gdwg

section claims2

/-- C12: on a well-formed graph `insert_node(v)` returns `true` exactly when `v` was not a
node, and afterwards `v` is a node; when it returns `true`, `connections(v)` is empty,
the nodes are the old ones together with `v` and the edges are the old ones; when it
returns `false` the graph is left as it was. -/
theorem insert_node_spec {N E : Type} [LinearOrder N] [LinearOrder E]
    (g : graph N E) (h : g.WF) (v : N) :
    (g.insert_node v).1 = !g.is_node v ∧
    (g.insert_node v).2.is_node v = true ∧
    ((g.insert_node v).1 = true →
      (g.insert_node v).2.connections v = Res.ret [] ∧
      (∀ x, x ∈ (g.insert_node v).2.nodes ↔ x = v ∨ x ∈ g.nodes) ∧
      (g.insert_node v).2.edges = g.edges) ∧
    ((g.insert_node v).1 = false → (g.insert_node v).2 = g) := by
  have hflag := insert_by_flag_eq_find (fun e => NodeCompare e v) (fun e => NodeCompare v e)
    v g.nodes_
  have hnode : (g.insert_node v).2.is_node v = true := by
    unfold graph.is_node graph.nodes_find
    rw [graph.insert_node_nodes,
      find_by_insert_by (fun e => NodeCompare e v) (fun e => NodeCompare v e) v g.nodes_
        (NodeCompare_strictTotal.irrefl v) (NodeCompare_strictTotal.irrefl v)]
    split <;> rfl
  have hret : (g.insert_node v).1 = !g.is_node v := by
    unfold graph.is_node graph.nodes_find
    rw [← hflag]
    unfold graph.insert_node
    simp only
    split
    · next hc => simp [hc]
    · next hc => simp [hc]
  refine ⟨hret, hnode, ?_, ?_⟩
  · intro ht
    rw [hret] at ht
    have hnot : g.is_node v = false := by simpa using ht
    have hins : (insert_by (fun e => NodeCompare e v) (fun e => NodeCompare v e) v g.nodes_).2
        = true := by
      rw [hflag]
      unfold graph.is_node graph.nodes_find at hnot
      rw [hnot]
      rfl
    have hres : g.insert_node v = (true,
        ⟨(insert_by (fun e => NodeCompare e v) (fun e => NodeCompare v e) v g.nodes_).1,
         (insert_by (fun kv => MapCompare kv.1 v) (fun kv => MapCompare v kv.1)
           (v, ([] : List (N × E))) g.repr_).1⟩) := by
      unfold graph.insert_node
      simp only [hins, if_true]
    have hfind : g.repr_find v = none := by
      have := graph.is_node_eq_repr_find g h v
      rw [hnot] at this
      cases hf : g.repr_find v with
      | none => rfl
      | some n => rw [hf] at this; exact absurd this (by simp)
    refine ⟨?_, ?_, ?_⟩
    · unfold graph.connections graph.repr_find
      rw [hres]
      simp only
      rw [find_by_insert_by (fun kv => MapCompare kv.1 v) (fun kv => MapCompare v kv.1)
        (v, ([] : List (N × E))) g.repr_ (MapCompare_irrefl v) (MapCompare_irrefl v)]
      unfold graph.repr_find at hfind
      rw [hfind]
      rfl
    · intro x
      exact graph.mem_insert_node g v x
    · unfold graph.edges
      rw [hres]
      simp only
      exact flatMap_insert_by_nil _ _ v _ rfl g.repr_
  · intro hf
    have hins : (insert_by (fun e => NodeCompare e v) (fun e => NodeCompare v e) v g.nodes_).2
        = false := by
      rw [hret] at hf
      rw [hflag]
      unfold graph.is_node graph.nodes_find at hf
      exact hf
    have hsame := insert_by_unchanged (fun e => NodeCompare e v) (fun e => NodeCompare v e)
      v g.nodes_ hins
    unfold graph.insert_node
    simp only [hins, hsame]
    rfl

/-- Instance of `insert_node_spec` on the graph with nodes 1, 2, 3: the new node 5 and the
present node 2. -/
theorem insert_node_spec_witness :
    example_fan.WF ∧
    (example_fan.insert_node 5).2.connections 5 = Res.ret [] ∧
    (example_fan.insert_node 5).2.edges = example_fan.edges ∧
    (example_fan.insert_node 2).2 = example_fan :=
  ⟨by decide,
   ((insert_node_spec example_fan (by decide) 5).2.2.1 (by decide)).1,
   ((insert_node_spec example_fan (by decide) 5).2.2.1 (by decide)).2.2,
   (insert_node_spec example_fan (by decide) 2).2.2.2 (by decide)⟩

/-- C13: for every list `vs` given to the range constructor and every list `ws` of
values then passed to successive `insert_node` calls (either list may be empty),
`nodes()` is strictly ascending and holds exactly the values of `vs` and `ws`; it is the
sorted list of the distinct values. -/
theorem nodes_of_inserted {N E : Type} [LinearOrder N] (vs ws : List N) :
    (ws.foldl (fun g v => (g.insert_node v).2) (graph.of_range vs : graph N E)).nodes.Pairwise
      (fun a b => a < b) ∧
    (∀ x, x ∈ (ws.foldl (fun g v => (g.insert_node v).2) (graph.of_range vs : graph N E)).nodes
      ↔ x ∈ vs ∨ x ∈ ws) ∧
    (ws.foldl (fun g v => (g.insert_node v).2) (graph.of_range vs : graph N E)).nodes
      = (vs ++ ws).toFinset.sort (fun a b => a ≤ b) := by
  have h0 := graph.foldl_insert_node vs (graph.default : graph N E) List.Pairwise.nil
  have h1 := graph.foldl_insert_node ws (graph.of_range vs : graph N E) h0.1
  have hmem : ∀ x, x ∈ (ws.foldl (fun g v => (g.insert_node v).2)
      (graph.of_range vs : graph N E)).nodes ↔ x ∈ vs ∨ x ∈ ws := by
    intro x
    unfold graph.nodes
    rw [h1.2]
    unfold graph.of_range
    rw [h0.2]
    simp [graph.default]
  refine ⟨h1.1, hmem, ?_⟩
  apply List.eq_of_perm_of_sorted (r := fun a b => a < b)
  · rw [List.perm_ext_iff_of_nodup]
    · intro x
      rw [hmem, Finset.mem_sort, List.mem_toFinset, List.mem_append]
    · exact h1.1.imp ne_of_lt
    · exact Finset.sort_nodup _ _
  · exact h1.1
  · exact Finset.sort_sorted_lt _

/-- C14: on a well-formed graph and for nodes `src`, `dst`, `weights(src, dst)` returns a
strictly ascending list that holds exactly the weights `w` with `(src, dst, w)` an
edge; after inserting `(src, dst, w1)` and `(src, dst, w2)` with `w1 ≠ w2` the smaller
of the two is listed before the larger. -/
theorem weights_spec {N E : Type} [LinearOrder N] [LinearOrder E]
    (g : graph N E) (h : g.WF) (src dst : N)
    (hsrc : g.is_node src = true) (hdst : g.is_node dst = true) :
    (∃ ws, g.weights src dst = Res.ret ws ∧ ws.Pairwise (fun a b => a < b) ∧
      ∀ w, w ∈ ws ↔ (src, dst, w) ∈ g.edges) ∧
    (∀ w1 w2, w1 ≠ w2 →
      ∃ ws, ((g.insert_edge src dst w1).2.insert_edge src dst w2).2.weights src dst = Res.ret ws ∧
        [min w1 w2, max w1 w2].Sublist ws) := by
  refine ⟨graph.weights_found g h src dst hsrc hdst, ?_⟩
  intro w1 w2 hne
  have h1 := graph.insert_edge_WF g h src dst w1
  have hs1 : (g.insert_edge src dst w1).2.is_node src = true := by
    unfold graph.is_node graph.nodes_find
    rw [graph.insert_edge_nodes]
    exact hsrc
  have hd1 : (g.insert_edge src dst w1).2.is_node dst = true := by
    unfold graph.is_node graph.nodes_find
    rw [graph.insert_edge_nodes]
    exact hdst
  have h2 := graph.insert_edge_WF _ h1 src dst w2
  have hs2 : ((g.insert_edge src dst w1).2.insert_edge src dst w2).2.is_node src = true := by
    unfold graph.is_node graph.nodes_find
    rw [graph.insert_edge_nodes]
    exact hs1
  have hd2 : ((g.insert_edge src dst w1).2.insert_edge src dst w2).2.is_node dst = true := by
    unfold graph.is_node graph.nodes_find
    rw [graph.insert_edge_nodes]
    exact hd1
  obtain ⟨ws, hws, hsorted, hmem⟩ := graph.weights_found _ h2 src dst hs2 hd2
  have hm1 : w1 ∈ ws := by
    rw [hmem, graph.insert_edge_edges _ h1 src dst w2 hs1 hd1,
      graph.insert_edge_edges g h src dst w1 hsrc hdst]
    exact Or.inl (Or.inr rfl)
  have hm2 : w2 ∈ ws := by
    rw [hmem, graph.insert_edge_edges _ h1 src dst w2 hs1 hd1]
    exact Or.inr rfl
  refine ⟨ws, hws, ?_⟩
  rcases lt_or_gt_of_ne hne with hlt | hlt
  · rw [min_eq_left (le_of_lt hlt), max_eq_right (le_of_lt hlt)]
    exact pair_sublist_of_sorted ws hsorted w1 w2 hm1 hm2 hlt
  · rw [min_eq_right (le_of_lt hlt), max_eq_left (le_of_lt hlt)]
    exact pair_sublist_of_sorted ws hsorted w2 w1 hm2 hm1 hlt

/-- Instance of `weights_spec` on the graph with nodes 1, 2, 3 and edges 1 → 2 (weight 7),
1 → 3 (weight 8), for the pair 1, 2 and the new weights 9 and 4. -/
theorem weights_spec_witness :
    example_fan.WF ∧
    (∃ ws, example_fan.weights 1 2 = Res.ret ws ∧ ws.Pairwise (fun a b => a < b) ∧
      ∀ w, w ∈ ws ↔ (1, 2, w) ∈ example_fan.edges) ∧
    (∃ ws, ((example_fan.insert_edge 1 2 9).2.insert_edge 1 2 4).2.weights 1 2 = Res.ret ws ∧
      [min 9 4, max 9 4].Sublist ws) :=
  ⟨by decide, (weights_spec example_fan (by decide) 1 2 (by decide) (by decide)).1,
   (weights_spec example_fan (by decide) 1 2 (by decide) (by decide)).2 9 4 (by decide)⟩

/-- C15: on a well-formed graph the forward traversal from `begin()` reaches `end()`
after as many increments as there are edges, the triples dereferenced on the way are
the edges of the graph in storage order, that order is strictly ascending for the
lexicographic order of (source, destination, weight), so no edge occurs twice, and
`begin() == end()` exactly when the graph has no edge. -/
theorem forward_traversal {N E : Type} [LinearOrder N] [LinearOrder E]
    (g : graph N E) (h : g.WF) :
    g.traversal = some (g.edges.map graph.to_value) ∧
    g.edges.Pairwise edge_lt ∧
    g.edges.Nodup ∧
    g.advance g.edges.length g.begin = some g.end_ ∧
    (g.begin.operator_eq g.end_ = true ↔ g.edges = []) := by
  refine ⟨?_, h.edges_sorted, h.edges_nodup, ?_, ?_⟩
  · unfold graph.traversal
    rw [graph.begin_eq]
    exact graph.traverse_from_suffix g h g.edges [] _ rfl (Nat.lt_succ_self _)
  · have := graph.advance_suffix g h g.edges [] [] (by simp)
    rw [List.append_nil] at this
    rw [graph.begin_eq]
    exact this
  · rw [graph.begin_eq]
    cases g.edges with
    | nil => simp [iterator.at_pos, iterator.operator_eq, graph.end_]
    | cons t ts =>
      rw [List.head?_cons, at_pos_some, at_edge_eq_end]
      simp

/-- Instance of `forward_traversal` on the graph with nodes 1, 2, 3 and edges 1 → 2
(weight 7), 1 → 3 (weight 8). -/
theorem forward_traversal_witness :
    example_fan.WF ∧
    example_fan.traversal = some (example_fan.edges.map graph.to_value) ∧
    example_fan.edges.Pairwise edge_lt ∧
    example_fan.edges.Nodup ∧
    example_fan.advance example_fan.edges.length example_fan.begin = some example_fan.end_ ∧
    (example_fan.begin.operator_eq example_fan.end_ = true ↔ example_fan.edges = []) :=
  ⟨by decide, forward_traversal example_fan (by decide)⟩

/-- C16: on a well-formed graph with at least one edge the backward traversal from
`end()` reaches `begin()` and the triples dereferenced on the way are the edges in
reverse storage order, which is the reverse of the forward traversal. -/
theorem backward_traversal {N E : Type} [LinearOrder N] [LinearOrder E]
    (g : graph N E) (h : g.WF) (hne : g.edges ≠ []) :
    g.reverse_traversal = some (g.edges.reverse.map graph.to_value) ∧
    ∃ l, g.traversal = some l ∧ g.reverse_traversal = some l.reverse := by
  have hback : g.reverse_traversal = some (g.edges.reverse.map graph.to_value) := by
    unfold graph.reverse_traversal
    exact graph.traverse_back_prefix g h g.edges [] _ (by simp) hne (Nat.le_refl _)
  refine ⟨hback, g.edges.map graph.to_value, ?_, ?_⟩
  · unfold graph.traversal
    rw [graph.begin_eq]
    exact graph.traverse_from_suffix g h g.edges [] _ rfl (Nat.lt_succ_self _)
  · rw [hback, List.map_reverse]

/-- Instance of `backward_traversal` on the graph of the decrement test case, whose node 1
has an empty edge set. -/
theorem backward_traversal_witness :
    scenario_iterator.WF ∧ scenario_iterator.edges ≠ [] ∧
    scenario_iterator.reverse_traversal
      = some (scenario_iterator.edges.reverse.map graph.to_value) ∧
    ∃ l, scenario_iterator.traversal = some l ∧
      scenario_iterator.reverse_traversal = some l.reverse :=
  ⟨by decide, by decide, backward_traversal scenario_iterator (by decide) (by decide)⟩

/-- C17: on a well-formed graph `erase_edge(it)` returns `it` and leaves the graph as it
was when `it == end()`; when `it` designates the edge `t`, with the edges `X` before it
and `Y` after it, the call leaves the nodes as they were and the edges `X ++ Y`, and
returns the iterator of the first edge of `Y`, or `end()` if `Y` is empty; in the new
graph that iterator is the position reached from `begin()` after as many increments as
`X` has edges. -/
theorem erase_edge_it_spec {N E : Type} [LinearOrder N] [LinearOrder E]
    (g : graph N E) (h : g.WF) :
    (∀ it : iterator N E, it.operator_eq g.end_ = true → g.erase_edge_it it = some (it, g)) ∧
    (∀ X t Y, g.edges = X ++ t :: Y →
      ∃ g1, g.erase_edge_it (iterator.at_edge t) = some (iterator.at_pos Y.head?, g1) ∧
        g1.nodes = g.nodes ∧ g1.edges = X ++ Y ∧
        g1.advance X.length g1.begin = some (iterator.at_pos Y.head?)) := by
  constructor
  · intro it hit
    unfold graph.erase_edge_it
    rw [if_pos hit]
  · intro X t Y he
    obtain ⟨g1, hg1, hnodes, hedges, hwf⟩ := graph.erase_edge_it_at g h X Y t he
    refine ⟨g1, hg1, hnodes, hedges, ?_⟩
    have := graph.advance_suffix g1 hwf X [] Y (by rw [hedges]; simp)
    rw [← hedges] at this
    rw [graph.begin_eq]
    exact this

/-- Instance of `erase_edge_it_spec` on the graph of the iterator erasure test case:
erasing the first edge 0 → 3 (weight 1) returns the iterator of 1 → 0 (weight 3). -/
theorem erase_edge_it_spec_witness :
    scenario_erasure.WF ∧
    scenario_erasure.erase_edge_it scenario_erasure.end_
      = some (scenario_erasure.end_, scenario_erasure) ∧
    ∃ g1, scenario_erasure.erase_edge_it (iterator.at_edge (0, 3, 1))
        = some (iterator.at_pos [(1, 0, 3), (1, 3, 4), (2, 2, 2)].head?, g1) ∧
      g1.nodes = scenario_erasure.nodes ∧
      g1.edges = [] ++ [(1, 0, 3), (1, 3, 4), (2, 2, 2)] ∧
      g1.advance ([] : List (Nat × Nat × Nat)).length g1.begin
        = some (iterator.at_pos [(1, 0, 3), (1, 3, 4), (2, 2, 2)].head?) :=
  ⟨by decide, (erase_edge_it_spec scenario_erasure (by decide)).1 _ (by decide),
   (erase_edge_it_spec scenario_erasure (by decide)).2 [] (0, 3, 1)
     [(1, 0, 3), (1, 3, 4), (2, 2, 2)] (by decide)⟩

/-- C18: on a well-formed graph whose edges are `X ++ M ++ Y`, `erase_edge(first, last)`
with `first` at the first edge of `M ++ Y` and `last` at the first edge of `Y` (`end()` for
an empty list) leaves the nodes as they were and the edges `X ++ Y`, returns `last`, and
leaves the graph as it was when `M` is empty; `erase_edge(begin(), end())` leaves the
nodes as they were and no edge. -/
theorem erase_edge_range_spec {N E : Type} [LinearOrder N] [LinearOrder E]
    (g : graph N E) (h : g.WF) :
    (∀ X M Y, g.edges = X ++ M ++ Y →
      ∃ g1, g.erase_edge_range (iterator.at_pos (M ++ Y).head?) (iterator.at_pos Y.head?)
          = some (iterator.at_pos Y.head?, g1) ∧
        g1.nodes = g.nodes ∧ g1.edges = X ++ Y ∧ (M = [] → g1 = g)) ∧
    (∃ g1, g.erase_edge_range g.begin g.end_ = some (g.end_, g1) ∧
      g1.nodes = g.nodes ∧ g1.edges = []) := by
  have hmain : ∀ X M Y, g.edges = X ++ M ++ Y →
      ∃ g1, g.erase_edge_range (iterator.at_pos (M ++ Y).head?) (iterator.at_pos Y.head?)
          = some (iterator.at_pos Y.head?, g1) ∧
        g1.nodes = g.nodes ∧ g1.edges = X ++ Y ∧ (M = [] → g1 = g) := by
    intro X M Y he
    unfold graph.erase_edge_range
    refine graph.erase_edge_loop_range M X Y g h _ he ?_
    rw [he]
    simp only [List.length_append]
    omega
  refine ⟨hmain, ?_⟩
  obtain ⟨g1, hg1, hnodes, hedges, -⟩ := hmain [] g.edges [] (by simp)
  rw [List.append_nil, ← graph.begin_eq] at hg1
  exact ⟨g1, hg1, hnodes, by simpa using hedges⟩

/-- Instance of `erase_edge_range_spec` on the graph of the range erasure test case: the
range from the second edge up to the last edge. -/
theorem erase_edge_range_spec_witness :
    scenario_erasure.WF ∧
    (∃ g1, scenario_erasure.erase_edge_range
          (iterator.at_pos ([(1, 0, 3), (1, 3, 4)] ++ [(2, 2, 2)]).head?)
          (iterator.at_pos [(2, 2, 2)].head?)
          = some (iterator.at_pos [(2, 2, 2)].head?, g1) ∧
        g1.nodes = scenario_erasure.nodes ∧ g1.edges = [(0, 3, 1)] ++ [(2, 2, 2)] ∧
        ([(1, 0, 3), (1, 3, 4)] = ([] : List (Nat × Nat × Nat)) → g1 = scenario_erasure)) ∧
    (∃ g1, scenario_erasure.erase_edge_range scenario_erasure.begin scenario_erasure.end_
          = some (scenario_erasure.end_, g1) ∧
        g1.nodes = scenario_erasure.nodes ∧ g1.edges = []) :=
  ⟨by decide,
   (erase_edge_range_spec scenario_erasure (by decide)).1 [(0, 3, 1)] [(1, 0, 3), (1, 3, 4)]
     [(2, 2, 2)] (by decide),
   (erase_edge_range_spec scenario_erasure (by decide)).2⟩

/-- C19: on a well-formed graph and for nodes `src`, `dst`, `erase_edge(src, dst, w)`
returns `true` exactly when `(src, dst, w)` was an edge; afterwards the edges are the old
ones except `(src, dst, w)` and the nodes are the old ones; when `(src, dst, w)` was not
an edge the graph is left as it was. -/
theorem erase_edge_spec {N E : Type} [LinearOrder N] [LinearOrder E]
    (g : graph N E) (h : g.WF) (src dst : N) (weight : E)
    (hsrc : g.is_node src = true) (hdst : g.is_node dst = true) :
    (g.erase_edge src dst weight).1 = Res.ret (decide ((src, dst, weight) ∈ g.edges)) ∧
    (∀ t, t ∈ (g.erase_edge src dst weight).2.edges ↔ t ∈ g.edges ∧ t ≠ (src, dst, weight)) ∧
    (g.erase_edge src dst weight).2.nodes = g.nodes ∧
    ((src, dst, weight) ∉ g.edges → (g.erase_edge src dst weight).2 = g) := by
  obtain ⟨o, hf⟩ := graph.repr_find_of_is_node g h src hsrc
  obtain ⟨n, hn⟩ := graph.repr_find_of_is_node g h dst hdst
  have ho := find_by_key_some src g.repr_ o hf
  have hsorted := h.2.2 o ho.2
  have hres := graph.erase_edge_found g src dst weight o n hf hn
  have hmem : (src, dst, weight) ∈ g.edges ↔ (dst, weight) ∈ o.2 := by
    rw [graph.mem_edges g h.keys_sorted, hf]
    simp
  have hfound : (find_by (fun e => EdgeCompare e (dst, weight))
      (fun e => EdgeCompare (dst, weight) e) o.2).isSome = true ↔ (dst, weight) ∈ o.2 :=
    find_by_isSome_iff_mem EdgeCompare EdgeCompare_strictTotal (dst, weight) o.2 hsorted
  have hkeys : ((g.erase_edge src dst weight).2.repr_.map Prod.fst).Pairwise
      (fun a b => a < b) := by
    rw [hres]
    simp only
    rw [map_fst_modify_const]
    exact h.keys_sorted
  have hfind : ∀ s, (g.erase_edge src dst weight).2.repr_find s
      = if s = src then some (o.1, (erase_by (fun e => EdgeCompare e (dst, weight))
          (fun e => EdgeCompare (dst, weight) e) o.2).1)
        else g.repr_find s := by
    intro s
    rw [hres]
    unfold graph.repr_find
    simp only
    rw [find_by_modify_const]
    by_cases hs : s = src
    · simp only [hs, if_true]
      have : find_by (fun kv => MapCompare kv.1 src) (fun kv => MapCompare src kv.1) g.repr_
          = some o := hf
      rw [this]
      rfl
    · simp only [hs, if_false]
  refine ⟨?_, ?_, by rw [hres]; rfl, ?_⟩
  · rw [hres]
    simp only [Res.ret.injEq]
    rw [Bool.eq_iff_iff, decide_eq_true_iff, decide_eq_true_iff, hmem, ← hfound,
      erase_by_flag_eq_find]
    split <;> simp_all
  · rintro ⟨s, d, w⟩
    rw [graph.mem_edges _ hkeys, hfind, graph.mem_edges g h.keys_sorted]
    by_cases hs : s = src
    · subst hs
      simp only [if_true, Option.some.injEq, exists_eq_left', hf, Prod.mk.injEq, true_and]
      rw [mem_erase_by EdgeCompare EdgeCompare_strictTotal _ _ _ hsorted]
      simp only [ne_eq, Prod.mk.injEq, true_and]
    · simp only [hs, if_false, ne_eq, Prod.mk.injEq, false_and, not_false_eq_true, and_true]
  · intro hnot
    rw [hmem, ← hfound] at hnot
    have hnone : find_by (fun e => EdgeCompare e (dst, weight))
        (fun e => EdgeCompare (dst, weight) e) o.2 = none := by
      cases hc : find_by (fun e => EdgeCompare e (dst, weight))
        (fun e => EdgeCompare (dst, weight) e) o.2 with
      | none => rfl
      | some x => rw [hc] at hnot; exact absurd rfl hnot
    rw [hres]
    simp only
    rw [erase_by_unchanged _ _ _ hnone, modify_by_self src o g.repr_ hf]

/-- Instance of `erase_edge_spec` on the graph with nodes 1, 2, 3 and edges 1 → 2
(weight 7), 1 → 3 (weight 8), for the edge 1 → 2 of weight 7. -/
theorem erase_edge_spec_witness :
    example_fan.WF ∧ example_fan.is_node 1 = true ∧ example_fan.is_node 2 = true ∧
    (example_fan.erase_edge 1 2 7).1 = Res.ret (decide ((1, 2, 7) ∈ example_fan.edges)) ∧
    (∀ t, t ∈ (example_fan.erase_edge 1 2 7).2.edges ↔ t ∈ example_fan.edges ∧ t ≠ (1, 2, 7)) ∧
    (example_fan.erase_edge 1 2 7).2.nodes = example_fan.nodes ∧
    ((1, 2, 7) ∉ example_fan.edges → (example_fan.erase_edge 1 2 7).2 = example_fan) :=
  ⟨by decide, by decide, by decide,
   erase_edge_spec example_fan (by decide) 1 2 7 (by decide) (by decide)⟩

/-- C20: on a well-formed graph `find(src, dst, w)` differs from `end()` exactly when
`(src, dst, w)` is an edge; in that case dereferencing it gives `(src, dst, w)` and it is
the iterator reached from `begin()` after `n` increments, where `n` is the place of the
edge in the traversal order. -/
theorem find_spec {N E : Type} [LinearOrder N] [LinearOrder E]
    (g : graph N E) (h : g.WF) (src dst : N) (weight : E) :
    ((g.find src dst weight).operator_eq g.end_ = false ↔ (src, dst, weight) ∈ g.edges) ∧
    ((src, dst, weight) ∈ g.edges →
      (g.find src dst weight).deref = some ⟨src, dst, weight⟩ ∧
      ∃ n, g.edges[n]? = some (src, dst, weight) ∧
        g.advance n g.begin = some (g.find src dst weight)) := by
  rw [graph.find_eq g h]
  constructor
  · by_cases hm : (src, dst, weight) ∈ g.edges
    · simp [hm, at_edge_eq_end]
    · simp [hm, iterator.operator_eq, graph.end_]
  · intro hm
    rw [if_pos hm]
    refine ⟨rfl, ?_⟩
    obtain ⟨X, Y, he⟩ := List.append_of_mem hm
    refine ⟨X.length, ?_, ?_⟩
    · rw [he, List.getElem?_append_right (Nat.le_refl _)]
      simp
    · have := graph.advance_suffix g h X [] ((src, dst, weight) :: Y) (by rw [he]; simp)
      rw [List.head?_cons, at_pos_some, ← he] at this
      rw [graph.begin_eq]
      exact this

/-- Instance of `find_spec` on the graph with nodes 1, 2, 3 and edges 1 → 2 (weight 7),
1 → 3 (weight 8), for the edge 1 → 3 of weight 8. -/
theorem find_spec_witness :
    example_fan.WF ∧
    (example_fan.find 1 3 8).deref = some ⟨1, 3, 8⟩ ∧
    ∃ n, example_fan.edges[n]? = some (1, 3, 8) ∧
      example_fan.advance n example_fan.begin = some (example_fan.find 1 3 8) :=
  ⟨by decide, (find_spec example_fan (by decide) 1 3 8).2 (by decide)⟩

end claims2

end gdwg

namespace gdwg

section connections

variable {N E : Type} [LinearOrder N] [LinearOrder E]

theorem mem_std_unique {α : Type} [DecidableEq α] (x : α) (l : List α) :
    x ∈ graph.std_unique l ↔ x ∈ l := by
  induction l with
  | nil => simp [graph.std_unique]
  | cons a as ih =>
    cases as with
    | nil => simp [graph.std_unique]
    | cons b rest =>
      by_cases hab : a = b
      · simp only [graph.std_unique, hab, if_true]
        rw [ih]
        simp
      · simp only [graph.std_unique, hab, if_false, List.mem_cons]
        rw [ih]
        simp

theorem std_unique_sorted {α : Type} [LinearOrder α] (l : List α)
    (h : l.Pairwise (fun a b => a ≤ b)) : (graph.std_unique l).Pairwise (fun a b => a < b) := by
  induction l with
  | nil => simp [graph.std_unique]
  | cons a as ih =>
    cases as with
    | nil => simp [graph.std_unique]
    | cons b rest =>
      rw [List.pairwise_cons] at h
      by_cases hab : a = b
      · simp only [graph.std_unique, hab, if_true]
        exact ih h.2
      · simp only [graph.std_unique, hab, if_false]
        rw [List.pairwise_cons]
        refine ⟨?_, ih h.2⟩
        intro x hx
        rw [mem_std_unique] at hx
        have hb : b ≤ x := by
          rcases List.mem_cons.1 hx with hx1 | hx1
          · exact le_of_eq hx1.symm
          · exact (List.pairwise_cons.1 h.2).1 x hx1
        have hab1 : a < b := lt_of_le_of_ne (h.1 b (List.mem_cons_self _ _)) hab
        exact lt_of_lt_of_le hab1 hb

theorem find_by_dst_isSome (dst : N) (l : List (N × E))
    (hs : l.Pairwise (fun a b => EdgeCompare a b = true)) :
    (find_by (fun e => EdgeCompare_pair_key e dst) (fun e => EdgeCompare_key_pair dst e)
      l).isSome = true ↔ ∃ e ∈ l, e.1 = dst := by
  induction l with
  | nil => simp [find_by]
  | cons a as ih =>
    rw [List.pairwise_cons] at hs
    rcases Bool.eq_false_or_eq_true (EdgeCompare_pair_key a dst) with hb | hb
    · rw [find_by_below (fun e => EdgeCompare_pair_key e dst)
        (fun e => EdgeCompare_key_pair dst e) a as hb, ih hs.2]
      have hlt : a.1 < dst := by simpa [EdgeCompare_pair_key] using hb
      constructor
      · rintro ⟨e, he, hd⟩
        exact ⟨e, List.mem_cons_of_mem _ he, hd⟩
      · rintro ⟨e, he, hd⟩
        rcases List.mem_cons.1 he with h1 | h1
        · rw [h1] at hd
          exact absurd hd (ne_of_lt hlt)
        · exact ⟨e, h1, hd⟩
    · have hge : ¬ a.1 < dst := by simpa [EdgeCompare_pair_key] using hb
      rcases Bool.eq_false_or_eq_true (EdgeCompare_key_pair dst a) with ha | ha
      · rw [find_by_above (fun e => EdgeCompare_pair_key e dst)
          (fun e => EdgeCompare_key_pair dst e) a as hb ha]
        have hlt : dst < a.1 := by simpa [EdgeCompare_key_pair] using ha
        constructor
        · intro h
          exact absurd h (by simp)
        · rintro ⟨e, he, hd⟩
          rcases List.mem_cons.1 he with h1 | h1
          · rw [h1] at hd
            exact absurd hd (ne_of_gt hlt)
          · have := EdgeCompare_le_fst a e (hs.1 e h1)
            rw [hd] at this
            exact absurd hlt (not_lt.2 this)
      · rw [find_by_equiv (fun e => EdgeCompare_pair_key e dst)
          (fun e => EdgeCompare_key_pair dst e) a as hb ha]
        have hle : ¬ dst < a.1 := by simpa [EdgeCompare_key_pair] using ha
        constructor
        · intro _
          exact ⟨a, List.mem_cons_self _ _, le_antisymm (not_lt.1 hle) (not_lt.1 hge)⟩
        · intro _
          rfl

theorem graph.connections_found (g : graph N E) (h : g.WF) (src : N)
    (hsrc : g.is_node src = true) :
    ∃ ds, g.connections src = Res.ret ds ∧ ds.Pairwise (fun a b => a < b) ∧
      ∀ d, d ∈ ds ↔ ∃ w, (src, d, w) ∈ g.edges := by
  obtain ⟨o, hf⟩ := graph.repr_find_of_is_node g h src hsrc
  have ho := find_by_key_some src g.repr_ o hf
  have hsorted := h.2.2 o ho.2
  refine ⟨graph.std_unique (o.2.map Prod.fst), ?_, ?_, ?_⟩
  · unfold graph.connections
    rw [hf]
  · apply std_unique_sorted
    rw [List.pairwise_map]
    exact hsorted.imp (fun {a b} hab => EdgeCompare_le_fst a b hab)
  · intro d
    rw [mem_std_unique]
    simp only [graph.mem_edges g h.keys_sorted, hf, Option.some.injEq, exists_eq_left',
      List.mem_map]
    constructor
    · rintro ⟨a, ha, ha1⟩
      exact ⟨a.2, by rw [← ha1]; exact ha⟩
    · rintro ⟨w, hw⟩
      exact ⟨(d, w), hw, rfl⟩

theorem graph.is_connected_found (g : graph N E) (h : g.WF) (src dst : N)
    (hsrc : g.is_node src = true) (hdst : g.is_node dst = true) :
    ∃ b, g.is_connected src dst = Res.ret b ∧ (b = true ↔ ∃ w, (src, dst, w) ∈ g.edges) := by
  obtain ⟨o, hf⟩ := graph.repr_find_of_is_node g h src hsrc
  obtain ⟨n, hn⟩ := graph.repr_find_of_is_node g h dst hdst
  have ho := find_by_key_some src g.repr_ o hf
  have hd : n.1 = dst := (find_by_key_some dst g.repr_ n hn).1
  have hsorted := h.2.2 o ho.2
  refine ⟨(find_by (fun e => EdgeCompare_pair_key e dst)
      (fun e => EdgeCompare_key_pair dst e) o.2).isSome, ?_, ?_⟩
  · unfold graph.is_connected
    rw [hf, hn]
    simp only [hd]
  · rw [find_by_dst_isSome dst o.2 hsorted]
    simp only [graph.mem_edges g h.keys_sorted, hf, Option.some.injEq, exists_eq_left']
    constructor
    · rintro ⟨a, ha, ha1⟩
      exact ⟨a.2, by rw [← ha1]; exact ha⟩
    · rintro ⟨w, hw⟩
      exact ⟨(dst, w), hw, rfl⟩

end connections

/-! ## Claims on `connections` and `is_connected` -/

section connection_claims

variable {N E : Type} [LinearOrder N] [LinearOrder E]

/-- C21: on a well-formed graph `connections(src)` of a node `src` returns a strictly
ascending list (so without repetitions) whose members are exactly the destinations `d`
of the edges `(src, d, w)`, however many weights lead to `d`; it is empty when no edge
leaves `src`. -/
theorem connections_spec (g : graph N E) (h : g.WF) (src : N) (hsrc : g.is_node src = true) :
    ∃ ds, g.connections src = Res.ret ds ∧ ds.Pairwise (fun a b => a < b) ∧ ds.Nodup ∧
      (∀ d, d ∈ ds ↔ ∃ w, (src, d, w) ∈ g.edges) ∧
      ((∀ d w, (src, d, w) ∉ g.edges) → ds = []) := by
  obtain ⟨ds, h1, h2, h3⟩ := graph.connections_found g h src hsrc
  refine ⟨ds, h1, h2, h2.imp (fun {a b} hab => ne_of_lt hab), h3, ?_⟩
  intro hnone
  apply List.eq_nil_iff_forall_not_mem.2
  intro d hd
  obtain ⟨w, hw⟩ := (h3 d).1 hd
  exact hnone d w hw

/-- Witness of C21 on the graph with the parallel edges 1 → 2 of weights 0 and 1: the
destination 2 is listed once, and node 2 has no connection. -/
theorem connections_spec_witness :
    example_parallel.connections 1 = Res.ret [2] ∧ example_parallel.connections 2 = Res.ret [] ∧
    ∃ ds, example_parallel.connections 1 = Res.ret ds ∧ ds.Pairwise (fun a b => a < b) ∧
      ds.Nodup ∧ (∀ d, d ∈ ds ↔ ∃ w, (1, d, w) ∈ example_parallel.edges) ∧
      ((∀ d w, (1, d, w) ∉ example_parallel.edges) → ds = []) :=
  ⟨by decide, by decide, connections_spec example_parallel (by decide) 1 (by decide)⟩

/-- C22: on a well-formed graph with nodes `src` and `dst`, `is_connected(src, dst)`
returns true exactly when some edge `(src, dst, w)` exists, exactly when
`weights(src, dst)` is not empty, and exactly when `dst` occurs in `connections(src)`. -/
theorem is_connected_spec (g : graph N E) (h : g.WF) (src dst : N)
    (hsrc : g.is_node src = true) (hdst : g.is_node dst = true) :
    ∃ b ws ds, g.is_connected src dst = Res.ret b ∧ g.weights src dst = Res.ret ws ∧
      g.connections src = Res.ret ds ∧
      (b = true ↔ ∃ w, (src, dst, w) ∈ g.edges) ∧ (b = true ↔ ws ≠ []) ∧
      (b = true ↔ dst ∈ ds) := by
  obtain ⟨b, hb, hb1⟩ := graph.is_connected_found g h src dst hsrc hdst
  obtain ⟨ws, hws, -, hws1⟩ := graph.weights_found g h src dst hsrc hdst
  obtain ⟨ds, hds, -, hds1⟩ := graph.connections_found g h src hsrc
  refine ⟨b, ws, ds, hb, hws, hds, hb1, ?_, ?_⟩
  · rw [hb1]
    constructor
    · rintro ⟨w, hw⟩ hnil
      have := (hws1 w).2 hw
      rw [hnil] at this
      exact absurd this (List.not_mem_nil _)
    · intro hne
      obtain ⟨w, hw⟩ := List.exists_mem_of_ne_nil ws hne
      exact ⟨w, (hws1 w).1 hw⟩
  · rw [hb1, hds1]

/-- Witness of C22 on the graph with the edges 1 → 2 and 1 → 3: node 1 is connected to
node 2, and node 2 is not connected to node 1. -/
theorem is_connected_spec_witness :
    example_fan.is_connected 1 2 = Res.ret true ∧ example_fan.is_connected 2 1 = Res.ret false ∧
    ∃ b ws ds, example_fan.is_connected 1 2 = Res.ret b ∧ example_fan.weights 1 2 = Res.ret ws ∧
      example_fan.connections 1 = Res.ret ds ∧
      (b = true ↔ ∃ w, (1, 2, w) ∈ example_fan.edges) ∧ (b = true ↔ ws ≠ []) ∧
      (b = true ↔ 2 ∈ ds) :=
  ⟨by decide, by decide,
    is_connected_spec example_fan (by decide) 1 2 (by decide) (by decide)⟩

end connection_claims

end gdwg

namespace gdwg

section edge_operations

variable {N E : Type} [LinearOrder N] [LinearOrder E]

theorem graph.erase_edge_nodes (g : graph N E) (src dst : N) (weight : E) :
    (g.erase_edge src dst weight).2.nodes_ = g.nodes_ := by
  unfold graph.erase_edge
  cases g.repr_find src with
  | none => rfl
  | some o =>
    cases g.repr_find dst with
    | none => rfl
    | some n => rfl

theorem graph.erase_edge_it_nodes (g : graph N E) (i : iterator N E)
    (r : iterator N E × graph N E) (h : g.erase_edge_it i = some r) : r.2.nodes_ = g.nodes_ := by
  unfold graph.erase_edge_it at h
  split at h
  · cases h
    rfl
  · split at h
    · exact absurd h (by simp)
    · split at h
      · cases h
        rfl
      · exact absurd h (by simp)

theorem graph.erase_edge_loop_nodes (fuel : Nat) (g : graph N E) (i s : iterator N E)
    (r : iterator N E × graph N E) (h : graph.erase_edge_loop fuel g i s = some r) :
    r.2.nodes_ = g.nodes_ := by
  induction fuel generalizing g i with
  | zero => simp [graph.erase_edge_loop] at h
  | succ fuel ih =>
    unfold graph.erase_edge_loop at h
    split at h
    · cases h1 : g.erase_edge_it i with
      | none =>
        rw [h1] at h
        exact absurd h (by simp)
      | some r1 =>
        rw [h1] at h
        rw [ih r1.2 r1.1 h]
        exact graph.erase_edge_it_nodes g i r1 h1
    · cases h
      rfl

end edge_operations

/-! ## Claim on the nodes under the edge operations -/

section edge_operation_claims

variable {N E : Type} [LinearOrder N] [LinearOrder E]

/-- C28: `insert_edge` and `erase_edge(src, dst, weight)` leave `nodes()` as it was,
whether they return true, return false or throw; on a well-formed graph
`erase_edge(iterator)` at any edge and `erase_edge(first, last)` on any range of edges
return and leave `nodes()` as it was, and so does every other call of the two that has a
result. -/
theorem edge_operations_keep_nodes (g : graph N E) (h : g.WF) :
    (∀ src dst weight, (g.insert_edge src dst weight).2.nodes = g.nodes) ∧
    (∀ src dst weight, (g.erase_edge src dst weight).2.nodes = g.nodes) ∧
    (∀ X t Y, g.edges = X ++ t :: Y →
      ∃ r, g.erase_edge_it (iterator.at_edge t) = some r ∧ r.2.nodes = g.nodes) ∧
    (∀ X M Y, g.edges = X ++ M ++ Y →
      ∃ r, g.erase_edge_range (iterator.at_pos (M ++ Y).head?) (iterator.at_pos Y.head?) = some r ∧
        r.2.nodes = g.nodes) ∧
    (∀ i r, g.erase_edge_it i = some r → r.2.nodes = g.nodes) ∧
    (∀ i s r, g.erase_edge_range i s = some r → r.2.nodes = g.nodes) := by
  refine ⟨fun src dst weight => graph.insert_edge_nodes g src dst weight,
    fun src dst weight => graph.erase_edge_nodes g src dst weight, ?_, ?_,
    fun i r hr => graph.erase_edge_it_nodes g i r hr,
    fun i s r hr => graph.erase_edge_loop_nodes _ g i s r hr⟩
  · intro X t Y he
    obtain ⟨g1, h1, h2, -, -⟩ := graph.erase_edge_it_at g h X Y t he
    exact ⟨_, h1, h2⟩
  · intro X M Y he
    have hlen : M.length < g.edges.length + 1 := by
      rw [he]
      simp only [List.length_append]
      omega
    obtain ⟨g1, h1, h2, -, -⟩ := graph.erase_edge_loop_range M X Y g h _ he hlen
    exact ⟨_, h1, h2⟩

/-- Witness of C28 on the graph of the iterator erasure tests. -/
theorem edge_operations_keep_nodes_witness :
    scenario_erasure.WF ∧ scenario_erasure.nodes = [0, 1, 2, 3] ∧
    (scenario_erasure.insert_edge 3 0 5).2.nodes = [0, 1, 2, 3] ∧
    (scenario_erasure.erase_edge 0 3 1).2.nodes = [0, 1, 2, 3] ∧
    (scenario_erasure.erase_edge 7 3 1).2.nodes = [0, 1, 2, 3] ∧
    (scenario_erasure.erase_edge_it (iterator.at_edge (1, 0, 3))).map (fun r => r.2.nodes)
      = some [0, 1, 2, 3] ∧
    (scenario_erasure.erase_edge_range scenario_erasure.begin scenario_erasure.end_).map
      (fun r => r.2.nodes) = some [0, 1, 2, 3] ∧
    ∀ src dst weight, (scenario_erasure.insert_edge src dst weight).2.nodes
      = scenario_erasure.nodes :=
  ⟨by decide, by decide, by decide, by decide, by decide, by decide, by decide,
    (edge_operations_keep_nodes scenario_erasure (by decide)).1⟩

end edge_operation_claims

end gdwg

namespace gdwg

/-! ## Preservation of the class invariant -/

section invariant

variable {N E : Type} [LinearOrder N] [LinearOrder E]

theorem insert_by_map_fst {κ β : Type} (below above : κ → Bool) (x : κ × β)
    (l : List (κ × β)) :
    (insert_by (fun kv => below kv.1) (fun kv => above kv.1) x l).1.map Prod.fst
      = (insert_by below above x.1 (l.map Prod.fst)).1 := by
  induction l with
  | nil => simp [insert_by]
  | cons e es ih =>
    by_cases hb : below e.1 = true
    · simp [insert_by, hb, ih]
    · by_cases ha : above e.1 = true
      · simp [insert_by, hb, ha]
      · simp [insert_by, hb, ha]

theorem erase_by_map_fst {κ β : Type} (below above : κ → Bool) (l : List (κ × β)) :
    (erase_by (fun kv => below kv.1) (fun kv => above kv.1) l).1.map Prod.fst
      = (erase_by below above (l.map Prod.fst)).1 := by
  induction l with
  | nil => simp [erase_by]
  | cons e es ih =>
    by_cases hb : below e.1 = true
    · simp [erase_by, hb, ih]
    · by_cases ha : above e.1 = true
      · simp [erase_by, hb, ha]
      · simp [erase_by, hb, ha]

theorem mem_insert_by_imp {α : Type} (below above : α → Bool) (x a : α) (l : List α)
    (h : a ∈ (insert_by below above x l).1) : a = x ∨ a ∈ l := by
  induction l with
  | nil =>
    simp only [insert_by, List.mem_singleton] at h
    exact Or.inl h
  | cons e es ih =>
    rcases Bool.eq_false_or_eq_true (below e) with hb | hb
    · rw [insert_by_below below above x e es hb] at h
      rcases List.mem_cons.1 h with h1 | h1
      · exact Or.inr (h1 ▸ List.mem_cons_self _ _)
      · rcases ih h1 with h2 | h2
        · exact Or.inl h2
        · exact Or.inr (List.mem_cons_of_mem _ h2)
    · rcases Bool.eq_false_or_eq_true (above e) with ha | ha
      · rw [insert_by_above below above x e es hb ha] at h
        rcases List.mem_cons.1 h with h1 | h1
        · exact Or.inl h1
        · exact Or.inr h1
      · rw [insert_by_equiv below above x e es hb ha] at h
        exact Or.inr h

theorem mem_erase_by_key {V : Type} (k : N) (l : List (N × V))
    (hs : (l.map Prod.fst).Pairwise (fun a b => a < b)) (kv : N × V) :
    kv ∈ (erase_by (fun kv => MapCompare kv.1 k) (fun kv => MapCompare k kv.1) l).1
      ↔ kv ∈ l ∧ kv.1 ≠ k := by
  induction l with
  | nil => simp [erase_by]
  | cons e es ih =>
    rw [List.map_cons, List.pairwise_cons] at hs
    rcases Bool.eq_false_or_eq_true (MapCompare e.1 k) with hb | hb
    · rw [erase_by_below (fun kv => MapCompare kv.1 k) (fun kv => MapCompare k kv.1) e es hb]
      have hlt : e.1 < k := (MapCompare_iff _ _).1 hb
      simp only [List.mem_cons, ih hs.2]
      constructor
      · rintro (h | h)
        · exact ⟨Or.inl h, by rw [h]; exact ne_of_lt hlt⟩
        · exact ⟨Or.inr h.1, h.2⟩
      · rintro ⟨h | h, h1⟩
        · exact Or.inl h
        · exact Or.inr ⟨h, h1⟩
    · have hge : k ≤ e.1 := (MapCompare_false _ _).1 hb
      have hrest : ∀ x ∈ es, k < x.1 := fun x hx =>
        lt_of_le_of_lt hge (hs.1 x.1 (List.mem_map_of_mem _ hx))
      rcases Bool.eq_false_or_eq_true (MapCompare k e.1) with ha | ha
      · rw [erase_by_above (fun kv => MapCompare kv.1 k) (fun kv => MapCompare k kv.1) e es
          hb ha]
        have hlt : k < e.1 := (MapCompare_iff _ _).1 ha
        simp only [List.mem_cons]
        constructor
        · rintro (h | h)
          · exact ⟨Or.inl h, by rw [h]; exact ne_of_gt hlt⟩
          · exact ⟨Or.inr h, ne_of_gt (hrest kv h)⟩
        · rintro ⟨h, -⟩
          exact h
      · rw [erase_by_equiv (fun kv => MapCompare kv.1 k) (fun kv => MapCompare k kv.1) e es
          hb ha]
        have hle : e.1 ≤ k := (MapCompare_false _ _).1 ha
        have hek : e.1 = k := le_antisymm hle hge
        simp only [List.mem_cons]
        constructor
        · intro h
          exact ⟨Or.inr h, ne_of_gt (hrest kv h)⟩
        · rintro ⟨h | h, h1⟩
          · rw [h] at h1
            exact absurd hek h1
          · exact h

theorem graph.default_WF : (graph.default : graph N E).WF := by
  refine ⟨List.Pairwise.nil, rfl, ?_⟩
  intro kv hkv
  exact absurd hkv (List.not_mem_nil _)

theorem graph.insert_node_WF (g : graph N E) (h : g.WF) (value : N) :
    (g.insert_node value).2.WF := by
  refine ⟨graph.insert_node_sorted g value h.1, ?_, ?_⟩
  · unfold graph.insert_node
    by_cases hflag : (insert_by (fun e => NodeCompare e value) (fun e => NodeCompare value e)
        value g.nodes_).2 = true
    · simp only [hflag, if_true]
      rw [insert_by_map_fst (fun k => MapCompare k value) (fun k => MapCompare value k)
        (value, ([] : List (N × E))) g.repr_, h.2.1]
      rfl
    · simp only [hflag]
      exact h.2.1.trans (insert_by_unchanged _ _ value g.nodes_ (by simpa using hflag)).symm
  · intro kv hkv
    unfold graph.insert_node at hkv
    by_cases hflag : (insert_by (fun e => NodeCompare e value) (fun e => NodeCompare value e)
        value g.nodes_).2 = true
    · simp only [hflag, if_true] at hkv
      rcases mem_insert_by_imp _ _ _ kv g.repr_ hkv with h1 | h1
      · rw [h1]
        exact List.Pairwise.nil
      · exact h.2.2 kv h1
    · simp only [hflag] at hkv
      exact h.2.2 kv hkv

theorem graph.of_range_WF (values : List N) : (graph.of_range values : graph N E).WF := by
  unfold graph.of_range
  have key : ∀ (ws : List N) (g : graph N E), g.WF →
      (ws.foldl (fun g value => (g.insert_node value).2) g).WF := by
    intro ws
    induction ws with
    | nil => intro g hg; exact hg
    | cons w ws ih =>
      intro g hg
      exact ih _ (graph.insert_node_WF g hg w)
  exact key values _ graph.default_WF

theorem graph.insert_edges_WF (es : List (N × N × E)) (g : graph N E) (h : g.WF) :
    (g.insert_edges es).WF := by
  unfold graph.insert_edges
  induction es generalizing g with
  | nil => exact h
  | cons t ts ih => exact ih _ (graph.insert_edge_WF g h t.1 t.2.1 t.2.2)

theorem graph.erase_edge_WF (g : graph N E) (h : g.WF) (src dst : N) (weight : E) :
    (g.erase_edge src dst weight).2.WF := by
  cases hf : g.repr_find src with
  | none => simpa [graph.erase_edge, hf] using h
  | some o =>
    cases hn : g.repr_find dst with
    | none => simpa [graph.erase_edge, hf, hn] using h
    | some n =>
      rw [graph.erase_edge_found g src dst weight o n hf hn]
      refine ⟨h.1, ?_, ?_⟩
      · simp only
        rw [map_fst_modify_const]
        exact h.2.1
      · intro kv hkv
        rcases mem_modify_const src _ g.repr_ kv hkv with hk | hk
        · exact h.2.2 kv hk
        · rw [hk]
          exact (h.2.2 o (find_by_key_some src g.repr_ o hf).2).sublist (erase_by_sublist _ _ _)

omit [LinearOrder E] in
theorem erase_incoming_from_sublist (value : N) (l : List (N × E)) :
    (graph.erase_incoming_from value l).Sublist l := by
  induction l using graph.erase_incoming_from.induct value with
  | case1 => exact List.Sublist.refl _
  | case2 e h =>
    simp only [graph.erase_incoming_from, h, if_true]
    exact List.nil_sublist _
  | case3 e h =>
    simp only [graph.erase_incoming_from, h, if_false]
    exact List.Sublist.refl _
  | case4 e e2 rest h ih =>
    simp only [graph.erase_incoming_from, h, if_true]
    exact (ih.cons₂ e2).cons e
  | case5 e e2 rest h =>
    simp only [graph.erase_incoming_from, h, if_false]
    exact List.Sublist.refl _

omit [LinearOrder E] in
theorem erase_incoming_sublist (value : N) (l : List (N × E)) :
    (graph.erase_incoming value l).Sublist l := by
  induction l with
  | nil => exact List.Sublist.refl _
  | cons e es ih =>
    unfold graph.erase_incoming
    split
    · exact ih.cons₂ e
    · split
      · exact List.Sublist.refl _
      · exact erase_incoming_from_sublist value (e :: es)

omit [LinearOrder E] in
theorem mem_erase_incoming_from (value : N) (l : List (N × E)) (a : N × E) (ha : a ∈ l)
    (hne : a.1 ≠ value) : a ∈ graph.erase_incoming_from value l := by
  induction l using graph.erase_incoming_from.induct value with
  | case1 => exact ha
  | case2 e h =>
    rw [List.mem_singleton] at ha
    rw [ha] at hne
    exact absurd h hne
  | case3 e h =>
    simp only [graph.erase_incoming_from, h, if_false]
    exact ha
  | case4 e e2 rest h ih =>
    simp only [graph.erase_incoming_from, h, if_true]
    rcases List.mem_cons.1 ha with h1 | h1
    · rw [h1] at hne
      exact absurd h hne
    · rcases List.mem_cons.1 h1 with h2 | h2
      · rw [h2]
        exact List.mem_cons_self _ _
      · exact List.mem_cons_of_mem _ (ih h2)
  | case5 e e2 rest h =>
    simp only [graph.erase_incoming_from, h, if_false]
    exact ha

omit [LinearOrder E] in
theorem mem_erase_incoming (value : N) (l : List (N × E)) (a : N × E) (ha : a ∈ l)
    (hne : a.1 ≠ value) : a ∈ graph.erase_incoming value l := by
  induction l with
  | nil => exact ha
  | cons e es ih =>
    unfold graph.erase_incoming
    split
    · rcases List.mem_cons.1 ha with h1 | h1
      · rw [h1]
        exact List.mem_cons_self _ _
      · exact List.mem_cons_of_mem _ (ih h1)
    · split
      · exact ha
      · exact mem_erase_incoming_from value (e :: es) a ha hne

omit [LinearOrder E] in
theorem graph.nodes_find_some (g : graph N E) (value node : N)
    (h : g.nodes_find value = some node) : node = value ∧ node ∈ g.nodes_ :=
  find_by_some NodeCompare NodeCompare_strictTotal value node g.nodes_ h

omit [LinearOrder E] in
theorem graph.erase_node_found (g : graph N E) (value node : N)
    (h : g.nodes_find value = some node) :
    g.erase_node value = (true,
      ⟨(erase_by (fun e => NodeCompare e value) (fun e => NodeCompare value e) g.nodes_).1,
        (erase_by (fun kv => MapCompare kv.1 value) (fun kv => MapCompare value kv.1)
          (g.repr_.map (fun kv => (kv.1, graph.erase_incoming value kv.2)))).1⟩) := by
  have hv := (graph.nodes_find_some g value node h).1
  subst hv
  simp only [graph.erase_node, h]

omit [LinearOrder E] in
theorem graph.erase_node_not_found (g : graph N E) (value : N)
    (h : g.nodes_find value = none) : g.erase_node value = (false, g) := by
  simp only [graph.erase_node, h]

theorem graph.erase_node_WF (g : graph N E) (h : g.WF) (value : N) :
    (g.erase_node value).2.WF := by
  cases hf : g.nodes_find value with
  | none =>
    rw [graph.erase_node_not_found g value hf]
    exact h
  | some node =>
    rw [graph.erase_node_found g value node hf]
    refine ⟨h.1.sublist (erase_by_sublist _ _ _), ?_, ?_⟩
    · simp only
      rw [erase_by_map_fst (fun k => MapCompare k value) (fun k => MapCompare value k),
        List.map_map]
      have : (Prod.fst ∘ fun kv : N × List (N × E) => (kv.1, graph.erase_incoming value kv.2))
          = Prod.fst := rfl
      rw [this, h.2.1]
      rfl
    · intro kv hkv
      have h1 := (erase_by_sublist _ _ _).subset hkv
      obtain ⟨kv0, hkv0, heq⟩ := List.mem_map.1 h1
      rw [← heq]
      exact (h.2.2 kv0 hkv0).sublist (erase_incoming_sublist value kv0.2)

omit [LinearOrder E] in
theorem map_fst_update_entry (k : N) (f : List (N × E) → List (N × E))
    (l : List (N × List (N × E))) :
    (graph.update_entry k f l).map Prod.fst = l.map Prod.fst := by
  induction l with
  | nil => rfl
  | cons kv rest ih =>
    unfold graph.update_entry
    split
    · rfl
    · rw [List.map_cons, List.map_cons, ih]

omit [LinearOrder E] in
theorem mem_update_entry (k : N) (f : List (N × E) → List (N × E))
    (l : List (N × List (N × E))) (kv : N × List (N × E))
    (h : kv ∈ graph.update_entry k f l) : kv ∈ l ∨ ∃ kv0 ∈ l, kv = (kv0.1, f kv0.2) := by
  induction l with
  | nil => exact absurd h (List.not_mem_nil _)
  | cons e rest ih =>
    unfold graph.update_entry at h
    split at h
    · rcases List.mem_cons.1 h with h1 | h1
      · exact Or.inr ⟨e, List.mem_cons_self _ _, h1⟩
      · exact Or.inl (List.mem_cons_of_mem _ h1)
    · rcases List.mem_cons.1 h with h1 | h1
      · exact Or.inl (h1 ▸ List.mem_cons_self _ _)
      · rcases ih h1 with h2 | ⟨kv0, h2, h3⟩
        · exact Or.inl (List.mem_cons_of_mem _ h2)
        · exact Or.inr ⟨kv0, List.mem_cons_of_mem _ h2, h3⟩

theorem graph.erase_edge_it_WF (g : graph N E) (h : g.WF) (i : iterator N E)
    (r : iterator N E × graph N E) (hr : g.erase_edge_it i = some r) : r.2.WF := by
  unfold graph.erase_edge_it at hr
  split at hr
  · cases hr
    exact h
  · split at hr
    · exact absurd hr (by simp)
    · split at hr
      · cases hr
        refine ⟨h.1, ?_, ?_⟩
        · simp only
          rw [map_fst_update_entry]
          exact h.2.1
        · intro kv hkv
          rcases mem_update_entry _ _ g.repr_ kv hkv with h1 | ⟨kv0, h1, h2⟩
          · exact h.2.2 kv h1
          · rw [h2]
            exact (h.2.2 kv0 h1).sublist (List.erase_sublist _ _)
      · exact absurd hr (by simp)

theorem graph.erase_edge_loop_WF (fuel : Nat) (g : graph N E) (h : g.WF) (i s : iterator N E)
    (r : iterator N E × graph N E) (hr : graph.erase_edge_loop fuel g i s = some r) :
    r.2.WF := by
  induction fuel generalizing g i with
  | zero => simp [graph.erase_edge_loop] at hr
  | succ fuel ih =>
    unfold graph.erase_edge_loop at hr
    split at hr
    · cases h1 : g.erase_edge_it i with
      | none =>
        rw [h1] at hr
        exact absurd hr (by simp)
      | some r1 =>
        rw [h1] at hr
        exact ih r1.2 (graph.erase_edge_it_WF g h i r1 h1) r1.1 hr
    · cases hr
      exact h

theorem retarget_range_sorted (new_ptr : N) (fuel : Nat) (edges : List (N × E))
    (first last : Option (N × E)) (res : List (N × E))
    (hs : edges.Pairwise (fun a b => EdgeCompare a b = true))
    (h : graph.retarget_range new_ptr fuel edges first last = some res) :
    res.Pairwise (fun a b => EdgeCompare a b = true) := by
  induction fuel generalizing edges first with
  | zero => simp [graph.retarget_range] at h
  | succ fuel ih =>
    unfold graph.retarget_range at h
    split at h
    · cases h
      exact hs
    · split at h
      · exact absurd h (by simp)
      · simp only at h
        split at h
        · exact absurd h (by simp)
        · split at h
          · refine ih _ _ ?_ h
            exact insert_by_sorted EdgeCompare EdgeCompare_strictTotal _ _
              (hs.sublist (erase_by_sublist _ _ _))
          · exact absurd h (by simp)

theorem retarget_all_sorted (old_ptr new_ptr : N) (l res : List (N × List (N × E)))
    (hs : ∀ kv ∈ l, kv.2.Pairwise (fun a b => EdgeCompare a b = true))
    (h : graph.retarget_all old_ptr new_ptr l = some res) :
    res.map Prod.fst = l.map Prod.fst ∧
      ∀ kv ∈ res, kv.2.Pairwise (fun a b => EdgeCompare a b = true) := by
  induction l generalizing res with
  | nil =>
    simp only [graph.retarget_all, Option.some.injEq] at h
    subst h
    exact ⟨rfl, fun kv hkv => absurd hkv (List.not_mem_nil _)⟩
  | cons kv rest ih =>
    unfold graph.retarget_all at h
    cases h1 : graph.retarget_edges old_ptr new_ptr kv.2 with
    | none =>
      rw [h1] at h
      exact absurd h (by simp)
    | some edges =>
      rw [h1] at h
      cases h2 : graph.retarget_all old_ptr new_ptr rest with
      | none =>
        rw [h2] at h
        exact absurd h (by simp)
      | some rest1 =>
        rw [h2] at h
        simp only [Option.some.injEq] at h
        subst h
        obtain ⟨ih1, ih2⟩ := ih rest1 (fun x hx => hs x (List.mem_cons_of_mem _ hx)) h2
        refine ⟨by simp only [List.map_cons, ih1], ?_⟩
        intro x hx
        rcases List.mem_cons.1 hx with hx1 | hx1
        · rw [hx1]
          exact retarget_range_sorted new_ptr _ kv.2 _ _ edges
            (hs kv (List.mem_cons_self _ _)) h1
        · exact ih2 x hx1

theorem sorted_ext {α : Type} [LinearOrder α] (l1 l2 : List α)
    (h1 : l1.Pairwise (fun a b => a < b)) (h2 : l2.Pairwise (fun a b => a < b))
    (h : ∀ a, a ∈ l1 ↔ a ∈ l2) : l1 = l2 :=
  List.eq_of_perm_of_sorted
    ((List.perm_ext_iff_of_nodup (h1.imp ne_of_lt) (h2.imp ne_of_lt)).2 h) h1 h2

theorem insert_erase_comm (l : List N) (hs : l.Pairwise (fun a b => a < b)) (old new : N)
    (hne : new ≠ old) :
    (insert_by (fun e => NodeCompare e new) (fun e => NodeCompare new e) new
        (erase_by (fun e => NodeCompare e old) (fun e => NodeCompare old e) l).1).1
      = (erase_by (fun e => NodeCompare e old) (fun e => NodeCompare old e)
        (insert_by (fun e => NodeCompare e new) (fun e => NodeCompare new e) new l).1).1 := by
  have hl := (NodeCompare_sorted_iff l).2 hs
  have h1 := insert_by_sorted NodeCompare NodeCompare_strictTotal new _
    (hl.sublist (erase_by_sublist (fun e => NodeCompare e old) (fun e => NodeCompare old e) l))
  have h2 := insert_by_sorted NodeCompare NodeCompare_strictTotal new l hl
  have h3 := h2.sublist (erase_by_sublist (fun e => NodeCompare e old)
    (fun e => NodeCompare old e) _)
  apply sorted_ext _ _ ((NodeCompare_sorted_iff _).1 h1) ((NodeCompare_sorted_iff _).1 h3)
  intro a
  rw [mem_insert_by NodeCompare NodeCompare_strictTotal, mem_erase_by NodeCompare
    NodeCompare_strictTotal old a l hl, mem_erase_by NodeCompare NodeCompare_strictTotal old a _ h2,
    mem_insert_by NodeCompare NodeCompare_strictTotal]
  constructor
  · rintro (h | ⟨h, h'⟩)
    · exact ⟨Or.inl h, by rw [h]; exact hne⟩
    · exact ⟨Or.inr h, h'⟩
  · rintro ⟨h | h, h'⟩
    · exact Or.inl h
    · exact Or.inr ⟨h, h'⟩

theorem graph.replace_node_WF (g : graph N E) (h : g.WF) (old_data new_data : N)
    (r : Res Bool × graph N E) (hr : g.replace_node old_data new_data = some r) : r.2.WF := by
  unfold graph.replace_node at hr
  cases hf : g.nodes_find old_data with
  | none =>
    rw [hf] at hr
    cases hr
    exact h
  | some old_node =>
    rw [hf] at hr
    obtain ⟨hold, hmem⟩ := graph.nodes_find_some g old_data old_node hf
    subst hold
    simp only at hr
    split at hr
    · rename_i hflag
      cases hr
      have hu := insert_by_unchanged (fun e => NodeCompare e new_data)
        (fun e => NodeCompare new_data e) new_data g.nodes_ (by simpa using hflag)
      refine ⟨?_, ?_, h.2.2⟩
      · simp only [hu]
        exact h.1
      · simp only [hu]
        exact h.2.1
    · rename_i hflag
      have hflag1 : (insert_by (fun e => NodeCompare e new_data)
          (fun e => NodeCompare new_data e) new_data g.nodes_).2 = true := by
        simpa using hflag
      have hl := (NodeCompare_sorted_iff g.nodes_).2 h.1
      have hnew : new_data ∉ g.nodes_ :=
        (insert_by_flag NodeCompare NodeCompare_strictTotal new_data g.nodes_ hl).1 hflag1
      have hne : new_data ≠ old_node := fun heq => hnew (heq ▸ hmem)
      cases h1 : graph.retarget_all old_node new_data g.repr_ with
      | none =>
        rw [h1] at hr
        exact absurd hr (by simp)
      | some repr1 =>
        rw [h1] at hr
        simp only at hr
        obtain ⟨hk, hsets⟩ := retarget_all_sorted old_node new_data g.repr_ repr1 h.2.2 h1
        cases h2 : find_by (fun kv => MapCompare kv.1 old_node)
            (fun kv => MapCompare old_node kv.1) repr1 with
        | none =>
          rw [h2] at hr
          exact absurd hr (by simp)
        | some tmp =>
          rw [h2] at hr
          simp only [Option.some.injEq] at hr
          subst hr
          have htmp := (find_by_key_some old_node repr1 tmp h2).2
          refine ⟨?_, ?_, ?_⟩
          · exact ((NodeCompare_sorted_iff _).1
              (insert_by_sorted NodeCompare NodeCompare_strictTotal new_data g.nodes_
                hl)).sublist (erase_by_sublist _ _ _)
          · simp only
            rw [insert_by_map_fst (fun k => MapCompare k new_data)
              (fun k => MapCompare new_data k),
              erase_by_map_fst (fun k => MapCompare k old_node) (fun k => MapCompare old_node k),
              hk, h.2.1]
            exact insert_erase_comm g.nodes_ h.1 old_node new_data hne
          · intro kv hkv
            rcases mem_insert_by_imp _ _ _ kv _ hkv with h3 | h3
            · rw [h3]
              exact hsets tmp htmp
            · exact hsets kv ((erase_by_sublist _ _ _).subset h3)

theorem set_merge_sorted (target source : List (N × E))
    (hs : target.Pairwise (fun a b => EdgeCompare a b = true)) :
    (graph.set_merge target source).1.Pairwise (fun a b => EdgeCompare a b = true) := by
  induction source generalizing target with
  | nil => exact hs
  | cons e es ih =>
    unfold graph.set_merge
    simp only
    split
    · exact ih _ (insert_by_sorted EdgeCompare EdgeCompare_strictTotal e target hs)
    · exact ih _ (insert_by_sorted EdgeCompare EdgeCompare_strictTotal e target hs)

theorem set_merge_rest_sublist (target source : List (N × E)) :
    (graph.set_merge target source).2.Sublist source := by
  induction source generalizing target with
  | nil => exact List.Sublist.refl _
  | cons e es ih =>
    unfold graph.set_merge
    simp only
    split
    · exact (ih _).cons e
    · exact (ih _).cons₂ e

theorem graph.merge_replace_node_WF (g : graph N E) (h : g.WF) (old_data new_data : N)
    (r : Res Unit × graph N E) (hr : g.merge_replace_node old_data new_data = some r) :
    r.2.WF := by
  unfold graph.merge_replace_node at hr
  cases hf : g.repr_find old_data with
  | none =>
    rw [hf] at hr
    cases hr
    exact h
  | some old_node =>
    cases hn : g.repr_find new_data with
    | none =>
      rw [hf, hn] at hr
      cases hr
      exact h
    | some new_node =>
      rw [hf, hn] at hr
      simp only at hr
      have hold : old_node.1 = old_data := (find_by_key_some old_data g.repr_ old_node hf).1
      split at hr
      · cases hr
        exact h
      · cases h1 : graph.retarget_all old_node.1 new_node.1 g.repr_ with
        | none =>
          rw [h1] at hr
          exact absurd hr (by simp)
        | some repr1 =>
          rw [h1] at hr
          obtain ⟨hk, hsets⟩ := retarget_all_sorted old_node.1 new_node.1 g.repr_ repr1 h.2.2 h1
          simp only at hr
          split at hr
          · rename_i old_entry new_entry ho hne
            split at hr
            · exact absurd hr (by simp)
            · rename_i node hnode
              simp only [Option.some.injEq] at hr
              subst hr
              have hnv := (graph.nodes_find_some g old_data node hnode).1
              have hoe := (find_by_key_some old_node.1 repr1 old_entry ho).2
              have hnn := (find_by_key_some new_node.1 repr1 new_entry hne).2
              refine ⟨h.1.sublist (erase_by_sublist _ _ _), ?_, ?_⟩
              · simp only
                rw [erase_by_map_fst (fun k => MapCompare k old_node.1)
                  (fun k => MapCompare old_node.1 k), map_fst_modify_const, map_fst_modify_const,
                  hk, h.2.1, hold, hnv]
                rfl
              · intro kv hkv
                have h3 := (erase_by_sublist _ _ _).subset hkv
                rcases mem_modify_const _ _ _ kv h3 with h4 | h4
                · rcases mem_modify_const _ _ _ kv h4 with h5 | h5
                  · exact hsets kv h5
                  · rw [h5]
                    exact set_merge_sorted _ _ (hsets new_entry hnn)
                · rw [h4]
                  exact (hsets old_entry hoe).sublist (set_merge_rest_sublist _ _)
          · exact absurd hr (by simp)

theorem graph.Reachable.wf {g : graph N E} (h : g.Reachable) : g.WF := by
  induction h with
  | default => exact graph.default_WF
  | of_range values => exact graph.of_range_WF values
  | copy g _ ih => exact ih
  | move_construct_target g _ ih => exact ih
  | move_construct_source g _ _ => exact graph.default_WF
  | move_assign_target g other _ _ _ ih => exact ih
  | move_assign_source g other _ _ ih _ => exact ih
  | insert_node g value _ ih => exact graph.insert_node_WF g ih value
  | insert_edge g src dst weight _ ih => exact graph.insert_edge_WF g ih src dst weight
  | replace_node g old_data new_data r _ hr ih =>
    exact graph.replace_node_WF g ih old_data new_data r hr
  | merge_replace_node g old_data new_data r _ hr ih =>
    exact graph.merge_replace_node_WF g ih old_data new_data r hr
  | erase_node g value _ ih => exact graph.erase_node_WF g ih value
  | erase_edge g src dst weight _ ih => exact graph.erase_edge_WF g ih src dst weight
  | erase_edge_it g i r _ hr ih => exact graph.erase_edge_it_WF g ih i r hr
  | erase_edge_range g i s r _ hr ih => exact graph.erase_edge_loop_WF _ g ih i s r hr
  | clear g _ _ => exact graph.default_WF

end invariant

end gdwg

namespace gdwg

/-! ## Lemmas on `erase_node` -/

section erase_node_lemmas

variable {N E : Type} [LinearOrder N] [LinearOrder E]

omit [LinearOrder N] [LinearOrder E] in
theorem graph.mem_edges_entry (g : graph N E) (t : N × N × E) :
    t ∈ g.edges ↔ ∃ kv ∈ g.repr_, t.1 = kv.1 ∧ t.2 ∈ kv.2 := by
  unfold graph.edges
  simp only [List.mem_flatMap, List.mem_map]
  constructor
  · rintro ⟨kv, hkv, e, he, rfl⟩
    exact ⟨kv, hkv, rfl, he⟩
  · rintro ⟨kv, hkv, h1, h2⟩
    exact ⟨kv, hkv, t.2, h2, by rw [← h1]⟩

theorem graph.erase_node_mem_edges (g : graph N E) (h : g.WF) (value : N)
    (hv : g.is_node value = true) (t : N × N × E) :
    (t ∈ g.edges → t.1 ≠ value → t.2.1 ≠ value → t ∈ (g.erase_node value).2.edges) ∧
    (t ∈ (g.erase_node value).2.edges → t ∈ g.edges ∧ t.1 ≠ value) := by
  unfold graph.is_node at hv
  cases hf : g.nodes_find value with
  | none =>
    rw [hf] at hv
    exact absurd hv (by simp)
  | some node =>
    rw [graph.erase_node_found g value node hf]
    have hkeys : ((g.repr_.map (fun kv => (kv.1, graph.erase_incoming value kv.2))).map
        Prod.fst).Pairwise (fun a b => a < b) := by
      rw [List.map_map]
      exact h.keys_sorted
    simp only [graph.mem_edges_entry]
    constructor
    · rintro ⟨kv, hkv, h1, h2⟩ hsrc hdst
      refine ⟨(kv.1, graph.erase_incoming value kv.2), ?_, h1, ?_⟩
      · rw [mem_erase_by_key value _ hkeys]
        exact ⟨List.mem_map.2 ⟨kv, hkv, rfl⟩, by rw [← h1]; exact hsrc⟩
      · exact mem_erase_incoming value kv.2 t.2 h2 hdst
    · rintro ⟨kv, hkv, h1, h2⟩
      rw [mem_erase_by_key value _ hkeys] at hkv
      obtain ⟨kv0, hkv0, heq⟩ := List.mem_map.1 hkv.1
      subst heq
      exact ⟨⟨kv0, hkv0, h1, (erase_incoming_sublist value kv0.2).subset h2⟩,
        by rw [h1]; exact hkv.2⟩

theorem graph.erase_node_is_node (g : graph N E) (h : g.WF) (value x : N) :
    (g.erase_node value).2.is_node x = true ↔ g.is_node x = true ∧ x ≠ value := by
  rw [graph.is_node_iff_mem _ (graph.erase_node_WF g h value).1, graph.is_node_iff_mem g h.1]
  cases hf : g.nodes_find value with
  | none =>
    rw [graph.erase_node_not_found g value hf]
    constructor
    · intro hx
      refine ⟨hx, ?_⟩
      intro hxv
      have := (graph.is_node_iff_mem g h.1 value).2 (hxv ▸ hx)
      unfold graph.is_node at this
      rw [hf] at this
      exact absurd this (by simp)
    · exact fun hx => hx.1
  | some node =>
    rw [graph.erase_node_found g value node hf]
    exact mem_erase_by NodeCompare NodeCompare_strictTotal value x g.nodes_
      ((NodeCompare_sorted_iff g.nodes_).2 h.1)

end erase_node_lemmas

/-! ## Claims on `erase_node`, `empty`, `clear` and the class invariant -/

section invariant_claims

variable {N E : Type} [LinearOrder N] [LinearOrder E]

/-- C27: on a well-formed graph `erase_node(v)` returns a value (it cannot throw) that is
true exactly when `v` was a node; when it is false the graph is unchanged; when it is
true the nodes of the result are the other nodes, every edge whose source and destination
both differ from `v` is still an edge, with its weight, and every edge of the result was
an edge that does not leave `v`. -/
theorem erase_node_frame (g : graph N E) (h : g.WF) (v : N) :
    (g.erase_node v).1 = g.is_node v ∧
    (g.is_node v = false → (g.erase_node v).2 = g) ∧
    (g.is_node v = true →
      (∀ x, (g.erase_node v).2.is_node x = true ↔ g.is_node x = true ∧ x ≠ v) ∧
      (∀ t ∈ g.edges, t.1 ≠ v → t.2.1 ≠ v → t ∈ (g.erase_node v).2.edges) ∧
      (∀ t ∈ (g.erase_node v).2.edges, t ∈ g.edges ∧ t.1 ≠ v)) := by
  refine ⟨?_, ?_, ?_⟩
  · unfold graph.is_node
    cases hf : g.nodes_find v with
    | none => rw [graph.erase_node_not_found g v hf]; rfl
    | some node => rw [graph.erase_node_found g v node hf]; rfl
  · intro hv
    unfold graph.is_node at hv
    cases hf : g.nodes_find v with
    | none => rw [graph.erase_node_not_found g v hf]
    | some node =>
      rw [hf] at hv
      exact absurd hv (by simp)
  · intro hv
    exact ⟨fun x => graph.erase_node_is_node g h v x,
      fun t ht => (graph.erase_node_mem_edges g h v hv t).1 ht,
      fun t ht => (graph.erase_node_mem_edges g h v hv t).2 ht⟩

/-- Witness of C27 on the graph of the node replacement test: erasing node 2 keeps the
edges 1 → 3 and 3 → 3, and erasing the absent node 7 returns false. -/
theorem erase_node_frame_witness :
    scenario_replacement.WF ∧
    (scenario_replacement.erase_node 2).1 = true ∧
    (scenario_replacement.erase_node 2).2.nodes = [1, 3, 4] ∧
    (scenario_replacement.erase_node 2).2.edges = [(1, 3, 2), (3, 3, 4)] ∧
    scenario_replacement.erase_node 7 = (false, scenario_replacement) ∧
    (scenario_replacement.erase_node 2).1 = scenario_replacement.is_node 2 :=
  ⟨by decide, by decide, by decide, by decide, by decide,
    (erase_node_frame scenario_replacement (by decide) 2).1⟩

/-- C30: in every graph that the public operations produce from the empty graph, the keys
of `repr_` are the values of `nodes_`, in the same order, and no value occurs twice in
either of them. -/
theorem registry_matches_adjacency (g : graph N E) (h : g.Reachable) :
    g.repr_.map Prod.fst = g.nodes_ ∧ g.nodes_.Nodup ∧ (g.repr_.map Prod.fst).Nodup ∧
    ∀ x, x ∈ g.nodes_ ↔ x ∈ g.repr_.map Prod.fst := by
  have hw := h.wf
  refine ⟨hw.2.1, hw.1.imp ne_of_lt, hw.keys_nodup, ?_⟩
  intro x
  rw [hw.2.1]

/-- Witness of C30 on the state after `erase_node(2)`, a refused `insert_node(1)` and a
throwing `insert_edge(1, 9, 0)` on the graph with two parallel edges. -/
theorem registry_matches_adjacency_witness :
    (((example_parallel.erase_node 2).2.insert_node 1).2.insert_edge 1 9 0).2.Reachable ∧
    (((example_parallel.erase_node 2).2.insert_node 1).2.insert_edge 1 9 0).1
      = Res.throws graph.insert_edge_error ∧
    (((example_parallel.erase_node 2).2.insert_node 1).2.insert_edge 1 9 0).2.repr_.map Prod.fst
      = (((example_parallel.erase_node 2).2.insert_node 1).2.insert_edge 1 9 0).2.nodes_ :=
  ⟨graph.Reachable.insert_edge _ 1 9 0 (graph.Reachable.insert_node _ 1
      (graph.Reachable.erase_node _ 2 (graph.Reachable.insert_edge _ 1 2 1
        (graph.Reachable.insert_edge _ 1 2 0 (graph.Reachable.of_range [1, 2]))))),
    by decide,
    (registry_matches_adjacency _ (graph.Reachable.insert_edge _ 1 9 0
      (graph.Reachable.insert_node _ 1 (graph.Reachable.erase_node _ 2
        (graph.Reachable.insert_edge _ 1 2 1 (graph.Reachable.insert_edge _ 1 2 0
          (graph.Reachable.of_range [1, 2]))))))).1⟩

/-- C24: in every graph that the public operations produce from the empty graph,
`empty()` is true exactly when there is no node, and then there is no edge; after
`clear()` on any graph `empty()` is true, `nodes()` is empty and `begin() == end()`. -/
theorem empty_spec (g : graph N E) (h : g.Reachable) :
    (g.empty = true ↔ g.nodes = []) ∧ (g.nodes = [] → g.edges = []) ∧
    ∀ g1 : graph N E, g1.clear.empty = true ∧ g1.clear.nodes = [] ∧
      g1.clear.begin.operator_eq g1.clear.end_ = true := by
  have hw := h.wf
  have hrepr : g.nodes_ = [] → g.repr_ = [] := by
    intro hn
    have := hw.2.1
    rw [hn] at this
    exact List.map_eq_nil_iff.1 this
  refine ⟨?_, ?_, ?_⟩
  · unfold graph.empty graph.nodes
    constructor
    · intro he
      rw [Bool.and_eq_true] at he
      exact List.isEmpty_iff.1 he.1
    · intro hn
      rw [hn, hrepr hn]
      rfl
  · intro hn
    unfold graph.edges
    rw [hrepr hn]
    rfl
  · intro g1
    exact ⟨rfl, rfl, by simp [graph.clear, graph.begin, graph.end_, iterator.of_range,
      iterator.operator_eq]⟩

/-- Witness of C24: the graph of the iterator tests is not empty and becomes empty by
`clear()`; the graph left by `erase_node` of its only node is empty. -/
theorem empty_spec_witness :
    scenario_iterator.empty = false ∧ scenario_iterator.clear.empty = true ∧
    (example_loop.erase_node 1).2.Reachable ∧ (example_loop.erase_node 1).2.empty = true ∧
    ((example_loop.erase_node 1).2.empty = true ↔ (example_loop.erase_node 1).2.nodes = []) :=
  ⟨by decide, by decide,
    graph.Reachable.erase_node _ 1 (graph.Reachable.insert_edge _ 1 1 0
      (graph.Reachable.of_range [1])),
    by decide,
    (empty_spec _ (graph.Reachable.erase_node _ 1 (graph.Reachable.insert_edge _ 1 1 0
      (graph.Reachable.of_range [1])))).1⟩

/-- C25: `erase_node(2)` and `replace_node(2, 5)` on the well-formed graph with the nodes
1, 2 and the parallel edges 1 → 2 of weights 0 and 1, in which no edge dangles, return
true and leave the edge 1 → 2 of weight 1 although 2 is no longer a node. -/
theorem mutators_leave_dangling_edge :
    example_parallel.WF ∧ example_parallel.closed ∧
    (example_parallel.erase_node 2).1 = true ∧
    (1, 2, 1) ∈ (example_parallel.erase_node 2).2.edges ∧
    (example_parallel.erase_node 2).2.is_node 2 = false ∧
    ¬ (example_parallel.erase_node 2).2.closed ∧
    (example_parallel.replace_node 2 5).map (fun r => r.1) = some (Res.ret true) ∧
    (example_parallel.replace_node 2 5).map (fun r => r.2.edges)
      = some [(1, 2, 1), (1, 5, 0)] ∧
    (example_parallel.replace_node 2 5).map (fun r => r.2.nodes) = some [1, 5] ∧
    (example_parallel.replace_node 2 5).map (fun r => decide r.2.closed) = some false := by
  decide

end invariant_claims

end gdwg

namespace gdwg

/-! ## Lemmas on the extractor -/

section extractor_lemmas

variable {N E : Type} [LinearOrder N] [LinearOrder E]

theorem foldl_append_eq (l : List String) (acc : String) :
    l.foldl (fun r s => r ++ s) acc = acc ++ String.join l := by
  unfold String.join
  induction l generalizing acc with
  | nil => simp
  | cons s l ih =>
    rw [List.foldl_cons, List.foldl_cons, ih, ih ("" ++ s), String.empty_append,
      String.append_assoc]

theorem join_cons (s : String) (l : List String) : String.join (s :: l) = s ++ String.join l := by
  have := foldl_append_eq (s :: l) ""
  rw [List.foldl_cons, String.empty_append, foldl_append_eq] at this
  rw [String.empty_append] at this
  exact this.symm

theorem foldl_write {α : Type} (f : α → String) (l : List α) (os : String) :
    l.foldl (fun os a => os ++ f a) os = os ++ String.join (l.map f) := by
  induction l generalizing os with
  | nil => simp [String.join]
  | cons a l ih =>
    rw [List.foldl_cons, ih, List.map_cons, join_cons, String.append_assoc]

theorem find_by_key_of_mem {V : Type} (l : List (N × V))
    (hs : (l.map Prod.fst).Pairwise (fun a b => a < b)) (kv : N × V) (h : kv ∈ l) :
    find_by (fun e => MapCompare e.1 kv.1) (fun e => MapCompare kv.1 e.1) l = some kv := by
  induction l with
  | nil => exact absurd h (List.not_mem_nil _)
  | cons e es ih =>
    rw [List.map_cons, List.pairwise_cons] at hs
    rcases List.mem_cons.1 h with h1 | h1
    · subst h1
      exact find_by_equiv (fun e => MapCompare e.1 kv.1) (fun e => MapCompare kv.1 e.1) kv es
        (MapCompare_irrefl _) (MapCompare_irrefl _)
    · have hlt : e.1 < kv.1 := hs.1 kv.1 (List.mem_map_of_mem _ h1)
      rw [find_by_below (fun e => MapCompare e.1 kv.1) (fun e => MapCompare kv.1 e.1) e es
        ((MapCompare_iff _ _).2 hlt)]
      exact ih hs.2 h1

theorem graph.repr_eq_outgoing (g : graph N E) (h : g.WF) :
    g.repr_ = g.nodes.map (fun n => (n, g.outgoing n)) := by
  unfold graph.nodes
  rw [← h.2.1, List.map_map]
  have : ∀ kv ∈ g.repr_, ((fun n => (n, g.outgoing n)) ∘ Prod.fst) kv = id kv := by
    intro kv hkv
    simp only [Function.comp, graph.outgoing, graph.repr_find,
      find_by_key_of_mem g.repr_ h.keys_sorted kv hkv, id]
  rw [List.map_congr_left this, List.map_id]

theorem graph.mem_outgoing (g : graph N E) (h : g.WF) (n d : N) (w : E) :
    (d, w) ∈ g.outgoing n ↔ (n, d, w) ∈ g.edges := by
  rw [graph.mem_edges g h.keys_sorted]
  unfold graph.outgoing
  cases g.repr_find n with
  | none => simp
  | some kv => simp

theorem graph.outgoing_sorted (g : graph N E) (h : g.WF) (n : N) :
    (g.outgoing n).Pairwise (fun a b => EdgeCompare a b = true) := by
  unfold graph.outgoing
  cases hf : g.repr_find n with
  | none => exact List.Pairwise.nil
  | some kv => exact h.2.2 kv (find_by_key_some n g.repr_ kv hf).2

/-- The extractor on the graph of `TEST_CASE("Test extractor prints correct output")`
writes the text the test expects, and nothing for the empty graph. -/
theorem scenario_extractor_text :
    scenario_extractor.operator_lshift Int.repr Int.repr ""
      = "1 (\n  5 | -1\n)\n2 (\n  1 | 1\n  4 | 2\n)\n3 (\n  2 | 2\n  6 | -8\n)\n4 (\n  1 | -4\n  5 | 3\n)\n5 (\n  2 | 7\n)\n6 (\n  2 | 5\n  3 | 10\n)\n64 (\n)\n" ∧
    (graph.default : graph Int Int).operator_lshift Int.repr Int.repr "" = "" := by
  decide

end extractor_lemmas

/-! ## Claim on the extractor -/

section extractor_claims

variable {N E : Type} [LinearOrder N] [LinearOrder E]

/-- C23: on a well-formed graph `operator<<` appends to the stream, for each node in
ascending order, the text of the node, `" (\n"`, for each edge leaving the node in
ascending (destination, weight) order the line made of two spaces, the text of the
destination, `" | "`, the text of the weight and `"\n"`, and then `")\n"`; a node without
outgoing edge gets the block without lines, and nothing is written for a graph without
nodes. -/
theorem operator_lshift_spec (text_N : N → String) (text_E : E → String) (os : String)
    (g : graph N E) (h : g.WF) :
    g.operator_lshift text_N text_E os
      = os ++ String.join (g.nodes.map (fun n =>
          text_N n ++ " (\n"
            ++ String.join ((g.outgoing n).map (fun e =>
                "  " ++ text_N e.1 ++ " | " ++ text_E e.2 ++ "\n"))
            ++ ")\n")) ∧
    g.nodes.Pairwise (fun a b => a < b) ∧
    (∀ n, (g.outgoing n).Pairwise (fun a b => a.1 < b.1 ∨ (a.1 = b.1 ∧ a.2 < b.2))) ∧
    (∀ n d w, (d, w) ∈ g.outgoing n ↔ (n, d, w) ∈ g.edges) ∧
    (∀ n, (∀ d w, (n, d, w) ∉ g.edges) → g.outgoing n = []) ∧
    (g.nodes = [] → g.operator_lshift text_N text_E os = os) := by
  have hmain : g.operator_lshift text_N text_E os
      = os ++ String.join (g.nodes.map (fun n =>
          text_N n ++ " (\n"
            ++ String.join ((g.outgoing n).map (fun e =>
                "  " ++ text_N e.1 ++ " | " ++ text_E e.2 ++ "\n"))
            ++ ")\n")) := by
    unfold graph.operator_lshift
    have hstep : ∀ (os : String) (kv : N × List (N × E)),
        (kv.2.foldl (fun os e => os ++ "  " ++ text_N e.1 ++ " | " ++ text_E e.2 ++ "\n")
          (os ++ text_N kv.1 ++ " (\n")) ++ ")\n"
        = os ++ (text_N kv.1 ++ " (\n"
            ++ String.join (kv.2.map (fun e =>
                "  " ++ text_N e.1 ++ " | " ++ text_E e.2 ++ "\n"))
            ++ ")\n") := by
      intro os kv
      have h1 : (fun (os : String) (e : N × E) =>
          os ++ "  " ++ text_N e.1 ++ " | " ++ text_E e.2 ++ "\n")
          = (fun os e => os ++ (fun e : N × E =>
              "  " ++ text_N e.1 ++ " | " ++ text_E e.2 ++ "\n") e) := by
        funext os e
        simp only [String.append_assoc]
      rw [h1, foldl_write]
      simp only [String.append_assoc]
    simp only [hstep]
    rw [foldl_write (fun kv : N × List (N × E) => text_N kv.1 ++ " (\n"
        ++ String.join (kv.2.map (fun e => "  " ++ text_N e.1 ++ " | " ++ text_E e.2 ++ "\n"))
        ++ ")\n") g.repr_ os]
    conv_lhs => rw [graph.repr_eq_outgoing g h]
    rw [List.map_map]
    rfl
  refine ⟨hmain, h.1, ?_, fun n d w => graph.mem_outgoing g h n d w, ?_, ?_⟩
  · intro n
    exact (graph.outgoing_sorted g h n).imp (fun {a b} hab => (EdgeCompare_iff a b).1 hab)
  · intro n hn
    apply List.eq_nil_iff_forall_not_mem.2
    intro e he
    exact hn e.1 e.2 ((graph.mem_outgoing g h n e.1 e.2).1 he)
  · intro hn
    rw [hmain, hn]
    simp [String.join]

/-- Witness of C23 on the graph with the edges 1 → 2 (7) and 1 → 3 (8), with decimal
texts for nodes and weights. -/
theorem operator_lshift_spec_witness :
    example_fan.operator_lshift Nat.repr Nat.repr ""
      = "1 (\n  2 | 7\n  3 | 8\n)\n2 (\n)\n3 (\n)\n" ∧
    (graph.default : graph Nat Nat).operator_lshift Nat.repr Nat.repr "" = "" ∧
    example_fan.operator_lshift Nat.repr Nat.repr "g = "
      = "g = " ++ String.join (example_fan.nodes.map (fun n =>
          Nat.repr n ++ " (\n"
            ++ String.join ((example_fan.outgoing n).map (fun e =>
                "  " ++ Nat.repr e.1 ++ " | " ++ Nat.repr e.2 ++ "\n"))
            ++ ")\n")) :=
  ⟨by decide, by decide,
    (operator_lshift_spec Nat.repr Nat.repr "g = " example_fan (by decide)).1⟩

end extractor_claims

end gdwg

namespace gdwg

/-! ## Lemmas on iterators across a transfer of the storage -/

section transfer_lemmas

variable {N E : Type} [LinearOrder N] [LinearOrder E]

omit [LinearOrder N] [LinearOrder E] in
theorem skip_exhausted_stale_eq (end_ : Option N) (rest : List (N × List (N × E))) :
    iterator.skip_exhausted_stale end_ rest
      = if (iterator.skip_exhausted end_ rest).outer_.isSome
        then some (iterator.skip_exhausted end_ rest) else none := by
  induction rest with
  | nil => rfl
  | cons kv rest ih =>
    obtain ⟨k, es⟩ := kv
    cases es with
    | nil => simpa [iterator.skip_exhausted_stale, iterator.skip_exhausted] using ih
    | cons e es => simp [iterator.skip_exhausted_stale, iterator.skip_exhausted]

theorem incr_transferred_eq (r : List (N × List (N × E))) (it : iterator N E) :
    it.incr_transferred r
      = (it.incr r).bind (fun next => if next.outer_.isSome then some next else none) := by
  unfold iterator.incr_transferred iterator.incr
  split
  · split
    · rfl
    · split
      · split
        · simp
        · rw [skip_exhausted_stale_eq]
          simp
      · rfl
  · rfl

theorem incr_transferred_deref (r : List (N × List (N × E))) (it : iterator N E) :
    (it.incr_transferred r).bind iterator.deref = (it.incr r).bind iterator.deref := by
  rw [incr_transferred_eq]
  cases it.incr r with
  | none => rfl
  | some next =>
    simp only [Option.bind]
    cases ho : next.outer_ with
    | none => simp [iterator.deref, ho]
    | some k => simp

theorem graph.incr_transferred_at_pos (g : graph N E) (h : g.WF) (X Y : List (N × N × E))
    (t : N × N × E) (he : g.edges = X ++ t :: Y) :
    (iterator.at_edge t).incr_transferred g.repr_ = Y.head?.map iterator.at_edge := by
  rw [incr_transferred_eq, graph.incr_at_pos g h X Y t he]
  cases Y.head? with
  | none => rfl
  | some t1 => rfl

end transfer_lemmas

/-! ## Claim on iterators across a move -/

section transfer_claims

variable {N E : Type} [LinearOrder N] [LinearOrder E]

/-- What a move keeps: let `g` be well-formed and `it` designate the edge `t` of `g`,
followed in the traversal by the edges `Y`.  After `g` is moved into a new graph or
move-assigned to a graph `other`, the receiving graph has the edges of `g`, `*it` is
still `t`, and `++it` yields the position of the first edge of `Y` when there is one, as
it did on `g`.  When `Y` is empty `++it` gave `end()` of `g` and has no meaning after the
transfer. -/
theorem graph.move_keeps_following_edges (g other : graph N E) (h : g.WF) (X Y : List (N × N × E))
    (t : N × N × E) (he : g.edges = X ++ t :: Y) :
    g.move_construct.1.edges = g.edges ∧ (other.move_assign g).1.edges = g.edges ∧
    (iterator.at_edge t).deref = some (graph.to_value t) ∧
    (iterator.at_edge t).incr g.repr_ = some (iterator.at_pos Y.head?) ∧
    (iterator.at_edge t).incr_transferred g.move_construct.1.repr_
      = Y.head?.map iterator.at_edge ∧
    (iterator.at_edge t).incr_transferred (other.move_assign g).1.repr_
      = Y.head?.map iterator.at_edge ∧
    ((iterator.at_edge t).incr_transferred g.move_construct.1.repr_).bind iterator.deref
      = ((iterator.at_edge t).incr g.repr_).bind iterator.deref ∧
    ((iterator.at_edge t).incr_transferred (other.move_assign g).1.repr_).bind iterator.deref
      = ((iterator.at_edge t).incr g.repr_).bind iterator.deref :=
  ⟨rfl, rfl, rfl, graph.incr_at_pos g h X Y t he,
    graph.incr_transferred_at_pos g h X Y t he, graph.incr_transferred_at_pos g h X Y t he,
    incr_transferred_deref g.repr_ _, incr_transferred_deref g.repr_ _⟩

/-- The move tests of `graph_test1.cpp` (`++it; // Check iterator points to moved graph`)
on the graph of the node replacement test: the iterator at the first edge 1 → 2 is
incremented after the move and then designates the edge 1 → 3. -/
theorem scenario_move_increment :
    scenario_replacement.begin = iterator.at_edge (1, 2, 1) ∧
    (iterator.at_edge (1, 2, 1)).incr_transferred scenario_replacement.move_construct.1.repr_
      = some (iterator.at_edge (1, 3, 2)) ∧
    (iterator.at_edge ((1 : Nat), (3 : Nat), (2 : Nat))).deref = some ⟨1, 3, 2⟩ ∧
    (iterator.at_edge (1, 2, 1)).incr_transferred
        ((graph.default : graph Nat Nat).move_assign scenario_replacement).1.repr_
      = [((1 : Nat), (3 : Nat), (2 : Nat)), (2, 3, 3), (3, 3, 4)].head?.map iterator.at_edge :=
  ⟨by decide, by decide, by decide,
    (graph.move_keeps_following_edges scenario_replacement graph.default (by decide) []
      [(1, 3, 2), (2, 3, 3), (3, 3, 4)] (1, 2, 1) (by decide)).2.2.2.2.2.1⟩

/-- C29: on the graph with the single edge 1 → 1 the iterator `begin()` designates that
edge and `++` on it gives `end()`; once the graph has been moved into a new graph, or
move-assigned to an empty graph, the receiving graph has the same edge and `*it` is the
same, but `++` on the same iterator has no meaning: it runs past the last entry without
meeting the `end_` it stored.  The same happens at the last edge 3 → 3 of the graph of
the move tests, which is followed by the entry of node 4 without edges. -/
theorem move_breaks_last_increment :
    example_loop.WF ∧ example_loop.begin = iterator.at_edge (1, 1, 0) ∧
    (iterator.at_edge (1, 1, 0)).incr example_loop.repr_ = some example_loop.end_ ∧
    example_loop.move_construct.1.edges = [(1, 1, 0)] ∧
    (iterator.at_edge ((1 : Nat), (1 : Nat), (0 : Nat))).deref = some ⟨1, 1, 0⟩ ∧
    (iterator.at_edge (1, 1, 0)).incr_transferred example_loop.move_construct.1.repr_ = none ∧
    ((graph.default : graph Nat Nat).move_assign example_loop).1.edges = [(1, 1, 0)] ∧
    (iterator.at_edge (1, 1, 0)).incr_transferred
      ((graph.default : graph Nat Nat).move_assign example_loop).1.repr_ = none ∧
    scenario_replacement.edges = [(1, 2, 1), (1, 3, 2), (2, 3, 3), (3, 3, 4)] ∧
    (iterator.at_edge (3, 3, 4)).incr scenario_replacement.repr_
      = some scenario_replacement.end_ ∧
    (iterator.at_edge (3, 3, 4)).incr_transferred scenario_replacement.move_construct.1.repr_
      = none := by
  decide

end transfer_claims

end gdwg

namespace gdwg

/-! ## Lemmas on the dependence on the insertion order -/

section order_lemmas

variable {N E : Type} [LinearOrder N] [LinearOrder E]

theorem entries_ext {κ V : Type} (l1 l2 : List (κ × V))
    (hk : l1.map Prod.fst = l2.map Prod.fst) (hn : (l1.map Prod.fst).Nodup)
    (hv : ∀ kv1 ∈ l1, ∀ kv2 ∈ l2, kv1.1 = kv2.1 → kv1.2 = kv2.2) : l1 = l2 := by
  induction l1 generalizing l2 with
  | nil =>
    cases l2 with
    | nil => rfl
    | cons b bs => simp at hk
  | cons a as ih =>
    cases l2 with
    | nil => simp at hk
    | cons b bs =>
      simp only [List.map_cons, List.cons.injEq] at hk
      rw [List.map_cons, List.nodup_cons] at hn
      have hab : a = b := Prod.ext hk.1
        (hv a (List.mem_cons_self _ _) b (List.mem_cons_self _ _) hk.1)
      rw [hab, ih bs hk.2 hn.2 (fun kv1 h1 kv2 h2 => hv kv1 (List.mem_cons_of_mem _ h1) kv2
        (List.mem_cons_of_mem _ h2))]

theorem EdgeCompare_sorted_ext (l1 l2 : List (N × E))
    (h1 : l1.Pairwise (fun a b => EdgeCompare a b = true))
    (h2 : l2.Pairwise (fun a b => EdgeCompare a b = true))
    (h : ∀ a, a ∈ l1 ↔ a ∈ l2) : l1 = l2 := by
  induction l1 generalizing l2 with
  | nil =>
    cases l2 with
    | nil => rfl
    | cons b bs => exact absurd ((h b).2 (List.mem_cons_self _ _)) (List.not_mem_nil _)
  | cons a as ih =>
    cases l2 with
    | nil => exact absurd ((h a).1 (List.mem_cons_self _ _)) (List.not_mem_nil _)
    | cons b bs =>
      rw [List.pairwise_cons] at h1 h2
      have hirr : ∀ x : N × E, EdgeCompare x x ≠ true := fun x hx => by
        rw [EdgeCompare_strictTotal.irrefl x] at hx
        exact absurd hx (by simp)
      have hab : a = b := by
        rcases List.mem_cons.1 ((h a).1 (List.mem_cons_self _ _)) with ha | ha
        · exact ha
        · rcases List.mem_cons.1 ((h b).2 (List.mem_cons_self _ _)) with hb | hb
          · exact hb.symm
          · exact absurd (EdgeCompare_strictTotal.trans a b a (h1.1 b hb) (h2.1 a ha)) (hirr a)
      subst hab
      have htail : ∀ x, x ∈ as ↔ x ∈ bs := by
        intro x
        constructor
        · intro hx
          rcases List.mem_cons.1 ((h x).1 (List.mem_cons_of_mem _ hx)) with hxa | hxa
          · rw [hxa] at hx
            exact absurd (h1.1 a hx) (hirr a)
          · exact hxa
        · intro hx
          rcases List.mem_cons.1 ((h x).2 (List.mem_cons_of_mem _ hx)) with hxa | hxa
          · rw [hxa] at hx
            exact absurd (h2.1 a hx) (hirr a)
          · exact hxa
      rw [ih bs h1.2 h2.2 htail]

theorem graph.ext_of_WF (g1 g2 : graph N E) (h1 : g1.WF) (h2 : g2.WF)
    (hn : ∀ x, x ∈ g1.nodes_ ↔ x ∈ g2.nodes_) (he : ∀ t, t ∈ g1.edges ↔ t ∈ g2.edges) :
    g1 = g2 := by
  have hnodes : g1.nodes_ = g2.nodes_ := sorted_ext _ _ h1.1 h2.1 hn
  have hrepr : g1.repr_ = g2.repr_ := by
    apply entries_ext
    · rw [h1.2.1, h2.2.1, hnodes]
    · exact h1.keys_nodup
    · intro kv1 hkv1 kv2 hkv2 hk
      apply EdgeCompare_sorted_ext _ _ (h1.2.2 kv1 hkv1) (h2.2.2 kv2 hkv2)
      intro a
      have hf1 := find_by_key_of_mem g1.repr_ h1.keys_sorted kv1 hkv1
      have hf2 := find_by_key_of_mem g2.repr_ h2.keys_sorted kv2 hkv2
      have e1 := graph.mem_edges g1 h1.keys_sorted kv1.1 a.1 a.2
      have e2 := graph.mem_edges g2 h2.keys_sorted kv2.1 a.1 a.2
      unfold graph.repr_find at e1 e2
      rw [hf1] at e1
      rw [hf2] at e2
      simp only [Option.some.injEq, exists_eq_left'] at e1 e2
      rw [← e1, ← e2, hk]
      exact he _
  cases g1
  cases g2
  simp only at hnodes hrepr
  rw [hnodes, hrepr]

omit [LinearOrder E] in
theorem graph.insert_node_edges (g : graph N E) (value : N) :
    (g.insert_node value).2.edges = g.edges := by
  unfold graph.insert_node graph.edges
  simp only
  split
  · exact flatMap_insert_by_nil _ _ value _ rfl g.repr_
  · rfl

omit [LinearOrder E] in
theorem graph.of_range_edges (values : List N) : (graph.of_range values : graph N E).edges = [] := by
  unfold graph.of_range
  have key : ∀ (ws : List N) (g : graph N E),
      (ws.foldl (fun g value => (g.insert_node value).2) g).edges = g.edges := by
    intro ws
    induction ws with
    | nil => intro g; rfl
    | cons w ws ih =>
      intro g
      rw [List.foldl_cons, ih, graph.insert_node_edges]
  rw [key]
  rfl

omit [LinearOrder E] in
theorem graph.mem_of_range (values : List N) (x : N) :
    x ∈ (graph.of_range values : graph N E).nodes_ ↔ x ∈ values := by
  unfold graph.of_range
  rw [(graph.foldl_insert_node values (graph.default : graph N E) List.Pairwise.nil).2]
  simp [graph.default]

theorem graph.insert_edges_nodes (es : List (N × N × E)) (g : graph N E) :
    (g.insert_edges es).nodes_ = g.nodes_ := by
  unfold graph.insert_edges
  induction es generalizing g with
  | nil => rfl
  | cons t ts ih => rw [List.foldl_cons, ih, graph.insert_edge_nodes]

theorem graph.insert_edge_absent (g : graph N E) (h : g.WF) (src dst : N) (weight : E)
    (hn : ¬ (g.is_node src = true ∧ g.is_node dst = true)) :
    (g.insert_edge src dst weight).2 = g := by
  rw [graph.is_node_eq_repr_find g h, graph.is_node_eq_repr_find g h] at hn
  unfold graph.insert_edge
  cases hf : g.repr_find src with
  | none => rfl
  | some o =>
    cases hd : g.repr_find dst with
    | none => rfl
    | some n =>
      rw [hf, hd] at hn
      exact absurd ⟨rfl, rfl⟩ hn

theorem graph.mem_insert_edges (es : List (N × N × E)) (g : graph N E) (h : g.WF)
    (t : N × N × E) :
    t ∈ (g.insert_edges es).edges
      ↔ t ∈ g.edges ∨ (t ∈ es ∧ g.is_node t.1 = true ∧ g.is_node t.2.1 = true) := by
  induction es generalizing g with
  | nil => simp [graph.insert_edges]
  | cons e es ih =>
    have hstep : g.insert_edges (e :: es)
        = (g.insert_edge e.1 e.2.1 e.2.2).2.insert_edges es := rfl
    have hnodes := graph.insert_edge_nodes g e.1 e.2.1 e.2.2
    have hnode : ∀ x, (g.insert_edge e.1 e.2.1 e.2.2).2.is_node x = g.is_node x := by
      intro x
      unfold graph.is_node graph.nodes_find
      rw [hnodes]
    rw [hstep, ih _ (graph.insert_edge_WF g h e.1 e.2.1 e.2.2), hnode, hnode]
    by_cases hn : g.is_node e.1 = true ∧ g.is_node e.2.1 = true
    · rw [graph.insert_edge_edges g h e.1 e.2.1 e.2.2 hn.1 hn.2 t]
      have hee : (e.1, e.2.1, e.2.2) = e := rfl
      rw [hee]
      simp only [List.mem_cons]
      constructor
      · rintro ((h1 | h1) | h1)
        · exact Or.inl h1
        · exact Or.inr ⟨Or.inl h1, by rw [h1]; exact hn⟩
        · exact Or.inr ⟨Or.inr h1.1, h1.2⟩
      · rintro (h1 | ⟨h1 | h1, h2⟩)
        · exact Or.inl (Or.inl h1)
        · exact Or.inl (Or.inr h1)
        · exact Or.inr ⟨h1, h2⟩
    · rw [graph.insert_edge_absent g h e.1 e.2.1 e.2.2 hn]
      simp only [List.mem_cons]
      constructor
      · rintro (h1 | h1)
        · exact Or.inl h1
        · exact Or.inr ⟨Or.inr h1.1, h1.2⟩
      · rintro (h1 | ⟨h1 | h1, h2⟩)
        · exact Or.inl h1
        · rw [h1] at h2
          exact absurd h2 hn
        · exact Or.inr ⟨h1, h2⟩

omit [LinearOrder N] [LinearOrder E] in
theorem std_equal_self {α : Type} [DecidableEq α] (l : List α) :
    graph.std_equal (fun lhs rhs => decide (lhs = rhs)) l l = some true := by
  induction l with
  | nil => rfl
  | cons a as ih => simp [graph.std_equal, ih]

theorem graph.std_equal_edges_self (g : graph N E) (h : g.WF) (Y X : List (N × N × E))
    (fuel : Nat) (he : g.edges = X ++ Y) (hfuel : Y.length < fuel) :
    graph.std_equal_edges
      (fun lhs rhs => decide (lhs.from_ = rhs.from_) && decide (lhs.to_ = rhs.to_)
        && decide (lhs.weight = rhs.weight))
      g.repr_ g.repr_ fuel (iterator.at_pos Y.head?) g.end_ (iterator.at_pos Y.head?)
      = some true := by
  induction Y generalizing X fuel with
  | nil =>
    cases fuel with
    | zero => exact absurd hfuel (Nat.lt_irrefl _)
    | succ f => rfl
  | cons t Y1 ih =>
    cases fuel with
    | zero => exact absurd hfuel (Nat.not_lt_zero _)
    | succ f =>
      have hstep := graph.incr_at_pos g h X Y1 t he
      have hrec := ih (X ++ [t]) f (by rw [he]; simp) (Nat.lt_of_succ_lt_succ hfuel)
      rw [List.head?_cons, at_pos_some]
      unfold graph.std_equal_edges
      rw [at_edge_eq_end g t, hstep, deref_at_edge]
      simp only [Bool.false_eq_true, if_false, decide_True, Bool.and_self, if_true]
      exact hrec

theorem graph.operator_eq_self (g : graph N E) (h : g.WF) : g.operator_eq g = some true := by
  unfold graph.operator_eq
  rw [std_equal_self, graph.begin_eq,
    graph.std_equal_edges_self g h g.edges [] _ (by simp) (Nat.lt_succ_self _)]
  rfl

theorem graph.traversal_eq (g : graph N E) (h : g.WF) :
    g.traversal = some (g.edges.map graph.to_value) := by
  unfold graph.traversal
  rw [graph.begin_eq]
  exact graph.traverse_from_suffix g h g.edges [] _ (by simp) (Nat.lt_succ_self _)

end order_lemmas

/-! ## Claim on the insertion order -/

section order_claims

variable {N E : Type} [LinearOrder N] [LinearOrder E]

/-- C26: let the nodes `vs1` be inserted and then the edges `es1`, and likewise a
permutation `vs2` of the nodes and then a permutation `es2` of the edges.  The two graphs
have the same members, so `operator==` returns true on them, and `nodes()`, the edge
traversal and the text of `operator<<` are the same; the traversal returns.  When every
triple of `es1` joins values of `vs1`, the edges are exactly the triples of `es1`. -/
theorem insertion_order_independent (vs1 vs2 : List N) (es1 es2 : List (N × N × E))
    (hv : vs1.Perm vs2) (he : es1.Perm es2) :
    (graph.of_range vs1).insert_edges es1 = (graph.of_range vs2).insert_edges es2 ∧
    ((graph.of_range vs1).insert_edges es1).operator_eq ((graph.of_range vs2).insert_edges es2)
      = some true ∧
    ((graph.of_range vs1).insert_edges es1).nodes
      = ((graph.of_range vs2).insert_edges es2).nodes ∧
    ((graph.of_range vs1).insert_edges es1).traversal
      = ((graph.of_range vs2).insert_edges es2).traversal ∧
    ((graph.of_range vs1).insert_edges es1).traversal
      = some (((graph.of_range vs1).insert_edges es1).edges.map graph.to_value) ∧
    (∀ (text_N : N → String) (text_E : E → String) (os : String),
      ((graph.of_range vs1).insert_edges es1).operator_lshift text_N text_E os
        = ((graph.of_range vs2).insert_edges es2).operator_lshift text_N text_E os) ∧
    (∀ x, x ∈ ((graph.of_range vs1).insert_edges es1).nodes ↔ x ∈ vs1) ∧
    ((∀ t ∈ es1, t.1 ∈ vs1 ∧ t.2.1 ∈ vs1) →
      ∀ t, t ∈ ((graph.of_range vs1).insert_edges es1).edges ↔ t ∈ es1) := by
  have hw1 : (graph.of_range vs1 : graph N E).WF := graph.of_range_WF vs1
  have hw2 : (graph.of_range vs2 : graph N E).WF := graph.of_range_WF vs2
  have hg1 := graph.insert_edges_WF es1 _ hw1
  have hg2 := graph.insert_edges_WF es2 _ hw2
  have hnode : ∀ (vs : List N) (x : N),
      (graph.of_range vs : graph N E).is_node x = true ↔ x ∈ vs := by
    intro vs x
    rw [graph.is_node_iff_mem _ (graph.of_range_WF vs).1, graph.mem_of_range]
  have hedges : ∀ (vs : List N) (es : List (N × N × E)) (t : N × N × E),
      t ∈ ((graph.of_range vs).insert_edges es).edges ↔ t ∈ es ∧ t.1 ∈ vs ∧ t.2.1 ∈ vs := by
    intro vs es t
    rw [graph.mem_insert_edges es _ (graph.of_range_WF vs), graph.of_range_edges, hnode, hnode]
    simp
  have heq : (graph.of_range vs1).insert_edges es1 = (graph.of_range vs2).insert_edges es2 := by
    apply graph.ext_of_WF _ _ hg1 hg2
    · intro x
      rw [graph.insert_edges_nodes, graph.insert_edges_nodes, graph.mem_of_range,
        graph.mem_of_range]
      exact hv.mem_iff
    · intro t
      rw [hedges, hedges, he.mem_iff, hv.mem_iff, hv.mem_iff]
  refine ⟨heq, ?_, ?_, ?_, graph.traversal_eq _ hg1, ?_, ?_, ?_⟩
  · rw [← heq]
    exact graph.operator_eq_self _ hg1
  · rw [heq]
  · rw [heq]
  · intro text_N text_E os
    rw [heq]
  · intro x
    unfold graph.nodes
    rw [graph.insert_edges_nodes, graph.mem_of_range]
  · intro hover t
    rw [hedges]
    constructor
    · exact fun ht => ht.1
    · exact fun ht => ⟨ht, hover t ht⟩

/-- Witness of C26 on the graph of the iterator tests, built from the nodes 3, 0, 2, 1
and once more from the nodes 0, 1, 2, 3 with the edges in another order. -/
theorem insertion_order_independent_witness :
    (graph.of_range [3, 0, 2, 1]).insert_edges [(2, 3, 8), (0, 1, 6), (0, 1, 1)]
      = scenario_iterator ∧
    ((graph.of_range [0, 1, 2, 3]).insert_edges [(0, 1, 1), (2, 3, 8), (0, 1, 6)]).edges
      = [(0, 1, 1), (0, 1, 6), (2, 3, 8)] ∧
    (graph.of_range [3, 0, 2, 1]).insert_edges [(2, 3, 8), (0, 1, 6), (0, 1, 1)]
      = (graph.of_range [0, 1, 2, 3]).insert_edges [((0 : Nat), (1 : Nat), (1 : Nat)), (2, 3, 8),
          (0, 1, 6)] :=
  ⟨by decide, by decide,
    (insertion_order_independent [3, 0, 2, 1] [0, 1, 2, 3] [(2, 3, 8), (0, 1, 6), (0, 1, 1)]
      [(0, 1, 1), (2, 3, 8), (0, 1, 6)] (by decide) (by decide)).1⟩

end order_claims

end gdwg

namespace gdwg

/-! ## Mutators that keep the graph free of dangling edges -/

section closed_lemmas

variable {N E : Type} [LinearOrder N] [LinearOrder E]

omit [LinearOrder E] in
theorem graph.is_node_congr (g1 g2 : graph N E) (h : g1.nodes_ = g2.nodes_) (x : N) :
    g1.is_node x = g2.is_node x := by
  unfold graph.is_node graph.nodes_find
  rw [h]

theorem graph.erase_edge_subset (g : graph N E) (h : g.WF) (src dst : N) (weight : E)
    (t : N × N × E) (ht : t ∈ (g.erase_edge src dst weight).2.edges) : t ∈ g.edges := by
  cases hf : g.repr_find src with
  | none =>
    simp only [graph.erase_edge, hf] at ht
    exact ht
  | some o =>
    cases hn : g.repr_find dst with
    | none =>
      simp only [graph.erase_edge, hf, hn] at ht
      exact ht
    | some n =>
      rw [graph.erase_edge_found g src dst weight o n hf hn] at ht
      have hkeys : ((modify_by (fun kv => MapCompare kv.1 src) (fun kv => MapCompare src kv.1)
          (fun kv => (kv.1, (erase_by (fun e => EdgeCompare e (dst, weight))
            (fun e => EdgeCompare (dst, weight) e) o.2).1)) g.repr_).map Prod.fst).Pairwise
          (fun a b => a < b) := by
        rw [map_fst_modify_const]
        exact h.keys_sorted
      obtain ⟨s, d, w⟩ := t
      have ht1 := (mem_edges_iff _ hkeys s d w).1 ht
      rw [find_by_modify_const] at ht1
      rw [graph.mem_edges g h.keys_sorted]
      by_cases hs : s = src
      · subst hs
        unfold graph.repr_find at hf
        rw [if_pos rfl, hf] at ht1
        obtain ⟨kv, hkv, hmem⟩ := ht1
        simp only [Option.map_some', Option.some.injEq] at hkv
        subst hkv
        exact ⟨o, hf, (erase_by_sublist _ _ _).subset hmem⟩
      · rw [if_neg hs] at ht1
        exact ht1

theorem graph.erase_edge_it_subset (g : graph N E) (i : iterator N E)
    (r : iterator N E × graph N E) (hr : g.erase_edge_it i = some r) (t : N × N × E)
    (ht : t ∈ r.2.edges) : t ∈ g.edges := by
  unfold graph.erase_edge_it at hr
  split at hr
  · cases hr
    exact ht
  · split at hr
    · exact absurd hr (by simp)
    · split at hr
      · cases hr
        rw [graph.mem_edges_entry] at ht ⊢
        obtain ⟨kv, hkv, h1, h2⟩ := ht
        rcases mem_update_entry _ _ g.repr_ kv hkv with h3 | ⟨kv0, h3, h4⟩
        · exact ⟨kv, h3, h1, h2⟩
        · subst h4
          exact ⟨kv0, h3, h1, (List.erase_sublist _ _).subset h2⟩
      · exact absurd hr (by simp)

theorem graph.erase_edge_loop_subset (fuel : Nat) (g : graph N E) (i s : iterator N E)
    (r : iterator N E × graph N E) (hr : graph.erase_edge_loop fuel g i s = some r)
    (t : N × N × E) (ht : t ∈ r.2.edges) : t ∈ g.edges := by
  induction fuel generalizing g i with
  | zero => simp [graph.erase_edge_loop] at hr
  | succ fuel ih =>
    unfold graph.erase_edge_loop at hr
    split at hr
    · cases h1 : g.erase_edge_it i with
      | none =>
        rw [h1] at hr
        exact absurd hr (by simp)
      | some r1 =>
        rw [h1] at hr
        exact graph.erase_edge_it_subset g i r1 h1 t (ih r1.2 r1.1 hr)
    · cases hr
      exact ht

/-- On a well-formed graph without dangling edge, `insert_node`, `insert_edge`, the three
overloads of `erase_edge` and `clear` leave no dangling edge, whatever they return or
throw. -/
theorem graph.closed_preserved (g : graph N E) (h : g.WF) (hc : g.closed) :
    (∀ value, (g.insert_node value).2.closed) ∧
    (∀ src dst weight, (g.insert_edge src dst weight).2.closed) ∧
    (∀ src dst weight, (g.erase_edge src dst weight).2.closed) ∧
    (∀ i r, g.erase_edge_it i = some r → r.2.closed) ∧
    (∀ i s r, g.erase_edge_range i s = some r → r.2.closed) ∧
    g.clear.closed := by
  refine ⟨?_, ?_, ?_, ?_, ?_, ?_⟩
  · intro value t ht
    rw [graph.insert_node_edges] at ht
    rw [graph.is_node_iff_mem _ (graph.insert_node_WF g h value).1, graph.mem_insert_node]
    exact Or.inr ((graph.is_node_iff_mem g h.1 _).1 (hc t ht))
  · intro src dst weight t ht
    rw [graph.is_node_congr _ g (graph.insert_edge_nodes g src dst weight)]
    by_cases hn : g.is_node src = true ∧ g.is_node dst = true
    · rcases (graph.insert_edge_edges g h src dst weight hn.1 hn.2 t).1 ht with h1 | h1
      · exact hc t h1
      · rw [h1]
        exact hn.2
    · rw [graph.insert_edge_absent g h src dst weight hn] at ht
      exact hc t ht
  · intro src dst weight t ht
    rw [graph.is_node_congr _ g (graph.erase_edge_nodes g src dst weight)]
    exact hc t (graph.erase_edge_subset g h src dst weight t ht)
  · intro i r hr t ht
    rw [graph.is_node_congr _ g (graph.erase_edge_it_nodes g i r hr)]
    exact hc t (graph.erase_edge_it_subset g i r hr t ht)
  · intro i s r hr t ht
    rw [graph.is_node_congr _ g (graph.erase_edge_loop_nodes _ g i s r hr)]
    exact hc t (graph.erase_edge_loop_subset _ g i s r hr t ht)
  · intro t ht
    exact absurd ht (List.not_mem_nil _)

end closed_lemmas

end gdwg

namespace gdwg

/-! ## Lemmas on `erase_node` without parallel incoming edges and on round trips -/

section round_trip_lemmas

variable {N E : Type} [LinearOrder N] [LinearOrder E]

omit [LinearOrder E] in
theorem mem_erase_incoming_from_head (value : N) (e : N × E) (es : List (N × E))
    (he : e.1 = value) (a : N × E) (ha : a ∈ graph.erase_incoming_from value (e :: es)) :
    a ∈ es := by
  cases es with
  | nil =>
    simp only [graph.erase_incoming_from, he, if_true] at ha
    exact absurd ha (List.not_mem_nil _)
  | cons e2 rest =>
    simp only [graph.erase_incoming_from, he, if_true] at ha
    rcases List.mem_cons.1 ha with h1 | h1
    · rw [h1]
      exact List.mem_cons_self _ _
    · exact List.mem_cons_of_mem _ ((erase_incoming_from_sublist value rest).subset h1)

theorem erase_incoming_no_target (value : N) (l : List (N × E))
    (hs : l.Pairwise (fun a b => EdgeCompare a b = true))
    (hu : ∀ a ∈ l, ∀ b ∈ l, a.1 = value → b.1 = value → a = b) (a : N × E)
    (ha : a ∈ graph.erase_incoming value l) : a.1 ≠ value := by
  induction l with
  | nil => exact absurd ha (List.not_mem_nil _)
  | cons e es ih =>
    rw [List.pairwise_cons] at hs
    unfold graph.erase_incoming at ha
    split at ha
    · rename_i hb
      have hlt : e.1 < value := by simpa [EdgeCompare_pair_key] using hb
      rcases List.mem_cons.1 ha with h1 | h1
      · rw [h1]
        exact ne_of_lt hlt
      · exact ih hs.2 (fun x hx y hy => hu x (List.mem_cons_of_mem _ hx) y
          (List.mem_cons_of_mem _ hy)) h1
    · rename_i hb
      split at ha
      · rename_i hc
        have hlt : value < e.1 := by simpa [EdgeCompare_key_pair] using hc
        rcases List.mem_cons.1 ha with h1 | h1
        · rw [h1]
          exact ne_of_gt hlt
        · exact ne_of_gt (lt_of_lt_of_le hlt (EdgeCompare_le_fst e a (hs.1 a h1)))
      · rename_i hc
        have hge : ¬ e.1 < value := by simpa [EdgeCompare_pair_key] using hb
        have hle : ¬ value < e.1 := by simpa [EdgeCompare_key_pair] using hc
        have hev : e.1 = value := le_antisymm (not_lt.1 hle) (not_lt.1 hge)
        have hmem := mem_erase_incoming_from_head value e es hev a ha
        intro hav
        have hae : a = e := hu a (List.mem_cons_of_mem _ hmem) e (List.mem_cons_self _ _) hav hev
        have hlt := hs.1 a hmem
        rw [hae, EdgeCompare_strictTotal.irrefl e] at hlt
        exact absurd hlt (by simp)

theorem graph.erase_node_no_incoming (g : graph N E) (h : g.WF) (value : N)
    (hv : g.is_node value = true)
    (hu : ∀ t1 ∈ g.edges, ∀ t2 ∈ g.edges,
      t1.1 = t2.1 → t1.2.1 = value → t2.2.1 = value → t1 = t2)
    (t : N × N × E) (ht : t ∈ (g.erase_node value).2.edges) : t.2.1 ≠ value := by
  unfold graph.is_node at hv
  cases hf : g.nodes_find value with
  | none =>
    rw [hf] at hv
    exact absurd hv (by simp)
  | some node =>
    rw [graph.erase_node_found g value node hf, graph.mem_edges_entry] at ht
    obtain ⟨kv, hkv, h1, h2⟩ := ht
    have hkv1 := (erase_by_sublist _ _ _).subset hkv
    obtain ⟨kv0, hkv0, heq⟩ := List.mem_map.1 hkv1
    subst heq
    refine erase_incoming_no_target value kv0.2 (h.2.2 kv0 hkv0) ?_ t.2 h2
    intro a ha b hb hav hbv
    have := hu (kv0.1, a.1, a.2) (graph.mem_edges_of_mem g kv0 a hkv0 ha)
      (kv0.1, b.1, b.2) (graph.mem_edges_of_mem g kv0 b hkv0 hb) rfl hav hbv
    simp only [Prod.mk.injEq, true_and] at this
    exact Prod.ext this.1 this.2

theorem graph.insert_edge_ret (g : graph N E) (h : g.WF) (src dst : N) (weight : E)
    (hsrc : g.is_node src = true) (hdst : g.is_node dst = true) :
    (g.insert_edge src dst weight).1 = Res.ret (decide ((src, dst, weight) ∉ g.edges)) := by
  obtain ⟨o, hf⟩ := graph.repr_find_of_is_node g h src hsrc
  obtain ⟨n, hn⟩ := graph.repr_find_of_is_node g h dst hdst
  have ho := find_by_key_some src g.repr_ o hf
  have hsorted := h.2.2 o ho.2
  have hmem : (src, dst, weight) ∈ g.edges ↔ (dst, weight) ∈ o.2 := by
    rw [graph.mem_edges g h.keys_sorted, hf]
    simp
  rw [graph.insert_edge_found g src dst weight o n hf hn]
  simp only [Res.ret.injEq]
  rw [Bool.eq_iff_iff, decide_eq_true_iff, hmem]
  exact insert_by_flag EdgeCompare EdgeCompare_strictTotal (dst, weight) o.2 hsorted

theorem graph.erase_edge_ret (g : graph N E) (h : g.WF) (src dst : N) (weight : E)
    (hsrc : g.is_node src = true) (hdst : g.is_node dst = true) :
    (g.erase_edge src dst weight).1 = Res.ret (decide ((src, dst, weight) ∈ g.edges)) := by
  obtain ⟨o, hf⟩ := graph.repr_find_of_is_node g h src hsrc
  obtain ⟨n, hn⟩ := graph.repr_find_of_is_node g h dst hdst
  have ho := find_by_key_some src g.repr_ o hf
  have hsorted := h.2.2 o ho.2
  have hmem : (src, dst, weight) ∈ g.edges ↔ (dst, weight) ∈ o.2 := by
    rw [graph.mem_edges g h.keys_sorted, hf]
    simp
  have hfound : (find_by (fun e => EdgeCompare e (dst, weight))
      (fun e => EdgeCompare (dst, weight) e) o.2).isSome = true ↔ (dst, weight) ∈ o.2 :=
    find_by_isSome_iff_mem EdgeCompare EdgeCompare_strictTotal (dst, weight) o.2 hsorted
  rw [graph.erase_edge_found g src dst weight o n hf hn]
  simp only [Res.ret.injEq]
  rw [Bool.eq_iff_iff, decide_eq_true_iff, decide_eq_true_iff, hmem, ← hfound,
    erase_by_flag_eq_find]
  split <;> simp_all

theorem graph.erase_edge_edges (g : graph N E) (h : g.WF) (src dst : N) (weight : E)
    (hsrc : g.is_node src = true) (hdst : g.is_node dst = true) (t : N × N × E) :
    t ∈ (g.erase_edge src dst weight).2.edges ↔ t ∈ g.edges ∧ t ≠ (src, dst, weight) := by
  obtain ⟨o, hf⟩ := graph.repr_find_of_is_node g h src hsrc
  obtain ⟨n, hn⟩ := graph.repr_find_of_is_node g h dst hdst
  have ho := find_by_key_some src g.repr_ o hf
  have hsorted := h.2.2 o ho.2
  have hres := graph.erase_edge_found g src dst weight o n hf hn
  have hkeys := (graph.erase_edge_WF g h src dst weight).keys_sorted
  obtain ⟨s, d, w⟩ := t
  rw [graph.mem_edges _ hkeys, graph.mem_edges g h.keys_sorted]
  have hfind : (g.erase_edge src dst weight).2.repr_find s
      = if s = src then some (o.1, (erase_by (fun e => EdgeCompare e (dst, weight))
          (fun e => EdgeCompare (dst, weight) e) o.2).1)
        else g.repr_find s := by
    rw [hres]
    unfold graph.repr_find
    simp only
    rw [find_by_modify_const]
    by_cases hs : s = src
    · simp only [hs, if_true]
      have : find_by (fun kv => MapCompare kv.1 src) (fun kv => MapCompare src kv.1) g.repr_
          = some o := hf
      rw [this]
      rfl
    · simp only [hs, if_false]
  rw [hfind]
  by_cases hs : s = src
  · subst hs
    simp only [if_true, Option.some.injEq, exists_eq_left', hf, Prod.mk.injEq, true_and]
    rw [mem_erase_by EdgeCompare EdgeCompare_strictTotal _ _ _ hsorted]
    simp only [ne_eq, Prod.mk.injEq, true_and]
  · simp only [hs, if_false, ne_eq, Prod.mk.injEq, false_and, not_false_eq_true, and_true]

end round_trip_lemmas

/-! ## Claims on `erase_node` without parallel incoming edges and on round trips -/

section round_trip_claims

variable {N E : Type} [LinearOrder N] [LinearOrder E]

/-- C31: on a well-formed graph in which `v` is a node and no source has two edges into
`v`, `erase_node(v)` returns true, the edges of the result are exactly the edges of the
graph whose source and destination both differ from `v`, each once, and the nodes of the
result are the other nodes. -/
theorem erase_node_exact (g : graph N E) (h : g.WF) (v : N) (hv : g.is_node v = true)
    (hu : ∀ t1 ∈ g.edges, ∀ t2 ∈ g.edges, t1.1 = t2.1 → t1.2.1 = v → t2.2.1 = v → t1 = t2) :
    (g.erase_node v).1 = true ∧
    (∀ t, t ∈ (g.erase_node v).2.edges ↔ t ∈ g.edges ∧ t.1 ≠ v ∧ t.2.1 ≠ v) ∧
    (g.erase_node v).2.edges.Nodup ∧
    (∀ x, (g.erase_node v).2.is_node x = true ↔ g.is_node x = true ∧ x ≠ v) := by
  refine ⟨?_, ?_, (graph.erase_node_WF g h v).edges_nodup,
    fun x => graph.erase_node_is_node g h v x⟩
  · unfold graph.is_node at hv
    cases hf : g.nodes_find v with
    | none =>
      rw [hf] at hv
      exact absurd hv (by simp)
    | some node => rw [graph.erase_node_found g v node hf]
  · intro t
    constructor
    · intro ht
      have h1 := (graph.erase_node_mem_edges g h v hv t).2 ht
      exact ⟨h1.1, h1.2, graph.erase_node_no_incoming g h v hv hu t ht⟩
    · rintro ⟨h1, h2, h3⟩
      exact (graph.erase_node_mem_edges g h v hv t).1 h1 h2 h3

/-- Witness of C31 on the graph of the node replacement test, where the edges 1 → 3,
2 → 3 and 3 → 3 lead into node 3 from three sources: `erase_node(3)` leaves the edge
1 → 2. -/
theorem erase_node_exact_witness :
    scenario_replacement.edges = [(1, 2, 1), (1, 3, 2), (2, 3, 3), (3, 3, 4)] ∧
    (scenario_replacement.erase_node 3).2.edges = [(1, 2, 1)] ∧
    (scenario_replacement.erase_node 3).1 = true ∧
    ∀ t, t ∈ (scenario_replacement.erase_node 3).2.edges
      ↔ t ∈ scenario_replacement.edges ∧ t.1 ≠ 3 ∧ t.2.1 ≠ 3 :=
  ⟨by decide, by decide,
    (erase_node_exact scenario_replacement (by decide) 3 (by decide) (by decide)).1,
    (erase_node_exact scenario_replacement (by decide) 3 (by decide) (by decide)).2.1⟩

/-- C32: on a well-formed graph with nodes `src` and `dst`, if `(src, dst, w)` is not an
edge then `insert_edge(src, dst, w)` returns true, `erase_edge(src, dst, w)` after it
returns true, and the graph is again the one before the two calls; if `(src, dst, w)` is
an edge then `erase_edge` returns true, `insert_edge` after it returns true, and the graph
is again the one before.  In both cases `nodes()` and the edge traversal are the ones of
the first graph and `operator==` with it returns true. -/
theorem insert_erase_round_trip (g : graph N E) (h : g.WF) (src dst : N) (w : E)
    (hsrc : g.is_node src = true) (hdst : g.is_node dst = true) :
    ((src, dst, w) ∉ g.edges →
      (g.insert_edge src dst w).1 = Res.ret true ∧
      ((g.insert_edge src dst w).2.erase_edge src dst w).1 = Res.ret true ∧
      ((g.insert_edge src dst w).2.erase_edge src dst w).2 = g ∧
      ((g.insert_edge src dst w).2.erase_edge src dst w).2.nodes = g.nodes ∧
      ((g.insert_edge src dst w).2.erase_edge src dst w).2.traversal = g.traversal ∧
      ((g.insert_edge src dst w).2.erase_edge src dst w).2.operator_eq g = some true) ∧
    ((src, dst, w) ∈ g.edges →
      (g.erase_edge src dst w).1 = Res.ret true ∧
      ((g.erase_edge src dst w).2.insert_edge src dst w).1 = Res.ret true ∧
      ((g.erase_edge src dst w).2.insert_edge src dst w).2 = g ∧
      ((g.erase_edge src dst w).2.insert_edge src dst w).2.nodes = g.nodes ∧
      ((g.erase_edge src dst w).2.insert_edge src dst w).2.traversal = g.traversal ∧
      ((g.erase_edge src dst w).2.insert_edge src dst w).2.operator_eq g = some true) := by
  constructor
  · intro hne
    have hw1 := graph.insert_edge_WF g h src dst w
    have hn1 := graph.insert_edge_nodes g src dst w
    have hsrc1 : (g.insert_edge src dst w).2.is_node src = true := by
      rw [graph.is_node_congr _ g hn1]
      exact hsrc
    have hdst1 : (g.insert_edge src dst w).2.is_node dst = true := by
      rw [graph.is_node_congr _ g hn1]
      exact hdst
    have hin : (src, dst, w) ∈ (g.insert_edge src dst w).2.edges :=
      (graph.insert_edge_edges g h src dst w hsrc hdst _).2 (Or.inr rfl)
    have heq : ((g.insert_edge src dst w).2.erase_edge src dst w).2 = g := by
      apply graph.ext_of_WF _ _ (graph.erase_edge_WF _ hw1 src dst w) h
      · intro x
        rw [graph.erase_edge_nodes, hn1]
      · intro t
        rw [graph.erase_edge_edges _ hw1 src dst w hsrc1 hdst1,
          graph.insert_edge_edges g h src dst w hsrc hdst]
        constructor
        · rintro ⟨h1 | h1, h2⟩
          · exact h1
          · exact absurd h1 h2
        · intro h1
          exact ⟨Or.inl h1, fun h2 => hne (h2 ▸ h1)⟩
    refine ⟨?_, ?_, heq, by rw [heq], by rw [heq], ?_⟩
    · rw [graph.insert_edge_ret g h src dst w hsrc hdst]
      simp [hne]
    · rw [graph.erase_edge_ret _ hw1 src dst w hsrc1 hdst1]
      simp [hin]
    · rw [heq]
      exact graph.operator_eq_self g h
  · intro hmem
    have hw1 := graph.erase_edge_WF g h src dst w
    have hn1 := graph.erase_edge_nodes g src dst w
    have hsrc1 : (g.erase_edge src dst w).2.is_node src = true := by
      rw [graph.is_node_congr _ g hn1]
      exact hsrc
    have hdst1 : (g.erase_edge src dst w).2.is_node dst = true := by
      rw [graph.is_node_congr _ g hn1]
      exact hdst
    have hout : (src, dst, w) ∉ (g.erase_edge src dst w).2.edges := fun hc =>
      ((graph.erase_edge_edges g h src dst w hsrc hdst _).1 hc).2 rfl
    have heq : ((g.erase_edge src dst w).2.insert_edge src dst w).2 = g := by
      apply graph.ext_of_WF _ _ (graph.insert_edge_WF _ hw1 src dst w) h
      · intro x
        rw [graph.insert_edge_nodes, hn1]
      · intro t
        rw [graph.insert_edge_edges _ hw1 src dst w hsrc1 hdst1,
          graph.erase_edge_edges g h src dst w hsrc hdst]
        constructor
        · rintro (h1 | h1)
          · exact h1.1
          · rw [h1]
            exact hmem
        · intro h1
          by_cases h2 : t = (src, dst, w)
          · exact Or.inr h2
          · exact Or.inl ⟨h1, h2⟩
    refine ⟨?_, ?_, heq, by rw [heq], by rw [heq], ?_⟩
    · rw [graph.erase_edge_ret g h src dst w hsrc hdst]
      simp [hmem]
    · rw [graph.insert_edge_ret _ hw1 src dst w hsrc1 hdst1]
      simp [hout]
    · rw [heq]
      exact graph.operator_eq_self g h

/-- Witness of C32 on the graph with the edges 1 → 2 (7) and 1 → 3 (8): the triple
(1, 2, 9) is inserted and erased, the edge (1, 2, 7) is erased and inserted. -/
theorem insert_erase_round_trip_witness :
    (example_fan.insert_edge 1 2 9).2.edges = [(1, 2, 7), (1, 2, 9), (1, 3, 8)] ∧
    ((example_fan.insert_edge 1 2 9).2.erase_edge 1 2 9).2 = example_fan ∧
    (example_fan.erase_edge 1 2 7).2.edges = [(1, 3, 8)] ∧
    ((example_fan.erase_edge 1 2 7).2.insert_edge 1 2 7).2 = example_fan ∧
    ((example_fan.insert_edge 1 2 9).1 = Res.ret true ∧
      ((example_fan.insert_edge 1 2 9).2.erase_edge 1 2 9).1 = Res.ret true ∧
      ((example_fan.insert_edge 1 2 9).2.erase_edge 1 2 9).2 = example_fan ∧
      ((example_fan.insert_edge 1 2 9).2.erase_edge 1 2 9).2.nodes = example_fan.nodes ∧
      ((example_fan.insert_edge 1 2 9).2.erase_edge 1 2 9).2.traversal
        = example_fan.traversal ∧
      ((example_fan.insert_edge 1 2 9).2.erase_edge 1 2 9).2.operator_eq example_fan
        = some true) :=
  ⟨by decide, by decide, by decide, by decide,
    (insert_erase_round_trip example_fan (by decide) 1 2 9 (by decide) (by decide)).1
      (by decide)⟩

end round_trip_claims

end gdwg
